import Mathlib

/-!
Feature selection by forward / backward search (`search.cpp`).

A shallow embedding of the nearest-neighbour leave-one-out evaluator, the
round reduction, the two greedy search controllers and the worker pool of
`search.cpp`, together with theorems about them.

Modelling conventions.

* The evaluator is modelled in exact arithmetic and in `double` arithmetic.
  In `leave_one_out_cross_validation`, on which the searches are built, a
  `double` is an exact rational (`ℚ`): sums, differences, squares and the
  final quotient are computed without rounding, and the value `sqrt(x)` is
  kept exactly, as the record `SqrtVal` holding the radicand `x`; the
  comparison `<` of two such values is the comparison of their radicands
  (`sqrt` is strictly increasing on non-negative numbers, see
  `SqrtVal.lt_iff_real_sqrt_lt`).
  In `double_leave_one_out_cross_validation` a `double` is a value of the
  type `Double` (a finite number, an infinity or a NaN) and the operations
  `+`, `-`, `/`, `pow(x, 2)` and `sqrt` are a parameter `ops`; `binary64_ops`
  is IEEE binary64 arithmetic, with rounding to nearest, subnormal numbers,
  overflow to an infinity and NaN. `normalize_data` is modelled in `double`
  arithmetic only.
* `numeric_limits<double>::max()` is the finite constant `DBL_MAX`.
* A `vector` read outside its bounds makes the enclosing function return
  `none`.
* `static_cast<int>` of a `double` truncates toward zero into the 32-bit
  `int`; outside the range of `int`, where the conversion is undefined, the
  result is `INT_MIN`, as on x86-64.
-/

namespace Search

/-- A sample: position 0 is the class label, positions 1..D are features. -/
abbrev Sample := List ℚ

/-- A dataset: the samples in file order. -/
abbrev Dataset := List Sample

/-- The exact value `sqrt(radicand)`. -/
structure SqrtVal where
  radicand : ℚ
  deriving DecidableEq, Repr

instance : LT SqrtVal := ⟨fun a b => a.radicand < b.radicand⟩

instance (a b : SqrtVal) : Decidable (a < b) :=
  inferInstanceAs (Decidable (a.radicand < b.radicand))

/-- The function `sqrt` of `<cmath>` in exact arithmetic (`binary64_sqrt` is
the rounded one). -/
def sqrt (x : ℚ) : SqrtVal := ⟨x⟩

/-- The largest finite `double`, `(2^53 - 1) * 2^971`. -/
def DBL_MAX : ℚ := (2 ^ 53 - 1) * 2 ^ 971

/-- The constant `numeric_limits<double>::max()` as a distance value:
`DBL_MAX = sqrt(DBL_MAX^2)`. -/
def numeric_limits_max : SqrtVal := ⟨DBL_MAX ^ 2⟩

/-- The constant `CLASS_LABEL_INDEX`. -/
def CLASS_LABEL_INDEX : Nat := 0

/-- The least value of the 32-bit type `int`. -/
def INT_MIN : ℤ := -2147483648

/-- The greatest value of the 32-bit type `int`. -/
def INT_MAX : ℤ := 2147483647

/-- The conversion `static_cast<int>(x)`: truncation toward zero. For a value
whose truncation is outside the range of `int` the conversion is undefined;
the model gives what the conversion instruction of x86-64 gives, `INT_MIN`. -/
def static_cast_int (x : ℚ) : ℤ :=
  let truncated : ℤ := if 0 ≤ x then ⌊x⌋ else ⌈x⌉
  if INT_MIN ≤ truncated ∧ truncated ≤ INT_MAX then truncated else INT_MIN

/-- The read `row[f]` of a `vector<double>` at an `int` index. -/
def at_index (row : Sample) (f : ℤ) : Option ℚ :=
  if 0 ≤ f then row[f.toNat]? else none

/-- The loop of `euclidean_distance`: `sum_sq += pow(p1[i] - p2[i], 2)` for
every position `i` of `p1`. -/
def sum_sq_loop : List ℚ → List ℚ → ℚ → Option ℚ
  | [], _, sum_sq => some sum_sq
  | _ :: _, [], _ => none
  | a :: p1, b :: p2, sum_sq => sum_sq_loop p1 p2 (sum_sq + (a - b) ^ 2)

/-- The function `euclidean_distance` in exact arithmetic
(`double_euclidean_distance` is the one in `double` arithmetic). -/
def euclidean_distance (p1 p2 : List ℚ) : Option SqrtVal :=
  (sum_sq_loop p1 p2 0).map sqrt

/-- The loop `for (int feature_index : evaluation_features)
point.push_back(row[feature_index])`. -/
def gather (row : Sample) : List ℤ → Option (List ℚ)
  | [] => some []
  | f :: fs =>
    match at_index row f, gather row fs with
    | some v, some rest => some (v :: rest)
    | _, _ => none

/-- The pair `nearest_neighbor_distance`, `nearest_neighbor_label`. -/
structure Nearest where
  nearest_neighbor_distance : SqrtVal
  nearest_neighbor_label : ℤ
  deriving DecidableEq, Repr

/-- One iteration of the loop over `k` in `leave_one_out_cross_validation`. -/
def neighbour_step (data : Dataset) (evaluation_features : List ℤ) (i : Nat)
    (object_to_classify : List ℚ) (nn : Nearest) (k : Nat) : Option Nearest :=
  if i = k then some nn
  else
    match data[k]? with
    | none => none
    | some row =>
      match gather row evaluation_features, at_index row CLASS_LABEL_INDEX with
      | some training_point, some label =>
        match euclidean_distance object_to_classify training_point with
        | some distance =>
          if distance < nn.nearest_neighbor_distance then
            some ⟨distance, static_cast_int label⟩
          else some nn
        | none => none
      | _, _ => none

/-- One iteration of the loop over `i` in `leave_one_out_cross_validation`:
classify sample `i` and count it when the prediction is right. -/
def classify_step (data : Dataset) (evaluation_features : List ℤ)
    (num_correctly_classified : Nat) (i : Nat) : Option Nat :=
  match data[i]? with
  | none => none
  | some row =>
    match gather row evaluation_features, at_index row CLASS_LABEL_INDEX with
    | some object_to_classify, some label =>
      match (List.range data.length).foldlM
          (neighbour_step data evaluation_features i object_to_classify)
          ⟨numeric_limits_max, -1⟩ with
      | some nn =>
        if static_cast_int label = nn.nearest_neighbor_label then
          some (num_correctly_classified + 1)
        else some num_correctly_classified
      | none => none
    | _, _ => none

/-- The function `leave_one_out_cross_validation` in exact arithmetic; the
quotient of an empty dataset (`0.0 / 0`, not a number) is `none`. -/
def leave_one_out_cross_validation (data : Dataset) (current_features : List ℤ)
    (feature_to_add : ℤ) : Option ℚ :=
  let num_samples := data.length
  let evaluation_features :=
    if feature_to_add ≠ -1 then current_features ++ [feature_to_add]
    else current_features
  match (List.range num_samples).foldlM (classify_step data evaluation_features) 0 with
  | some num_correctly_classified =>
    if num_samples = 0 then none
    else some ((num_correctly_classified : ℚ) / (num_samples : ℚ))
  | none => none

/-- The function `is_feature_present`. -/
def is_feature_present (feature_set : List ℤ) (feature_index : ℤ) : Bool :=
  feature_set.contains feature_index

/-! ## The worker pool `parallel_for` -/

/-- Where a worker thread stands in the loop of the lambda `worker`:
`waiting` at the head of the loop (before taking the queue lock), `holding k`
after it popped `k` and before `task(k)` has run, `finished` after `break`. -/
inductive Worker where
  | waiting
  | holding (task_index : ℤ)
  | finished
  deriving DecidableEq, Repr

/-- The state shared by the workers of one call of `parallel_for`: the queue
`tasks`, the threads, the counter `active_threads`, the indices on which
`task` has been invoked so far (oldest first) and the variables that `task`
captures by reference. -/
structure Pool (σ : Type) where
  tasks : List ℤ
  workers : List Worker
  active_threads : ℤ
  invoked : List ℤ
  shared : σ

/-- The next action of worker `w`. A waiting worker takes the queue lock and
either pops the front of the queue or, the queue being empty, leaves the loop;
a worker holding `k` runs `task(k)` and goes back to the head of the loop. The
call `task(k)` is one step: a task only writes shared variables inside its own
locked section. -/
def worker_step {σ : Type} (task : σ → ℤ → σ) (s : Pool σ) (w : Nat) : Pool σ :=
  match s.workers[w]? with
  | some Worker.waiting =>
    match s.tasks with
    | [] => { s with workers := s.workers.set w Worker.finished }
    | task_index :: rest =>
      { s with tasks := rest
               workers := s.workers.set w (Worker.holding task_index)
               active_threads := s.active_threads + 1 }
  | some (Worker.holding task_index) =>
    { s with workers := s.workers.set w Worker.waiting
             active_threads := s.active_threads - 1
             invoked := s.invoked ++ [task_index]
             shared := task s.shared task_index }
  | _ => s

/-- The workers that have not left their loop, by thread number. -/
def unfinished (workers : List Worker) : List Nat :=
  (List.range workers.length).filter (fun w => workers[w]? ≠ some Worker.finished)

/-- One step of the pool: the scheduler lets one unfinished worker, named by
`choice`, perform its next action. -/
def pool_step {σ : Type} (task : σ → ℤ → σ) (s : Pool σ) (choice : Nat) : Pool σ :=
  match unfinished s.workers with
  | [] => s
  | w :: ws => worker_step task s ((w :: ws).getD (choice % (w :: ws).length) w)

/-- The pool after `steps` steps under the schedule `sched` (the choice made
at each step). -/
def pool_run {σ : Type} (task : σ → ℤ → σ) : Nat → Pool σ → (Nat → Nat) → Pool σ
  | 0, s, _ => s
  | steps + 1, s, sched =>
    pool_run task steps (pool_step task s (sched 0)) (fun t => sched (t + 1))

/-- The queue of `parallel_for`: `start, start + 1, ..., end - 1`. -/
def task_queue (start end_ : ℤ) : List ℤ :=
  (List.range (end_ - start).toNat).map (fun (j : Nat) => start + (j : ℤ))

/-- The pool as `parallel_for` sets it up: the queue filled, `max_threads`
workers created. -/
def pool_init {σ : Type} (start end_ max_threads : ℤ) (shared : σ) : Pool σ :=
  { tasks := task_queue start end_
    workers := List.replicate max_threads.toNat Worker.waiting
    active_threads := 0
    invoked := []
    shared := shared }

/-- The number of steps after which every worker has left its loop: two per
queued index (pop, run) and one per worker (leave). -/
def pool_steps (start end_ max_threads : ℤ) : Nat :=
  2 * (task_queue start end_).length + max_threads.toNat

/-- The pool at the moment `parallel_for` returns (all threads joined). -/
def parallel_for_pool {σ : Type} (start end_ max_threads : ℤ) (task : σ → ℤ → σ)
    (shared : σ) (sched : Nat → Nat) : Pool σ :=
  pool_run task (pool_steps start end_ max_threads)
    (pool_init start end_ max_threads shared) sched

/-- The function `parallel_for`: the captured variables after the call. -/
def parallel_for {σ : Type} (start end_ max_threads : ℤ) (task : σ → ℤ → σ)
    (shared : σ) (sched : Nat → Nat) : σ :=
  (parallel_for_pool start end_ max_threads task shared sched).shared

/-- All threads can be joined. -/
def joined {σ : Type} (s : Pool σ) : Prop := ∀ w ∈ s.workers, w = Worker.finished

/-! ## The search controllers -/

/-- The round-level record: `best_accuracy_at_this_level` and
`feature_to_add_at_this_level` (`feature_to_remove_at_this_level` in backward
elimination); `-1` stands for no feature. -/
structure LevelBest where
  best_accuracy_at_this_level : ℚ
  feature_at_this_level : ℤ
  deriving DecidableEq, Repr

/-- The record at the start of a round. -/
def level_init : LevelBest := ⟨0, -1⟩

/-- The locked section of a task: `if (accuracy > best_accuracy_at_this_level)`
record the accuracy and `k`. -/
def locked_update (best : LevelBest) (accuracy : ℚ) (k : ℤ) : LevelBest :=
  if accuracy > best.best_accuracy_at_this_level then ⟨accuracy, k⟩ else best

/-- The task of a forward round, on the record of the round (`none` once a
read went out of bounds). -/
def forward_task (data : Dataset) (current_set_of_features : List ℤ)
    (best : Option LevelBest) (k : ℤ) : Option LevelBest :=
  match best with
  | none => none
  | some b =>
    if !is_feature_present current_set_of_features k then
      let temp_features := current_set_of_features ++ [k]
      match leave_one_out_cross_validation data temp_features (-1) with
      | some accuracy => some (locked_update b accuracy k)
      | none => none
    else some b

/-- The variables of a search: `current_set_of_features`,
`best_set_of_features`, `best_so_far_accuracy`. -/
structure SearchState where
  current_set_of_features : List ℤ
  best_set_of_features : List ℤ
  best_so_far_accuracy : ℚ
  deriving DecidableEq, Repr

/-- The part of a forward round after `parallel_for` has returned. -/
def forward_commit (st : SearchState) (best : LevelBest) : SearchState :=
  if best.feature_at_this_level ≠ -1 then
    let current := st.current_set_of_features ++ [best.feature_at_this_level]
    if best.best_accuracy_at_this_level > st.best_so_far_accuracy then
      ⟨current, current, best.best_accuracy_at_this_level⟩
    else ⟨current, st.best_set_of_features, st.best_so_far_accuracy⟩
  else st

/-- The record with which the pool of a forward round returns. -/
def forward_level_best (data : Dataset) (num_features : ℤ) (current : List ℤ)
    (sched : Nat → Nat) : Option LevelBest :=
  parallel_for 1 (num_features + 1) 4 (forward_task data current) (some level_init) sched

/-- One round (level) of `forward_selection`. -/
def forward_level (data : Dataset) (num_features : ℤ) (st : SearchState)
    (sched : Nat → Nat) : Option SearchState :=
  (forward_level_best data num_features st.current_set_of_features sched).map
    (forward_commit st)

/-- The state of `forward_selection` after its first `rounds` rounds; round
`i` runs under the schedule `sched i`. -/
def forward_rounds (data : Dataset) (num_features : ℤ) (sched : Nat → Nat → Nat) :
    Nat → Option SearchState
  | 0 => some ⟨[], [], 0⟩
  | i + 1 =>
    match forward_rounds data num_features sched i with
    | some st => forward_level data num_features st (sched (i + 1))
    | none => none

/-- The function `forward_selection`: the final variables, of which the
program returns `best_set_of_features` and prints `best_so_far_accuracy`. -/
def forward_selection (data : Dataset) (sched : Nat → Nat → Nat) : Option SearchState :=
  match data[0]? with
  | none => none
  | some row =>
    let num_features : ℤ := (row.length : ℤ) - 1
    forward_rounds data num_features sched num_features.toNat

/-- The task of a backward round. -/
def backward_task (data : Dataset) (current_set_of_features : List ℤ)
    (best : Option LevelBest) (k : ℤ) : Option LevelBest :=
  match best with
  | none => none
  | some b =>
    if 0 ≤ k ∧ k.toNat < current_set_of_features.length then
      let temp_features := current_set_of_features.eraseIdx k.toNat
      match leave_one_out_cross_validation data temp_features (-1) with
      | some accuracy => some (locked_update b accuracy k)
      | none => none
    else none

/-- The part of a backward round after `parallel_for` has returned. -/
def backward_commit (st : SearchState) (best : LevelBest) : Option SearchState :=
  if best.feature_at_this_level ≠ -1 then
    if 0 ≤ best.feature_at_this_level ∧
        best.feature_at_this_level.toNat < st.current_set_of_features.length then
      let current := st.current_set_of_features.eraseIdx best.feature_at_this_level.toNat
      if best.best_accuracy_at_this_level > st.best_so_far_accuracy then
        some ⟨current, current, best.best_accuracy_at_this_level⟩
      else some ⟨current, st.best_set_of_features, st.best_so_far_accuracy⟩
    else none
  else some st

/-- The record with which the pool of a backward round returns. -/
def backward_level_best (data : Dataset) (current : List ℤ) (sched : Nat → Nat) :
    Option LevelBest :=
  parallel_for 0 current.length 4 (backward_task data current) (some level_init) sched

/-- One round (level) of `backward_elimination`. -/
def backward_level (data : Dataset) (st : SearchState) (sched : Nat → Nat) :
    Option SearchState :=
  (backward_level_best data st.current_set_of_features sched).bind (backward_commit st)

/-- The initial `current_set_of_features` of `backward_elimination`: `iota`
from 1 over `num_features` places. -/
def full_set (num_features : Nat) : List ℤ :=
  (List.range num_features).map (fun (j : Nat) => (j : ℤ) + 1)

/-- The state of `backward_elimination` after its first `rounds` rounds, from
the state `st0`; the loop counter `i` runs down from `num_features`, and the
round with counter `i` runs under the schedule `sched i`. -/
def backward_rounds (data : Dataset) (num_features : Nat) (st0 : SearchState)
    (sched : Nat → Nat → Nat) : Nat → Option SearchState
  | 0 => some st0
  | r + 1 =>
    match backward_rounds data num_features st0 sched r with
    | some st => backward_level data st (sched (num_features - r))
    | none => none

/-- The function `backward_elimination`: the final variables. A row of
length 0 makes `num_features` negative and the construction of the vector
fails. -/
def backward_elimination (data : Dataset) (sched : Nat → Nat → Nat) : Option SearchState :=
  match data[0]? with
  | none => none
  | some row =>
    let num_features : ℤ := (row.length : ℤ) - 1
    if num_features < 0 then none
    else
      let current := full_set num_features.toNat
      match leave_one_out_cross_validation data current (-1) with
      | none => none
      | some accuracy =>
        backward_rounds data num_features.toNat ⟨current, current, accuracy⟩ sched
          num_features.toNat

/-! ## The evaluator as the specification words it -/

instance : LE SqrtVal := ⟨fun a b => a.radicand ≤ b.radicand⟩

instance (a b : SqrtVal) : Decidable (a ≤ b) :=
  inferInstanceAs (Decidable (a.radicand ≤ b.radicand))

/-- The value stored at `data[i][j]` (0 outside the dataset). -/
def cell (data : Dataset) (i j : Nat) : ℚ := (data.getD i []).getD j 0

/-- The label of sample `i`. -/
def label_of (data : Dataset) (i : Nat) : ℚ := cell data i CLASS_LABEL_INDEX

/-- The Euclidean distance between samples `i` and `k` restricted to the
coordinates named in `S`. -/
def restricted_distance (data : Dataset) (S : List ℤ) (i k : Nat) : SqrtVal :=
  sqrt ((S.map (fun f => (cell data i f.toNat - cell data k f.toNat) ^ 2)).sum)

/-- The predicted neighbour of sample `i`: the lowest-indexed sample `k ≠ i`
among those that minimise the restricted distance to `i`. -/
def predicted_neighbour (data : Dataset) (S : List ℤ) (i : Nat) : Option Nat :=
  (List.range data.length).find? (fun k =>
    decide (k ≠ i) && (List.range data.length).all (fun j =>
      decide (j = i) || decide (restricted_distance data S i k ≤ restricted_distance data S i j)))

/-- The accuracy of the nearest-neighbour classifier: the number of samples
whose label is the label of their predicted neighbour, over the number of
samples. -/
def nearest_neighbour_accuracy (data : Dataset) (S : List ℤ) : ℚ :=
  (((List.range data.length).filter (fun i =>
      match predicted_neighbour data S i with
      | some k => decide (label_of data i = label_of data k)
      | none => false)).length : ℚ) / (data.length : ℚ)

/-- The dataset invariant: every sample has length `D + 1`. -/
def Rectangular (data : Dataset) (D : Nat) : Prop := ∀ row ∈ data, row.length = D + 1

/-- The feature list names only feature columns: indices in `[1, D]`. -/
def FeaturesWithin (S : List ℤ) (D : Nat) : Prop := ∀ f ∈ S, 1 ≤ f ∧ f ≤ (D : ℤ)

/-- The dataset of the worked example: four samples, one feature. -/
def example_data : Dataset := [[0, 0], [1, 10], [0, 1], [1, 9]]

/-- A dataset of four samples whose feature 1 is noise and whose feature 2
separates the classes. -/
def noisy_data : Dataset := [[0, 7, 1], [0, 0, 2], [1, 6, 7], [1, 1, 8]]

/-- A dataset whose two features are copies of each other: four samples. -/
def twin_data : Dataset := [[0, 0, 0], [0, 1, 1], [1, 5, 5], [1, 6, 6]]

/-- Four samples with four features. With the current set [1, 2] the
candidates of a forward round, features 3 and 4, have the accuracies 1/2 and
3/4, and the candidates of a backward round, positions 0 and 1, have the
accuracies 3/4 and 1. -/
def wide_data : Dataset :=
  [[0, 4, 8, 2, 4], [0, 4, 7, 5, 7], [1, 7, 1, 0, 4], [1, 6, 5, 6, 3]]

/-- Four samples with four features on which the four rounds of forward
selection record the accuracies 3/4, 1, 3/4 and 1. -/
def rounds_data : Dataset :=
  [[0, 4, 1, 6, 1], [1, 2, 5, 0, 9], [0, 1, 5, 9, 6], [1, 9, 8, 3, 5]]

/-- A schedule of a pool: the first worker pops an index and is held up
while the second worker pops and runs the next one. -/
def stall_first : Nat → Nat := fun t => if t = 1 ∨ t = 2 then 1 else 0

/-- The index a worker has popped and not yet run, as a multiset. -/
def held : Worker → Multiset ℤ
  | Worker.holding task_index => {task_index}
  | _ => 0

/-- The number of actions a worker still owes by itself: leaving the loop
(1), and before that running the index it holds (1 more). -/
def owed : Worker → Nat
  | Worker.waiting => 1
  | Worker.holding _ => 2
  | Worker.finished => 0

/-- The number of steps a pool still has to make: a pop and a run for each
queued index, and what each worker owes. -/
def steps_left {σ : Type} (s : Pool σ) : Nat :=
  2 * s.tasks.length + (s.workers.map owed).sum

/-- What holds of every pool reached from `pool_init`: each index of the
original queue is in exactly one place (invoked, held by a worker, or still
queued), the shared variables are the fold of `task` over the invocations in
their order, and the queue is empty once a worker has left its loop. -/
structure PoolInv {σ : Type} (queue : List ℤ) (task : σ → ℤ → σ) (shared : σ)
    (s : Pool σ) : Prop where
  items : (s.invoked : Multiset ℤ) + (s.workers.map held).sum + (s.tasks : Multiset ℤ) = queue
  shared_eq : s.shared = s.invoked.foldl task shared
  drained : Worker.finished ∈ s.workers → s.tasks = []

/-- The effect of one task on the record of the round, given the accuracy
`cand k` of the candidate of index `k` (`none`: the index has no candidate,
the task does nothing). -/
def record_step (cand : ℤ → Option ℚ) (best : LevelBest) (k : ℤ) : LevelBest :=
  match cand k with
  | some accuracy => locked_update best accuracy k
  | none => best

/-- The loop over `k` of `leave_one_out_cross_validation` for sample `i`, read
on the cells of a rectangular dataset. -/
def nearest_of (data : Dataset) (S : List ℤ) (i : Nat) (upto : Nat) : Nearest :=
  (List.range upto).foldl (fun nn k =>
    if i = k then nn
    else if restricted_distance data S i k < nn.nearest_neighbor_distance then
      ⟨restricted_distance data S i k, static_cast_int (label_of data k)⟩
    else nn) ⟨numeric_limits_max, -1⟩

/-- Sample `i` is classified correctly by the loop of the code. -/
def correctly_classified (data : Dataset) (S : List ℤ) (i : Nat) : Bool :=
  decide (static_cast_int (label_of data i) =
    (nearest_of data S i data.length).nearest_neighbor_label)

/-- The value returned by `leave_one_out_cross_validation` on a rectangular
dataset. -/
def accuracy (data : Dataset) (S : List ℤ) : ℚ :=
  (((List.range data.length).filter (correctly_classified data S)).length : ℚ) /
    (data.length : ℚ)

/-- The candidate of index `k` in a forward round and its accuracy: the
current set with `k` appended, for `k` not in the current set. -/
def forward_candidate (data : Dataset) (current : List ℤ) (k : ℤ) : Option ℚ :=
  if !is_feature_present current k then
    leave_one_out_cross_validation data (current ++ [k]) (-1)
  else none

/-- The candidate of index `k` in a backward round and its accuracy: the
current set with position `k` erased. -/
def backward_candidate (data : Dataset) (current : List ℤ) (k : ℤ) : Option ℚ :=
  leave_one_out_cross_validation data (current.eraseIdx k.toNat) (-1)

/-- What the record of a round is after the tasks of `order` have run in that
order, in terms of the accuracies `cand`: untouched when no candidate has an
accuracy above 0, and otherwise the first candidate of `order` whose accuracy
is the largest. -/
def RecordOf (cand : ℤ → Option ℚ) (order : List ℤ) (best : LevelBest) : Prop :=
  (best = level_init ∧ ∀ k ∈ order, ∀ a, cand k = some a → a ≤ 0) ∨
  (0 < best.best_accuracy_at_this_level ∧
    ∃ before after : List ℤ, order = before ++ best.feature_at_this_level :: after ∧
      cand best.feature_at_this_level = some best.best_accuracy_at_this_level ∧
      (∀ k ∈ before, ∀ a, cand k = some a → a < best.best_accuracy_at_this_level) ∧
      (∀ k ∈ after, ∀ a, cand k = some a → a ≤ best.best_accuracy_at_this_level))

/-- What holds of the variables of `forward_selection` between rounds: the
current set names feature columns, and the best-so-far pair is either the
initial one, no feature having been added yet, or a set with its own
accuracy, which is above 0. -/
structure ForwardInv (data : Dataset) (D : Nat) (st : SearchState) : Prop where
  within : FeaturesWithin st.current_set_of_features D
  best :
    (st.best_so_far_accuracy = 0 ∧ st.best_set_of_features = [] ∧
      st.current_set_of_features = []) ∨
    (0 < st.best_so_far_accuracy ∧
      leave_one_out_cross_validation data st.best_set_of_features (-1) =
        some st.best_so_far_accuracy)

/-- The variables of `forward_selection` after `i` rounds. -/
def forward_state (data : Dataset) (num_features : ℤ) (sched : Nat → Nat → Nat)
    (i : Nat) : SearchState :=
  (forward_rounds data num_features sched i).getD ⟨[], [], 0⟩

/-- The record with which round `i` (counted from 1) of `forward_selection`
ends. -/
def forward_record (data : Dataset) (num_features : ℤ) (sched : Nat → Nat → Nat)
    (i : Nat) : LevelBest :=
  (forward_level_best data num_features
    (forward_state data num_features sched (i - 1)).current_set_of_features
    (sched i)).getD level_init

/-- The variables of `backward_elimination` before its first round. -/
def backward_start (data : Dataset) (D : Nat) : SearchState :=
  ⟨full_set D, full_set D, (leave_one_out_cross_validation data (full_set D) (-1)).getD 0⟩

/-- The variables of `backward_elimination` after `r` rounds. -/
def backward_state (data : Dataset) (D : Nat) (sched : Nat → Nat → Nat) (r : Nat) :
    SearchState :=
  (backward_rounds data D (backward_start data D) sched r).getD (backward_start data D)

/-- The record with which the `r`-th round (counted from 1) of
`backward_elimination` ends. -/
def backward_record (data : Dataset) (D : Nat) (sched : Nat → Nat → Nat) (r : Nat) :
    LevelBest :=
  (backward_level_best data (backward_state data D sched (r - 1)).current_set_of_features
    (sched (D - (r - 1)))).getD level_init

/-- What holds of the variables of `backward_elimination` between rounds:
the current set is what is left of the full set after erasures, the
best-so-far set is an earlier current set, and the best-so-far accuracy is
its own accuracy and at least that of the full set. -/
structure BackwardInv (data : Dataset) (D : Nat) (st : SearchState) : Prop where
  best_sub : st.best_set_of_features.Sublist (full_set D)
  cur_sub : st.current_set_of_features.Sublist st.best_set_of_features
  own : leave_one_out_cross_validation data st.best_set_of_features (-1) =
    some st.best_so_far_accuracy
  ge_full : ∀ a, leave_one_out_cross_validation data (full_set D) (-1) = some a →
    a ≤ st.best_so_far_accuracy

/-- The state in which a backward round with the record `best` leaves the
variables `st`, when the record names a position. -/
def backward_next (st : SearchState) (best : LevelBest) : SearchState :=
  if best.best_accuracy_at_this_level > st.best_so_far_accuracy then
    ⟨st.current_set_of_features.eraseIdx best.feature_at_this_level.toNat,
      st.current_set_of_features.eraseIdx best.feature_at_this_level.toNat,
      best.best_accuracy_at_this_level⟩
  else
    ⟨st.current_set_of_features.eraseIdx best.feature_at_this_level.toNat,
      st.best_set_of_features, st.best_so_far_accuracy⟩

/-- A dataset on which the only candidate of forward selection has accuracy
0: three samples, one feature. -/
def wasted_data : Dataset := [[0, 0], [0, 10], [1, 5]]

/-- The FeatureSet invariant of the specification: indices drawn from
`[1, D]`, each unique. -/
def IsFeatureSet (S : List ℤ) (D : Nat) : Prop := FeaturesWithin S D ∧ S.Nodup

/-- The candidate that the task of index `k` of a backward round builds and
passes to `leave_one_out_cross_validation` (`temp_features`); the erasure is
out of bounds when `k` is not a position of the current set. -/
def backward_temp_features (current_set_of_features : List ℤ) (k : ℤ) : Option (List ℤ) :=
  if 0 ≤ k ∧ k.toNat < current_set_of_features.length then
    some (current_set_of_features.eraseIdx k.toNat)
  else none

/-- The accuracy that the first-other-sample rule gives for labels `lab` of
`n` samples: the number of samples `i ≥ 1` whose label equals the label of
sample 0, plus 1 if the labels of samples 0 and 1 are equal, over `n`. -/
def first_sample_accuracy {α : Type} [DecidableEq α] (lab : Nat → α) (n : Nat) : ℚ :=
  ((((List.range n).filter (fun i => decide (1 ≤ i) && decide (lab i = lab 0))).length +
    (if lab 0 = lab 1 then 1 else 0) : Nat) : ℚ) / (n : ℚ)

/-- Two samples without features whose labels, the integers 3000000000 and
4000000000, differ and lie outside the range of `int`. -/
def large_labels : Dataset := [[3000000000], [4000000000]]

/-! ## The loader `read_data_from_file`

The content of the file is a list of characters; the library function
`std::stod` is a parameter `stod`, with `none` for a token on which it throws
(`invalid_argument` or `out_of_range`). Opening the file and the warnings on
`cerr` are not modelled. -/

/-- The function `isspace` of the C locale: space, and tab to carriage
return. -/
def isspace (c : Char) : Bool := c.toNat = 32 || (9 ≤ c.toNat && c.toNat ≤ 13)

/-- The loop `while (getline(file, line))`: the lines of the content, `line`
being the characters of the current line read so far, last first. A final
line needs no newline; nothing after the last newline is no line. -/
def read_lines (line : List Char) : List Char → List (List Char)
  | [] => if line.isEmpty then [] else [line.reverse]
  | c :: rest =>
    if c.toNat = 10 then line.reverse :: read_lines [] rest
    else read_lines (c :: line) rest

/-- The loop that replaces every comma of the line with a space. -/
def replace_commas (line : List Char) : List Char :=
  line.map (fun c => if c.toNat = 44 then Char.ofNat 32 else c)

/-- The successive extractions `ss >> cell_str`: the maximal runs of
characters that are not white space, `word` being the run read so far, last
first. -/
def extract_words (word : List Char) : List Char → List (List Char)
  | [] => if word.isEmpty then [] else [word.reverse]
  | c :: rest =>
    if isspace c then
      if word.isEmpty then extract_words [] rest
      else word.reverse :: extract_words [] rest
    else extract_words (c :: word) rest

/-- The tokens of a line: comma- or whitespace-delimited. -/
def line_tokens (line : List Char) : List (List Char) :=
  extract_words [] (replace_commas line)

/-- The loop over the tokens of a line: a token that converts is pushed on
`row`, a token that does not is skipped. -/
def parse_row (stod : List Char → Option ℚ) (cells : List (List Char)) : List ℚ :=
  cells.foldl (fun row cell_str =>
    match stod cell_str with
    | some value => row ++ [value]
    | none => row) []

/-- The row built for a line. -/
def line_row (stod : List Char → Option ℚ) (line : List Char) : List ℚ :=
  parse_row stod (line_tokens line)

/-- The function `read_data_from_file`, on the content of the file. -/
def read_data_from_file (stod : List Char → Option ℚ) (content : List Char) : Dataset :=
  (read_lines [] content).foldl (fun data line =>
    let row := line_row stod line
    if !row.isEmpty then data ++ [row] else data) []

/-- A conversion used in examples: a token of decimal digits converts to its
value, as `std::stod` converts it; any other token is taken not to
convert. -/
def stod_digits (cell_str : List Char) : Option ℚ :=
  if cell_str.isEmpty then none
  else
    cell_str.foldl (fun acc c =>
      match acc with
      | some n => if c.isDigit then some (10 * n + ((c.toNat - 48 : Nat) : ℚ)) else none
      | none => none) (some 0)

/-- The file of the two lines `1 2` and `3`. -/
def ragged_file : List Char :=
  [Char.ofNat 49, Char.ofNat 32, Char.ofNat 50, Char.ofNat 10, Char.ofNat 51]

/-- A value of type `double`: a finite number, an infinity or a NaN. -/
inductive Double where
  | finite (value : ℚ)
  | infinite (negative : Bool)
  | nan
  deriving DecidableEq, Repr

/-- The comparison `a < b` of two `double`: false when either is a NaN. -/
def Double.less : Double → Double → Bool
  | .finite a, .finite b => decide (a < b)
  | .finite _, .infinite negative => !negative
  | .infinite negative, .finite _ => negative
  | .infinite a, .infinite b => a && !b
  | _, _ => false

/-- The comparison `a == b` of two `double`: false when either is a NaN. -/
def Double.equal : Double → Double → Bool
  | .finite a, .finite b => decide (a = b)
  | .infinite a, .infinite b => a == b
  | _, _ => false

/-- The negation `-a`. -/
def Double.neg : Double → Double
  | .finite a => .finite (-a)
  | .infinite negative => .infinite (!negative)
  | .nan => .nan

/-- The conversion `static_cast<double>(z)` of an `int`, which is exact. -/
def Double.of_int (z : ℤ) : Double := .finite z

/-- The conversion `static_cast<int>(x)` of a `double`; for an infinity or a
NaN the conversion is undefined and the model gives `INT_MIN`, as for a
finite value outside the range of `int`. -/
def Double.to_int : Double → ℤ
  | .finite x => static_cast_int x
  | _ => INT_MIN

/-- The operations on `double` that the program uses: `+`, `-`, `/`,
`pow(x, 2)` and `sqrt`. -/
structure DoubleOps where
  add : Double → Double → Double
  sub : Double → Double → Double
  div : Double → Double → Double
  pow2 : Double → Double
  sqrt : Double → Double

/-- The integer nearest to `q`, the even one of the two nearest at a tie. -/
def round_half_even (q : ℚ) : ℤ :=
  let f := ⌊q⌋
  let r := q - f
  if r < 1 / 2 then f else if 1 / 2 < r then f + 1 else if f % 2 = 0 then f else f + 1

/-- The loop of `log2`. -/
def log2_loop : Nat → Nat → Nat
  | 0, _ => 0
  | fuel + 1, n => if n ≤ 1 then 0 else log2_loop fuel (n / 2) + 1

/-- The position of the leading bit of `n`. -/
def log2 (n : Nat) : Nat := log2_loop n n

/-- The exponent `e` with `2^e ≤ q < 2^(e+1)`, for `q > 0`. -/
def ilog2 (q : ℚ) : ℤ :=
  let k : ℤ := (log2 q.num.natAbs : ℤ) - (log2 q.den : ℤ)
  if (2 : ℚ) ^ k ≤ q then k else k - 1

/-- The binary64 value nearest to `q`: 53 significant bits, ties to even;
below `2^-1022` the spacing stays `2^-1074` (subnormal numbers, underflow to
0); a rounded magnitude above `DBL_MAX` is an infinity. -/
def round_binary64 (q : ℚ) : Double :=
  if q = 0 then .finite 0
  else
    let e := max (ilog2 |q| - 52) (-1074)
    let m := (round_half_even (|q| / (2 : ℚ) ^ e) : ℚ) * (2 : ℚ) ^ e
    if DBL_MAX < m then .infinite (decide (q < 0))
    else .finite (if 0 < q then m else -m)

/-- Newton's iteration for the integer square root, from above. -/
def isqrt_iter : Nat → Nat → Nat → Nat
  | 0, _, x => x
  | fuel + 1, n, x =>
    let y := (x + n / x) / 2
    if y < x then isqrt_iter fuel n y else x

/-- The integer square root. -/
def isqrt (n : Nat) : Nat := if n = 0 then 0 else isqrt_iter n n (2 ^ (log2 n / 2 + 1))

/-- The binary64 square root of a finite number: NaN below 0; otherwise the
root to 54 bits and a sticky half, rounded. -/
def sqrt_binary64 (x : ℚ) : Double :=
  if x < 0 then .nan
  else if x = 0 then .finite 0
  else
    let k : ℤ := 53 - (ilog2 x) / 2
    let X : ℚ := x * (4 : ℚ) ^ k
    let s : ℕ := isqrt ⌊X⌋.toNat
    let sticky : ℚ := if (s : ℚ) * s = X then 0 else 1 / 2
    round_binary64 (((s : ℚ) + sticky) / (2 : ℚ) ^ k)

/-- The binary64 sum `a + b`. -/
def binary64_add : Double → Double → Double
  | .finite a, .finite b => round_binary64 (a + b)
  | .finite _, .infinite negative => .infinite negative
  | .infinite negative, .finite _ => .infinite negative
  | .infinite a, .infinite b => if a = b then .infinite a else .nan
  | _, _ => .nan

/-- The binary64 difference `a - b`. -/
def binary64_sub (a b : Double) : Double := binary64_add a b.neg

/-- The binary64 quotient `a / b`; a finite number other than 0 over 0 is an
infinity, 0 over 0 is a NaN. -/
def binary64_div : Double → Double → Double
  | .finite a, .finite b =>
    if b = 0 then (if a = 0 then .nan else .infinite (decide (a < 0)))
    else round_binary64 (a / b)
  | .finite _, .infinite _ => .finite 0
  | .infinite negative, .finite b => .infinite (xor negative (decide (b < 0)))
  | _, _ => .nan

/-- The binary64 value of `pow(x, 2)`, taken correctly rounded. -/
def binary64_pow2 : Double → Double
  | .finite a => round_binary64 (a ^ 2)
  | .infinite _ => .infinite false
  | .nan => .nan

/-- The binary64 value of `sqrt(x)`. -/
def binary64_sqrt : Double → Double
  | .finite a => sqrt_binary64 a
  | .infinite negative => if negative then .nan else .infinite false
  | .nan => .nan

/-- Binary64 arithmetic: every operation returns the rounded exact result. -/
def binary64_ops : DoubleOps :=
  ⟨binary64_add, binary64_sub, binary64_div, binary64_pow2, binary64_sqrt⟩

/-- A sample of `double` values. -/
abbrev DoubleSample := List Double

/-- A dataset of `double` values. -/
abbrev DoubleDataset := List DoubleSample

/-- A dataset of finite numbers as a dataset of `double` values. -/
def to_double (data : Dataset) : DoubleDataset := data.map (fun row => row.map Double.finite)

/-! ## The evaluator in `double` arithmetic -/

/-- The read `row[f]` of a `vector<double>` at an `int` index. -/
def double_at_index (row : DoubleSample) (f : ℤ) : Option Double :=
  if 0 ≤ f then row[f.toNat]? else none

/-- The loop of `euclidean_distance`: `sum_sq += pow(p1[i] - p2[i], 2)` for
every position `i` of `p1`, in the arithmetic `ops`. -/
def double_sum_sq_loop (ops : DoubleOps) : List Double → List Double → Double → Option Double
  | [], _, sum_sq => some sum_sq
  | _ :: _, [], _ => none
  | a :: p1, b :: p2, sum_sq =>
    double_sum_sq_loop ops p1 p2 (ops.add sum_sq (ops.pow2 (ops.sub a b)))

/-- The function `euclidean_distance` in the arithmetic `ops`. -/
def double_euclidean_distance (ops : DoubleOps) (p1 p2 : List Double) : Option Double :=
  (double_sum_sq_loop ops p1 p2 (.finite 0)).map ops.sqrt

/-- The loop `for (int feature_index : evaluation_features)
point.push_back(row[feature_index])`. -/
def double_gather (row : DoubleSample) : List ℤ → Option (List Double)
  | [] => some []
  | f :: fs =>
    match double_at_index row f, double_gather row fs with
    | some v, some rest => some (v :: rest)
    | _, _ => none

/-- The pair `nearest_neighbor_distance`, `nearest_neighbor_label`. -/
structure DoubleNearest where
  nearest_neighbor_distance : Double
  nearest_neighbor_label : ℤ
  deriving DecidableEq, Repr

/-- One iteration of the loop over `k` in `leave_one_out_cross_validation`. -/
def double_neighbour_step (ops : DoubleOps) (data : DoubleDataset)
    (evaluation_features : List ℤ) (i : Nat) (object_to_classify : List Double)
    (nn : DoubleNearest) (k : Nat) : Option DoubleNearest :=
  if i = k then some nn
  else
    match data[k]? with
    | none => none
    | some row =>
      match double_gather row evaluation_features, double_at_index row CLASS_LABEL_INDEX with
      | some training_point, some label =>
        match double_euclidean_distance ops object_to_classify training_point with
        | some distance =>
          if distance.less nn.nearest_neighbor_distance then
            some ⟨distance, label.to_int⟩
          else some nn
        | none => none
      | _, _ => none

/-- One iteration of the loop over `i` in `leave_one_out_cross_validation`:
classify sample `i` and count it when the prediction is right. -/
def double_classify_step (ops : DoubleOps) (data : DoubleDataset)
    (evaluation_features : List ℤ) (num_correctly_classified : Nat) (i : Nat) : Option Nat :=
  match data[i]? with
  | none => none
  | some row =>
    match double_gather row evaluation_features, double_at_index row CLASS_LABEL_INDEX with
    | some object_to_classify, some label =>
      match (List.range data.length).foldlM
          (double_neighbour_step ops data evaluation_features i object_to_classify)
          ⟨.finite DBL_MAX, -1⟩ with
      | some nn =>
        if label.to_int = nn.nearest_neighbor_label then
          some (num_correctly_classified + 1)
        else some num_correctly_classified
      | none => none
    | _, _ => none

/-- The function `leave_one_out_cross_validation` in the arithmetic `ops`. -/
def double_leave_one_out_cross_validation (ops : DoubleOps) (data : DoubleDataset)
    (current_features : List ℤ) (feature_to_add : ℤ) : Option Double :=
  let num_samples := data.length
  let evaluation_features :=
    if feature_to_add ≠ -1 then current_features ++ [feature_to_add]
    else current_features
  match (List.range num_samples).foldlM (double_classify_step ops data evaluation_features) 0 with
  | some num_correctly_classified =>
    some (ops.div (Double.of_int num_correctly_classified) (Double.of_int num_samples))
  | none => none

/-- The value stored at `data[i][j]` (0 outside the dataset). -/
def double_cell (data : DoubleDataset) (i j : Nat) : Double :=
  (data.getD i []).getD j (.finite 0)

/-- The label of sample `i`. -/
def double_label_of (data : DoubleDataset) (i : Nat) : Double :=
  double_cell data i CLASS_LABEL_INDEX

/-- The dataset invariant: every sample has length `D + 1`. -/
def DoubleRectangular (data : DoubleDataset) (D : Nat) : Prop :=
  ∀ row ∈ data, row.length = D + 1

/-- The distance between samples `i` and `k` restricted to the coordinates
named in `S`, as `euclidean_distance` computes it in the arithmetic `ops`. -/
def computed_distance (ops : DoubleOps) (data : DoubleDataset) (S : List ℤ) (i k : Nat) :
    Double :=
  ops.sqrt (S.foldl (fun sum_sq f =>
    ops.add sum_sq (ops.pow2 (ops.sub (double_cell data i f.toNat) (double_cell data k f.toNat))))
    (.finite 0))

/-- The predicted neighbour of sample `i` on computed distances: the
lowest-indexed sample `k ≠ i` whose computed distance to `i` is below
`numeric_limits<double>::max()` and than which no other sample is closer. -/
def computed_neighbour (ops : DoubleOps) (data : DoubleDataset) (S : List ℤ) (i : Nat) :
    Option Nat :=
  (List.range data.length).find? (fun k =>
    decide (k ≠ i) && (computed_distance ops data S i k).less (.finite DBL_MAX) &&
      (List.range data.length).all (fun j =>
        decide (j = i) ||
          !(computed_distance ops data S i j).less (computed_distance ops data S i k)))

/-- The accuracy of the nearest-neighbour classifier on computed distances:
the number of samples whose label is the label of their predicted neighbour,
over the number of samples (the quotient of the arithmetic `ops`). -/
def computed_neighbour_accuracy (ops : DoubleOps) (data : DoubleDataset) (S : List ℤ) :
    Double :=
  ops.div
    (Double.of_int (((List.range data.length).filter (fun i =>
      match computed_neighbour ops data S i with
      | some k => decide (double_label_of data i = double_label_of data k)
      | none => false)).length : ℕ))
    (Double.of_int (data.length : ℕ))

/-- The loop over `k` of `leave_one_out_cross_validation` for sample `i`, read
on the cells of a rectangular dataset. -/
def double_nearest_of (ops : DoubleOps) (data : DoubleDataset) (S : List ℤ) (i : Nat)
    (upto : Nat) : DoubleNearest :=
  (List.range upto).foldl (fun nn k =>
    if i = k then nn
    else if (computed_distance ops data S i k).less nn.nearest_neighbor_distance then
      ⟨computed_distance ops data S i k, (double_label_of data k).to_int⟩
    else nn) ⟨.finite DBL_MAX, -1⟩

/-- Sample `i` is classified correctly by the loop of the code. -/
def double_correctly_classified (ops : DoubleOps) (data : DoubleDataset) (S : List ℤ)
    (i : Nat) : Bool :=
  decide ((double_label_of data i).to_int =
    (double_nearest_of ops data S i data.length).nearest_neighbor_label)

/-- Two samples with the same label whose only feature differs by `2^600`:
the square of the difference is above the largest finite `double`. -/
def overflow_data : Dataset := [[0, 0], [0, 2 ^ 600]]

/-- Three samples with two features: sample 0 is at distance `sqrt(1 + 2^-52)`
from sample 1 and at distance 1 from sample 2. -/
def tie_data : Dataset := [[0, 0, 0], [1, 1, 1 / 2 ^ 26], [0, 1, 0]]

/-- Two samples with one feature whose labels, the integers 3000000000 and
4000000000, differ and lie outside the range of `int`. -/
def large_label_data : Dataset := [[3000000000, 0], [4000000000, 1]]

/-! ## The normaliser `normalize_data` -/

/-- The loop `means[j] += data[i][c]` over the samples, for the column `c`. -/
def column_sum (ops : DoubleOps) (c : Nat) : DoubleDataset → Double → Option Double
  | [], sum => some sum
  | row :: rows, sum =>
    match row[c]? with
    | some x => column_sum ops c rows (ops.add sum x)
    | none => none

/-- The entry `means[j]`: the mean of the column `j + 1`. -/
def column_mean (ops : DoubleOps) (data : DoubleDataset) (j : Nat) : Option Double :=
  (column_sum ops (j + 1) data (.finite 0)).map (fun sum =>
    ops.div sum (Double.of_int (data.length : ℕ)))

/-- The loop `stddevs[j] += pow(data[i][c] - means[j], 2)` over the samples. -/
def column_squares (ops : DoubleOps) (c : Nat) (mean : Double) :
    DoubleDataset → Double → Option Double
  | [], sum => some sum
  | row :: rows, sum =>
    match row[c]? with
    | some x => column_squares ops c mean rows (ops.add sum (ops.pow2 (ops.sub x mean)))
    | none => none

/-- The entry `stddevs[j]`: the standard deviation of the column `j + 1`, and
1 in its place when it is `== 0.0`. -/
def column_stddev (ops : DoubleOps) (data : DoubleDataset) (j : Nat) : Option Double :=
  match column_mean ops data j with
  | none => none
  | some mean =>
    (column_squares ops (j + 1) mean data (.finite 0)).map (fun sum =>
      let stddev := ops.sqrt (ops.div sum (Double.of_int (data.length : ℕ)))
      if stddev.equal (.finite 0) then .finite 1 else stddev)

/-- The loop over `j` that rescales one sample in place. -/
def normalize_row (ops : DoubleOps) (data : DoubleDataset) :
    List Nat → DoubleSample → Option DoubleSample
  | [], row => some row
  | j :: js, row =>
    match row[j + 1]?, column_mean ops data j, column_stddev ops data j with
    | some x, some mean, some stddev =>
      normalize_row ops data js (row.set (j + 1) (ops.div (ops.sub x mean) stddev))
    | _, _, _ => none

/-- The loop over the samples that rescales them. -/
def normalize_rows (ops : DoubleOps) (data : DoubleDataset) (num_features : Nat) :
    DoubleDataset → Option DoubleDataset
  | [] => some []
  | row :: rows =>
    match normalize_row ops data (List.range num_features) row,
      normalize_rows ops data num_features rows with
    | some r, some rs => some (r :: rs)
    | _, _ => none

/-- The function `normalize_data`: the dataset after the call. -/
def normalize_data (ops : DoubleOps) (data : DoubleDataset) : Option DoubleDataset :=
  match data with
  | [] => some data
  | row :: _ =>
    if row.length ≤ 1 then some data
    else normalize_rows ops data (row.length - 1) data

/-- The binary64 value nearest to 0.1. -/
def tenth : ℚ := 3602879701896397 / 36028797018963968

/-- Three samples whose only feature is the `double` 0.1. -/
def tenth_data : Dataset := [[0, tenth], [0, tenth], [0, tenth]]

/-- Three samples with a constant feature 5 and a varying one. -/
def five_data : Dataset := [[0, 5, 1], [1, 5, 2], [0, 5, 6]]

/-- The count that the claim about the empty feature list gives for the
labels `lab` of `n` samples: the number of samples `i ≥ 1` whose label equals
the label of sample 0, plus 1 if the labels of samples 0 and 1 are equal. -/
def first_sample_count {α : Type} [DecidableEq α] (lab : Nat → α) (n : Nat) : Nat :=
  ((List.range n).filter (fun i => decide (1 ≤ i) && decide (lab i = lab 0))).length +
    (if lab 0 = lab 1 then 1 else 0)

end Search


namespace Search

/-! ## The evaluator -/

theorem at_index_of_lt (row : Sample) (f : ℤ) (h0 : 0 ≤ f) (h : f.toNat < row.length) :
    at_index row f = some (row.getD f.toNat 0) := by
  unfold at_index
  rw [if_pos h0, List.getD_eq_getElem?_getD, List.getElem?_eq_getElem h]
  rfl

theorem gather_of_within (row : Sample) (D : Nat) (hrow : row.length = D + 1) :
    ∀ S : List ℤ, (∀ f ∈ S, 0 ≤ f ∧ f ≤ (D : ℤ)) →
      gather row S = some (S.map (fun f => row.getD f.toNat 0))
  | [], _ => rfl
  | f :: fs, h => by
    have hf := h f (List.mem_cons_self _ _)
    have hlt : f.toNat < row.length := by omega
    rw [gather, at_index_of_lt row f hf.1 hlt,
      gather_of_within row D hrow fs (fun g hg => h g (List.mem_cons_of_mem _ hg))]
    rfl

theorem sum_sq_loop_map (g h : ℤ → ℚ) :
    ∀ (S : List ℤ) (sum_sq : ℚ),
      sum_sq_loop (S.map g) (S.map h) sum_sq =
        some (sum_sq + (S.map (fun f => (g f - h f) ^ 2)).sum)
  | [], s => by simp [sum_sq_loop]
  | f :: fs, s => by
    simp only [List.map_cons, sum_sq_loop, List.sum_cons]
    rw [sum_sq_loop_map g h fs, add_assoc]

theorem getD_getD_eq_cell (data : Dataset) (i : Nat) (hi : i < data.length) (j : Nat) :
    (data[i]).getD j 0 = cell data i j := by
  unfold cell
  rw [List.getD_eq_getElem?_getD data, List.getElem?_eq_getElem hi]
  rfl

theorem foldlM_eq_some_foldl {α β : Type} (f : β → α → Option β) (g : β → α → β) :
    ∀ (l : List α) (b : β), (∀ x ∈ l, ∀ c, f c x = some (g c x)) →
      l.foldlM f b = some (l.foldl g b)
  | [], _, _ => rfl
  | x :: xs, b, h => by
    rw [List.foldlM_cons, h x (List.mem_cons_self _ _) b]
    exact foldlM_eq_some_foldl f g xs (g b x) (fun y hy c => h y (List.mem_cons_of_mem _ hy) c)

/-- The columns an evaluation may read: `0 ≤ f ≤ D`. -/
theorem FeaturesWithin.columns {S : List ℤ} {D : Nat} (hS : FeaturesWithin S D) :
    ∀ f ∈ S, 0 ≤ f ∧ f ≤ (D : ℤ) := fun f hf => ⟨by have := (hS f hf).1; omega, (hS f hf).2⟩

theorem gather_row (data : Dataset) (D : Nat) (hrect : Rectangular data D) (S : List ℤ)
    (hS : ∀ f ∈ S, 0 ≤ f ∧ f ≤ (D : ℤ)) (i : Nat) (hi : i < data.length) :
    gather data[i] S = some (S.map (fun f => cell data i f.toNat)) := by
  rw [gather_of_within data[i] D (hrect _ (List.getElem_mem _)) S hS]
  congr 1
  exact List.map_congr_left (fun f _ => getD_getD_eq_cell data i hi f.toNat)

theorem label_row (data : Dataset) (D : Nat) (hrect : Rectangular data D)
    (i : Nat) (hi : i < data.length) :
    at_index data[i] CLASS_LABEL_INDEX = some (label_of data i) := by
  have hlen := hrect data[i] (List.getElem_mem _)
  rw [at_index_of_lt data[i] CLASS_LABEL_INDEX (by decide) (by simp [CLASS_LABEL_INDEX, hlen])]
  congr 1
  exact getD_getD_eq_cell data i hi _

theorem euclidean_distance_rows (data : Dataset) (S : List ℤ) (i k : Nat) :
    euclidean_distance (S.map (fun f => cell data i f.toNat))
      (S.map (fun f => cell data k f.toNat)) = some (restricted_distance data S i k) := by
  unfold euclidean_distance restricted_distance
  rw [sum_sq_loop_map, zero_add]
  rfl

theorem neighbour_step_eq (data : Dataset) (D : Nat) (hrect : Rectangular data D)
    (S : List ℤ) (hS : ∀ f ∈ S, 0 ≤ f ∧ f ≤ (D : ℤ)) (i k : Nat) (hk : k < data.length)
    (nn : Nearest) :
    neighbour_step data S i (S.map (fun f => cell data i f.toNat)) nn k =
      some (if i = k then nn
        else if restricted_distance data S i k < nn.nearest_neighbor_distance then
          ⟨restricted_distance data S i k, static_cast_int (label_of data k)⟩
        else nn) := by
  unfold neighbour_step
  by_cases hik : i = k
  · simp [hik]
  · rw [if_neg hik, if_neg hik, List.getElem?_eq_getElem hk]
    simp only [gather_row data D hrect S hS k hk, label_row data D hrect k hk,
      euclidean_distance_rows]
    split <;> rfl

theorem neighbour_loop_eq (data : Dataset) (D : Nat) (hrect : Rectangular data D)
    (S : List ℤ) (hS : ∀ f ∈ S, 0 ≤ f ∧ f ≤ (D : ℤ)) (i : Nat) :
    (List.range data.length).foldlM
      (neighbour_step data S i (S.map (fun f => cell data i f.toNat)))
      ⟨numeric_limits_max, -1⟩ = some (nearest_of data S i data.length) := by
  unfold nearest_of
  apply foldlM_eq_some_foldl
  intro k hk nn
  exact neighbour_step_eq data D hrect S hS i k (List.mem_range.mp hk) nn

theorem classify_step_eq (data : Dataset) (D : Nat) (hrect : Rectangular data D)
    (S : List ℤ) (hS : ∀ f ∈ S, 0 ≤ f ∧ f ≤ (D : ℤ)) (i : Nat) (hi : i < data.length)
    (count : Nat) :
    classify_step data S count i =
      some (if correctly_classified data S i then count + 1 else count) := by
  unfold classify_step
  rw [List.getElem?_eq_getElem hi]
  simp only [gather_row data D hrect S hS i hi, label_row data D hrect i hi,
    neighbour_loop_eq data D hrect S hS i, correctly_classified, decide_eq_true_eq]
  split <;> rfl

theorem foldl_count {α : Type} (p : α → Bool) :
    ∀ (l : List α) (c : Nat),
      l.foldl (fun count i => if p i then count + 1 else count) c = c + (l.filter p).length
  | [], c => by simp
  | x :: xs, c => by
    rw [List.foldl_cons, foldl_count p xs]
    by_cases hx : p x
    · simp [hx]; omega
    · simp [hx]

/-- On a rectangular, non-empty dataset and feature columns within `[0, D]`
the evaluator returns the quotient `accuracy`. -/
theorem loocv_eq_accuracy (data : Dataset) (D : Nat) (hn : 1 ≤ data.length)
    (hrect : Rectangular data D) (S : List ℤ) (hS : ∀ f ∈ S, 0 ≤ f ∧ f ≤ (D : ℤ)) :
    leave_one_out_cross_validation data S (-1) = some (accuracy data S) := by
  unfold leave_one_out_cross_validation
  simp only [ne_eq, not_true_eq_false, if_false]
  rw [foldlM_eq_some_foldl (classify_step data S)
    (fun count i => if correctly_classified data S i then count + 1 else count)
    (List.range data.length) 0
    (fun i hi c => classify_step_eq data D hrect S hS i (List.mem_range.mp hi) c)]
  simp only [foldl_count, zero_add]
  rw [if_neg (by omega)]
  rfl

theorem accuracy_nonneg (data : Dataset) (S : List ℤ) : 0 ≤ accuracy data S := by
  unfold accuracy
  positivity

theorem accuracy_le_one (data : Dataset) (S : List ℤ) : accuracy data S ≤ 1 := by
  unfold accuracy
  apply div_le_one_of_le₀
  · have h := List.length_filter_le (correctly_classified data S) (List.range data.length)
    rw [List.length_range] at h
    exact_mod_cast h
  · positivity

/-! ## The nearest neighbour found by the loop -/

theorem SqrtVal.lt_def (a b : SqrtVal) : a < b ↔ a.radicand < b.radicand := Iff.rfl

theorem SqrtVal.le_def (a b : SqrtVal) : a ≤ b ↔ a.radicand ≤ b.radicand := Iff.rfl

/-- The order on `SqrtVal` is the order of the real square roots. -/
theorem SqrtVal.lt_iff_real_sqrt_lt (a b : SqrtVal) (ha : 0 ≤ a.radicand) :
    a < b ↔ Real.sqrt (a.radicand : ℝ) < Real.sqrt (b.radicand : ℝ) := by
  rw [SqrtVal.lt_def, Real.sqrt_lt_sqrt_iff (by exact_mod_cast ha)]
  exact Rat.cast_lt.symm

/-- The radicand of a restricted distance is a sum of squares. -/
theorem restricted_distance_nonneg (data : Dataset) (S : List ℤ) (i k : Nat) :
    0 ≤ (restricted_distance data S i k).radicand := by
  unfold restricted_distance sqrt
  apply List.sum_nonneg
  intro x hx
  obtain ⟨f, _, rfl⟩ := List.mem_map.mp hx
  positivity

theorem nearest_of_succ (data : Dataset) (S : List ℤ) (i m : Nat) :
    nearest_of data S i (m + 1) =
      if i = m then nearest_of data S i m
      else if restricted_distance data S i m <
          (nearest_of data S i m).nearest_neighbor_distance then
        ⟨restricted_distance data S i m, static_cast_int (label_of data m)⟩
      else nearest_of data S i m := by
  unfold nearest_of
  rw [List.range_succ, List.foldl_append]
  rfl

/-- The state of the loop over `k` after the samples `0 .. m-1`: either
nothing was accepted, and no sample seen is closer than the initial bound, or
the record is that of the first sample among the closest seen. -/
theorem nearest_of_invariant (data : Dataset) (S : List ℤ) (i : Nat) :
    ∀ m : Nat,
      (nearest_of data S i m = ⟨numeric_limits_max, -1⟩ ∧
        ∀ k < m, k ≠ i → ¬ restricted_distance data S i k < numeric_limits_max) ∨
      (∃ j < m, j ≠ i ∧
        nearest_of data S i m =
          ⟨restricted_distance data S i j, static_cast_int (label_of data j)⟩ ∧
        restricted_distance data S i j < numeric_limits_max ∧
        (∀ k < m, k ≠ i → restricted_distance data S i j ≤ restricted_distance data S i k) ∧
        (∀ k < j, k ≠ i → restricted_distance data S i j < restricted_distance data S i k))
  | 0 => Or.inl ⟨rfl, fun k hk => absurd hk (Nat.not_lt_zero k)⟩
  | m + 1 => by
    rw [nearest_of_succ]
    by_cases him : i = m
    · rw [if_pos him]
      rcases nearest_of_invariant data S i m with ⟨h0, hall⟩ | ⟨j, hj, hji, hnn, hlt, hmin, hfirst⟩
      · refine Or.inl ⟨h0, fun k hk hki => hall k ?_ hki⟩
        omega
      · refine Or.inr ⟨j, by omega, hji, hnn, hlt, fun k hk hki => hmin k ?_ hki, hfirst⟩
        omega
    · rw [if_neg him]
      rcases nearest_of_invariant data S i m with ⟨h0, hall⟩ | ⟨j, hj, hji, hnn, hlt, hmin, hfirst⟩
      · rw [h0]
        by_cases hd : restricted_distance data S i m < numeric_limits_max
        · rw [if_pos hd]
          refine Or.inr ⟨m, by omega, fun h => him h.symm, rfl, hd, ?_, ?_⟩
          · intro k hk hki
            rcases Nat.lt_succ_iff_lt_or_eq.mp hk with hkm | rfl
            · have := hall k hkm hki
              rw [SqrtVal.lt_def] at this hd
              rw [SqrtVal.le_def]
              linarith
            · exact (SqrtVal.le_def _ _).mpr (le_refl _)
          · intro k hk hki
            have := hall k hk hki
            rw [SqrtVal.lt_def] at this hd ⊢
            linarith
        · rw [if_neg hd]
          refine Or.inl ⟨rfl, fun k hk hki => ?_⟩
          rcases Nat.lt_succ_iff_lt_or_eq.mp hk with hkm | rfl
          · exact hall k hkm hki
          · exact hd
      · rw [hnn]
        by_cases hd : restricted_distance data S i m < restricted_distance data S i j
        · rw [if_pos hd]
          have hd' := hd
          rw [SqrtVal.lt_def] at hd' hlt
          refine Or.inr ⟨m, by omega, fun h => him h.symm, rfl, ?_, ?_, ?_⟩
          · rw [SqrtVal.lt_def]; linarith
          · intro k hk hki
            rcases Nat.lt_succ_iff_lt_or_eq.mp hk with hkm | rfl
            · have := hmin k hkm hki
              rw [SqrtVal.le_def] at this ⊢
              linarith
            · exact (SqrtVal.le_def _ _).mpr (le_refl _)
          · intro k hk hki
            have := hmin k hk hki
            rw [SqrtVal.le_def] at this
            rw [SqrtVal.lt_def]
            linarith
        · rw [if_neg hd]
          refine Or.inr ⟨j, by omega, hji, rfl, hlt, ?_, hfirst⟩
          intro k hk hki
          rcases Nat.lt_succ_iff_lt_or_eq.mp hk with hkm | rfl
          · exact hmin k hkm hki
          · rw [SqrtVal.lt_def] at hd
            rw [SqrtVal.le_def]
            linarith

theorem find?_range_first (p : Nat → Bool) :
    ∀ (n j : Nat), j < n → p j = true → (∀ k < j, p k = false) →
      (List.range n).find? p = some j
  | 0, j, hj, _, _ => absurd hj (Nat.not_lt_zero j)
  | n + 1, j, hj, hp, hfirst => by
    rw [List.range_succ, List.find?_append]
    rcases Nat.lt_succ_iff_lt_or_eq.mp hj with hjn | rfl
    · rw [find?_range_first p n j hjn hp hfirst]
      rfl
    · have hnone : (List.range j).find? p = none := by
        rw [List.find?_eq_none]
        intro x hx
        simp [hfirst x (List.mem_range.mp hx)]
      rw [hnone, List.find?_singleton, if_pos hp]
      rfl

theorem static_cast_int_intCast (z : ℤ) (hmin : INT_MIN ≤ z) (hmax : z ≤ INT_MAX) :
    static_cast_int (z : ℚ) = z := by
  unfold static_cast_int
  have htrunc : (if (0 : ℚ) ≤ (z : ℚ) then ⌊(z : ℚ)⌋ else ⌈(z : ℚ)⌉) = z := by
    split <;> simp
  simp only [htrunc]
  rw [if_pos ⟨hmin, hmax⟩]

theorem predicted_neighbour_of_first (data : Dataset) (S : List ℤ) (i j : Nat)
    (hj : j < data.length) (hji : j ≠ i)
    (hmin : ∀ k < data.length, k ≠ i →
      restricted_distance data S i j ≤ restricted_distance data S i k)
    (hfirst : ∀ k < j, k ≠ i →
      restricted_distance data S i j < restricted_distance data S i k) :
    predicted_neighbour data S i = some j := by
  unfold predicted_neighbour
  apply find?_range_first _ _ j hj
  · simp only [Bool.and_eq_true, decide_eq_true_eq, List.all_eq_true, Bool.or_eq_true,
      List.mem_range]
    refine ⟨hji, fun k hk => ?_⟩
    by_cases hki : k = i
    · exact Or.inl hki
    · exact Or.inr (hmin k hk hki)
  · intro k hk
    by_cases hki : k = i
    · simp [hki]
    · have hlt := hfirst k hk hki
      rw [SqrtVal.lt_def] at hlt
      simp only [Bool.and_eq_false_iff, decide_eq_false_iff_not, List.all_eq_false]
      refine Or.inr ⟨j, List.mem_range.mpr hj, ?_⟩
      simp only [Bool.or_eq_true, decide_eq_true_eq, not_or, SqrtVal.le_def, not_le]
      exact ⟨hji, hlt⟩

/-- C3: for every dataset with n >= 1 samples of equal length D+1 and every
feature list with all indices in [1,D], `leave_one_out_cross_validation`
returns a value, and the value lies in the closed interval [0,1]. -/
theorem loocv_in_unit_interval (data : Dataset) (D : Nat) (S : List ℤ)
    (hn : 1 ≤ data.length) (hrect : Rectangular data D) (hS : FeaturesWithin S D) :
    ∃ r : ℚ, leave_one_out_cross_validation data S (-1) = some r ∧ 0 ≤ r ∧ r ≤ 1 :=
  ⟨accuracy data S, loocv_eq_accuracy data D hn hrect S hS.columns,
    accuracy_nonneg data S, accuracy_le_one data S⟩

/-! ## The worker pool -/

theorem sum_map_set {M : Type} [AddCommMonoid M] (g : Worker → M) :
    ∀ (ws : List Worker) (w : Nat) (x y : Worker), ws[w]? = some y →
      ((ws.set w x).map g).sum + g y = (ws.map g).sum + g x
  | [], _, _, _, h => by simp at h
  | a :: as, 0, x, y, h => by
    simp only [List.getElem?_cons_zero, Option.some.injEq] at h
    subst h
    simp only [List.set_cons_zero, List.map_cons, List.sum_cons]
    rw [add_comm (g x), add_assoc, add_comm (g x), ← add_assoc, add_comm (g a)]
  | a :: as, w + 1, x, y, h => by
    simp only [List.getElem?_cons_succ] at h
    simp only [List.set_cons_succ, List.map_cons, List.sum_cons]
    rw [add_assoc, sum_map_set g as w x y h, add_assoc]

theorem mem_set_of_getElem? {ws : List Worker} {w : Nat} {y : Worker} (x : Worker)
    (h : ws[w]? = some y) : x ∈ ws.set w x := by
  have hw : w < ws.length := by
    rcases Nat.lt_or_ge w ws.length with hlt | hge
    · exact hlt
    · rw [List.getElem?_eq_none hge] at h
      cases h
  exact List.mem_iff_getElem.mpr ⟨w, by simpa using hw, by simp⟩

theorem mem_of_mem_set {ws : List Worker} {w : Nat} {x z : Worker}
    (h : z ∈ ws.set w x) : z = x ∨ z ∈ ws := by
  rcases List.mem_or_eq_of_mem_set h with h1 | h2
  · exact Or.inr h1
  · exact Or.inl h2

/-- Every action of a worker keeps the pool invariant. -/
theorem worker_step_inv {σ : Type} (queue : List ℤ) (task : σ → ℤ → σ) (shared : σ)
    (s : Pool σ) (w : Nat) (hinv : PoolInv queue task shared s) :
    PoolInv queue task shared (worker_step task s w) := by
  unfold worker_step
  cases hw : s.workers[w]? with
  | none => exact hinv
  | some y =>
    cases y with
    | finished => exact hinv
    | waiting =>
      cases ht : s.tasks with
      | nil =>
        refine ⟨?_, hinv.shared_eq, fun _ => rfl⟩
        have hs := sum_map_set held s.workers w Worker.finished Worker.waiting hw
        simp only [held, add_zero] at hs
        have := hinv.items
        simp only [hs]
        rw [ht] at this
        exact this
      | cons t rest =>
        refine ⟨?_, hinv.shared_eq, ?_⟩
        · have hs := sum_map_set held s.workers w (Worker.holding t) Worker.waiting hw
          simp only [held, add_zero] at hs
          have := hinv.items
          rw [ht] at this
          simp only [hs]
          rw [← this, ← Multiset.cons_coe, ← Multiset.singleton_add]
          abel
        · intro hfin
          simp only at hfin
          rcases mem_of_mem_set hfin with h1 | h2
          · cases h1
          · have := hinv.drained h2
            rw [ht] at this
            cases this
    | holding t =>
      refine ⟨?_, ?_, ?_⟩
      · have hs := sum_map_set held s.workers w Worker.waiting (Worker.holding t) hw
        simp only [held, add_zero] at hs
        have := hinv.items
        simp only
        rw [← this, ← hs, ← Multiset.coe_add, Multiset.coe_singleton]
        abel
      · simp only [List.foldl_append, List.foldl_cons, List.foldl_nil, hinv.shared_eq]
      · intro hfin
        simp only at hfin
        rcases mem_of_mem_set hfin with h1 | h2
        · cases h1
        · exact hinv.drained h2

theorem worker_step_workers_length {σ : Type} (task : σ → ℤ → σ) (s : Pool σ) (w : Nat) :
    (worker_step task s w).workers.length = s.workers.length := by
  unfold worker_step
  cases s.workers[w]? with
  | none => rfl
  | some y =>
    cases y with
    | finished => rfl
    | waiting => cases s.tasks <;> simp
    | holding t => simp

/-- An action of a worker that has not left its loop uses up one step. -/
theorem worker_step_steps_left {σ : Type} (task : σ → ℤ → σ) (s : Pool σ) (w : Nat)
    (y : Worker) (hw : s.workers[w]? = some y) (hy : y ≠ Worker.finished) :
    steps_left (worker_step task s w) + 1 = steps_left s := by
  unfold worker_step steps_left
  rw [hw]
  cases y with
  | finished => exact absurd rfl hy
  | waiting =>
    cases ht : s.tasks with
    | nil =>
      have hs := sum_map_set owed s.workers w Worker.finished Worker.waiting hw
      simp only [owed] at hs
      simp only [List.length_nil]
      omega
    | cons t rest =>
      have hs := sum_map_set owed s.workers w (Worker.holding t) Worker.waiting hw
      simp only [owed] at hs
      simp only [List.length_cons]
      omega
  | holding t =>
    have hs := sum_map_set owed s.workers w Worker.waiting (Worker.holding t) hw
    simp only [owed] at hs
    simp only
    omega

theorem unfinished_mem {ws : List Worker} {v : Nat} (h : v ∈ unfinished ws) :
    ∃ y, ws[v]? = some y ∧ y ≠ Worker.finished := by
  unfold unfinished at h
  rw [List.mem_filter, List.mem_range] at h
  refine ⟨ws[v], List.getElem?_eq_getElem h.1, fun hy => ?_⟩
  have h2 := h.2
  rw [List.getElem?_eq_getElem h.1, hy] at h2
  simp at h2

theorem unfinished_nil {ws : List Worker} (h : unfinished ws = []) :
    ∀ w ∈ ws, w = Worker.finished := by
  intro w hw
  obtain ⟨v, hv, rfl⟩ := List.mem_iff_getElem.mp hw
  unfold unfinished at h
  rw [List.filter_eq_nil_iff] at h
  have := h v (List.mem_range.mpr hv)
  rw [List.getElem?_eq_getElem hv] at this
  simpa using this

theorem owed_sum_of_finished :
    ∀ ws : List Worker, (∀ w ∈ ws, w = Worker.finished) → (ws.map owed).sum = 0
  | [], _ => rfl
  | a :: as, h => by
    rw [List.map_cons, List.sum_cons, h a (List.mem_cons_self _ _),
      owed_sum_of_finished as (fun w hw => h w (List.mem_cons_of_mem _ hw))]
    rfl

theorem finished_of_owed_sum :
    ∀ ws : List Worker, (ws.map owed).sum = 0 → ∀ w ∈ ws, w = Worker.finished
  | [], _, w, hw => by cases hw
  | a :: as, h, w, hw => by
    rw [List.map_cons, List.sum_cons] at h
    rcases List.mem_cons.mp hw with rfl | hw'
    · cases w with
      | finished => rfl
      | waiting => simp [owed] at h
      | holding t => simp [owed] at h
    · exact finished_of_owed_sum as (by omega) w hw'

theorem held_sum_of_finished :
    ∀ ws : List Worker, (∀ w ∈ ws, w = Worker.finished) → (ws.map held).sum = 0
  | [], _ => rfl
  | a :: as, h => by
    rw [List.map_cons, List.sum_cons, h a (List.mem_cons_self _ _),
      held_sum_of_finished as (fun w hw => h w (List.mem_cons_of_mem _ hw))]
    rfl

theorem pool_step_inv {σ : Type} (queue : List ℤ) (task : σ → ℤ → σ) (shared : σ)
    (s : Pool σ) (choice : Nat) (hinv : PoolInv queue task shared s) :
    PoolInv queue task shared (pool_step task s choice) := by
  unfold pool_step
  split
  · exact hinv
  · exact worker_step_inv queue task shared s _ hinv

theorem pool_step_workers_length {σ : Type} (task : σ → ℤ → σ) (s : Pool σ) (choice : Nat) :
    (pool_step task s choice).workers.length = s.workers.length := by
  unfold pool_step
  split
  · rfl
  · exact worker_step_workers_length task s _

/-- Each step of a pool that has a worker uses up one of the steps left
(none being left once all workers have left their loops). -/
theorem pool_step_steps_left {σ : Type} (queue : List ℤ) (task : σ → ℤ → σ) (shared : σ)
    (s : Pool σ) (choice : Nat) (hinv : PoolInv queue task shared s)
    (hne : s.workers ≠ []) :
    steps_left (pool_step task s choice) = steps_left s - 1 := by
  unfold pool_step
  split
  · rename_i hnil
    have hall := unfinished_nil hnil
    obtain ⟨a, ha⟩ := List.exists_mem_of_ne_nil _ hne
    have hfin : Worker.finished ∈ s.workers := hall a ha ▸ ha
    have ht := hinv.drained hfin
    have : steps_left s = 0 := by
      unfold steps_left
      rw [ht, owed_sum_of_finished _ hall]
      rfl
    omega
  · rename_i v vs hcons
    have hmem : (v :: vs).getD (choice % (v :: vs).length) v ∈ unfinished s.workers := by
      rw [hcons]
      have hlt : choice % (v :: vs).length < (v :: vs).length :=
        Nat.mod_lt _ (by simp)
      rw [List.getD_eq_getElem _ _ hlt]
      exact List.getElem_mem _
    obtain ⟨y, hy, hyne⟩ := unfinished_mem hmem
    have := worker_step_steps_left task s _ y hy hyne
    omega

theorem pool_run_inv {σ : Type} (queue : List ℤ) (task : σ → ℤ → σ) (shared : σ) :
    ∀ (steps : Nat) (s : Pool σ) (sched : Nat → Nat), PoolInv queue task shared s →
      PoolInv queue task shared (pool_run task steps s sched)
  | 0, _, _, h => h
  | steps + 1, s, _, h =>
    pool_run_inv queue task shared steps _ _ (pool_step_inv queue task shared s _ h)

theorem pool_run_steps_left {σ : Type} (queue : List ℤ) (task : σ → ℤ → σ) (shared : σ) :
    ∀ (steps : Nat) (s : Pool σ) (sched : Nat → Nat), PoolInv queue task shared s →
      s.workers ≠ [] → steps_left (pool_run task steps s sched) = steps_left s - steps
  | 0, _, _, _, _ => rfl
  | steps + 1, s, sched, h, hne => by
    have hne' : (pool_step task s (sched 0)).workers ≠ [] := by
      intro h0
      have := pool_step_workers_length task s (sched 0)
      rw [h0] at this
      exact hne (List.length_eq_zero.mp this.symm)
    rw [pool_run, pool_run_steps_left queue task shared steps _ _
      (pool_step_inv queue task shared s _ h) hne',
      pool_step_steps_left queue task shared s _ h hne]
    omega

theorem pool_init_inv {σ : Type} (start end_ max_threads : ℤ) (task : σ → ℤ → σ)
    (shared : σ) :
    PoolInv (task_queue start end_) task shared
      (pool_init start end_ max_threads shared : Pool σ) := by
  refine ⟨?_, rfl, ?_⟩
  · have : ∀ n : Nat, ((List.replicate n Worker.waiting).map held).sum = 0 := by
      intro n
      induction n with
      | zero => rfl
      | succ n ih =>
        rw [List.replicate_succ, List.map_cons, List.sum_cons, ih]
        rfl
    simp only [pool_init, this, Multiset.coe_nil, zero_add, add_zero]
  · intro h
    simp only [pool_init] at h
    cases (List.eq_of_mem_replicate h)

theorem pool_init_steps_left {σ : Type} (start end_ max_threads : ℤ) (shared : σ) :
    steps_left (pool_init start end_ max_threads shared : Pool σ) =
      pool_steps start end_ max_threads := by
  have : ∀ n : Nat, ((List.replicate n Worker.waiting).map owed).sum = n := by
    intro n
    induction n with
    | zero => rfl
    | succ n ih =>
      rw [List.replicate_succ, List.map_cons, List.sum_cons, ih]
      simp [owed]
      omega
  simp only [steps_left, pool_init, this, pool_steps]

/-- A pool in which every worker has left its loop has invoked the task on
the whole queue: the invocations are a rearrangement of the queue. -/
theorem joined_invoked_perm {σ : Type} (queue : List ℤ) (task : σ → ℤ → σ) (shared : σ)
    (s : Pool σ) (hinv : PoolInv queue task shared s) (hne : s.workers ≠ [])
    (hj : joined s) : s.invoked.Perm queue := by
  obtain ⟨a, ha⟩ := List.exists_mem_of_ne_nil _ hne
  have hfin : Worker.finished ∈ s.workers := hj a ha ▸ ha
  have ht := hinv.drained hfin
  have := hinv.items
  rw [ht, held_sum_of_finished _ hj] at this
  simp only [Multiset.coe_nil, add_zero] at this
  exact Multiset.coe_eq_coe.mp this

theorem task_queue_nodup (start end_ : ℤ) : (task_queue start end_).Nodup := by
  unfold task_queue
  apply List.Nodup.map _ (List.nodup_range _)
  intro a b hab
  simp only [add_right_inj, Nat.cast_inj] at hab
  exact hab

theorem mem_task_queue (start end_ k : ℤ) :
    k ∈ task_queue start end_ ↔ start ≤ k ∧ k < end_ := by
  unfold task_queue
  simp only [List.mem_map, List.mem_range]
  constructor
  · rintro ⟨j, hj, rfl⟩
    omega
  · intro h
    exact ⟨(k - start).toNat, by omega, by omega⟩

theorem count_task_queue (start end_ k : ℤ) :
    (task_queue start end_).count k = if start ≤ k ∧ k < end_ then 1 else 0 := by
  rw [List.count_eq_of_nodup (task_queue_nodup start end_)]
  simp only [mem_task_queue]

theorem pool_init_workers_ne_nil {σ : Type} (start end_ max_threads : ℤ) (shared : σ)
    (h : 1 ≤ max_threads) :
    (pool_init start end_ max_threads shared : Pool σ).workers ≠ [] := by
  intro h0
  have := congrArg List.length h0
  simp only [pool_init, List.length_replicate, List.length_nil] at this
  omega

theorem pool_run_workers_ne_nil {σ : Type} (task : σ → ℤ → σ) :
    ∀ (steps : Nat) (s : Pool σ) (sched : Nat → Nat), s.workers ≠ [] →
      (pool_run task steps s sched).workers ≠ []
  | 0, _, _, h => h
  | steps + 1, s, sched, h => by
    apply pool_run_workers_ne_nil task steps
    intro h0
    have := pool_step_workers_length task s (sched 0)
    rw [h0] at this
    exact h (List.length_eq_zero.mp this.symm)

/-- After `pool_steps` steps, under any schedule, a pool of at least one
worker is joined. -/
theorem parallel_for_pool_joined {σ : Type} (start end_ max_threads : ℤ)
    (task : σ → ℤ → σ) (shared : σ) (sched : Nat → Nat) (h : 1 ≤ max_threads) :
    joined (parallel_for_pool start end_ max_threads task shared sched) := by
  have hleft := pool_run_steps_left (task_queue start end_) task shared
    (pool_steps start end_ max_threads) (pool_init start end_ max_threads shared) sched
    (pool_init_inv start end_ max_threads task shared)
    (pool_init_workers_ne_nil start end_ max_threads shared h)
  rw [pool_init_steps_left, Nat.sub_self] at hleft
  unfold steps_left at hleft
  exact finished_of_owed_sum _ (by unfold parallel_for_pool; omega)

/-- The variables captured by the task, when `parallel_for` returns, are the
fold of the task over a rearrangement of the queue. -/
theorem parallel_for_eq_foldl {σ : Type} (start end_ max_threads : ℤ)
    (task : σ → ℤ → σ) (shared : σ) (sched : Nat → Nat) (h : 1 ≤ max_threads) :
    ∃ order : List ℤ, order.Perm (task_queue start end_) ∧
      parallel_for start end_ max_threads task shared sched = order.foldl task shared := by
  have hinv := pool_run_inv (task_queue start end_) task shared
    (pool_steps start end_ max_threads) (pool_init start end_ max_threads shared) sched
    (pool_init_inv start end_ max_threads task shared)
  refine ⟨(parallel_for_pool start end_ max_threads task shared sched).invoked,
    joined_invoked_perm _ task shared _ hinv ?_ ?_, hinv.shared_eq⟩
  · exact pool_run_workers_ne_nil task _ _ _
      (pool_init_workers_ne_nil start end_ max_threads shared h)
  · exact parallel_for_pool_joined start end_ max_threads task shared sched h

/-- C10: `parallel_for(start, end, max_threads, task)` with max_threads >= 1,
under every schedule of its workers: (1) it returns, that is, after
`pool_steps` steps every worker has left its loop and can be joined; (2) at
every moment each index of [start, end) has been passed to `task` at most
once and no other index has; (3) at every moment at which all workers are
joined, in particular when it returns, `task` has been invoked exactly once
on every index of [start, end); (4) at every moment the variables captured by
`task` are what the invocations of `task` made so far leave, starting from
their initial values and in the order of the invocations; (5) so what
`parallel_for` leaves in the captured variables when it returns is the result
of invoking `task` once on each index of [start, end), in the order in which
the workers ran them. -/
theorem parallel_for_invokes_each_index_once {σ : Type} (start end_ max_threads : ℤ)
    (task : σ → ℤ → σ) (shared : σ) (sched : Nat → Nat) (h : 1 ≤ max_threads) :
    joined (parallel_for_pool start end_ max_threads task shared sched) ∧
    (∀ (steps : Nat) (k : ℤ),
      (pool_run task steps (pool_init start end_ max_threads shared) sched).invoked.count k ≤
        if start ≤ k ∧ k < end_ then 1 else 0) ∧
    (∀ (steps : Nat) (k : ℤ),
      joined (pool_run task steps (pool_init start end_ max_threads shared) sched) →
      (pool_run task steps (pool_init start end_ max_threads shared) sched).invoked.count k =
        if start ≤ k ∧ k < end_ then 1 else 0) ∧
    (∀ steps : Nat,
      (pool_run task steps (pool_init start end_ max_threads shared) sched).shared =
        (pool_run task steps (pool_init start end_ max_threads shared) sched).invoked.foldl
          task shared) ∧
    ((parallel_for_pool start end_ max_threads task shared sched).invoked.Perm
        (task_queue start end_) ∧
      (∀ k : ℤ, k ∈ task_queue start end_ ↔ start ≤ k ∧ k < end_) ∧
      (task_queue start end_).Nodup ∧
      parallel_for start end_ max_threads task shared sched =
        (parallel_for_pool start end_ max_threads task shared sched).invoked.foldl
          task shared) := by
  refine ⟨parallel_for_pool_joined start end_ max_threads task shared sched h, ?_, ?_, ?_, ?_,
    mem_task_queue start end_, task_queue_nodup start end_, ?_⟩
  · intro steps k
    have hinv := pool_run_inv (task_queue start end_) task shared steps
      (pool_init start end_ max_threads shared) sched
      (pool_init_inv start end_ max_threads task shared)
    rw [← count_task_queue, ← Multiset.coe_count, ← Multiset.coe_count, ← hinv.items,
      Multiset.count_add, Multiset.count_add]
    omega
  · intro steps k hj
    have hinv := pool_run_inv (task_queue start end_) task shared steps
      (pool_init start end_ max_threads shared) sched
      (pool_init_inv start end_ max_threads task shared)
    have hperm := joined_invoked_perm _ task shared _ hinv
      (pool_run_workers_ne_nil task _ _ _
        (pool_init_workers_ne_nil start end_ max_threads shared h)) hj
    rw [hperm.count_eq, count_task_queue]
  · intro steps
    exact (pool_run_inv (task_queue start end_) task shared steps
      (pool_init start end_ max_threads shared) sched
      (pool_init_inv start end_ max_threads task shared)).shared_eq
  · exact joined_invoked_perm _ task shared _
      (pool_run_inv (task_queue start end_) task shared (pool_steps start end_ max_threads)
        (pool_init start end_ max_threads shared) sched
        (pool_init_inv start end_ max_threads task shared))
      (pool_run_workers_ne_nil task _ _ _
        (pool_init_workers_ne_nil start end_ max_threads shared h))
      (parallel_for_pool_joined start end_ max_threads task shared sched h)
  · exact (pool_run_inv (task_queue start end_) task shared (pool_steps start end_ max_threads)
      (pool_init start end_ max_threads shared) sched
      (pool_init_inv start end_ max_threads task shared)).shared_eq

/-- C10 at four workers and the indices 1..5, with a task that appends its
index to a list, under two schedules. When the first unfinished worker always
moves, the list is 1, 2, 3, 4, 5; when the first worker is held up after it
popped index 1 until the second worker has popped and run index 2, the list
is 2, 1, 3, 4, 5. -/
theorem parallel_for_invokes_each_index_once_witness :
    (1 : ℤ) ≤ 4 ∧
    (joined (parallel_for_pool 1 6 4 (fun (l : List ℤ) k => l ++ [k]) [] stall_first) ∧
    (∀ (steps : Nat) (k : ℤ),
      (pool_run (fun (l : List ℤ) k => l ++ [k]) steps (pool_init 1 6 4 [])
          stall_first).invoked.count k ≤
        if 1 ≤ k ∧ k < 6 then 1 else 0) ∧
    (∀ (steps : Nat) (k : ℤ),
      joined (pool_run (fun (l : List ℤ) k => l ++ [k]) steps (pool_init 1 6 4 [])
        stall_first) →
      (pool_run (fun (l : List ℤ) k => l ++ [k]) steps (pool_init 1 6 4 [])
          stall_first).invoked.count k =
        if 1 ≤ k ∧ k < 6 then 1 else 0) ∧
    (∀ steps : Nat,
      (pool_run (fun (l : List ℤ) k => l ++ [k]) steps (pool_init 1 6 4 [])
          stall_first).shared =
        (pool_run (fun (l : List ℤ) k => l ++ [k]) steps (pool_init 1 6 4 [])
          stall_first).invoked.foldl (fun (l : List ℤ) k => l ++ [k]) []) ∧
    ((parallel_for_pool 1 6 4 (fun (l : List ℤ) k => l ++ [k]) [] stall_first).invoked.Perm
        (task_queue 1 6) ∧
      (∀ k : ℤ, k ∈ task_queue 1 6 ↔ 1 ≤ k ∧ k < 6) ∧
      (task_queue 1 6).Nodup ∧
      parallel_for 1 6 4 (fun (l : List ℤ) k => l ++ [k]) [] stall_first =
        (parallel_for_pool 1 6 4 (fun (l : List ℤ) k => l ++ [k]) []
          stall_first).invoked.foldl (fun (l : List ℤ) k => l ++ [k]) [])) ∧
    parallel_for 1 6 4 (fun (l : List ℤ) k => l ++ [k]) [] (fun _ => 0) = [1, 2, 3, 4, 5] ∧
    parallel_for 1 6 4 (fun (l : List ℤ) k => l ++ [k]) [] stall_first = [2, 1, 3, 4, 5] :=
  ⟨by decide,
    parallel_for_invokes_each_index_once 1 6 4 (fun (l : List ℤ) k => l ++ [k]) []
      stall_first (by decide),
    by decide, by decide⟩

/-! ## The reduction of a round -/

theorem foldl_record_step_append (cand : ℤ → Option ℚ) (order : List ℤ) (k : ℤ)
    (best : LevelBest) :
    (order ++ [k]).foldl (record_step cand) best =
      record_step cand (order.foldl (record_step cand) best) k := by
  rw [List.foldl_append]
  rfl

/-- The record after the tasks of `order` is the first of the best
candidates of `order`, if any candidate has an accuracy above 0. -/
theorem record_of_foldl (cand : ℤ → Option ℚ) (order : List ℤ) :
    RecordOf cand order (order.foldl (record_step cand) level_init) := by
  induction order using List.reverseRecOn with
  | nil => exact Or.inl ⟨rfl, fun k hk => by cases hk⟩
  | append_singleton l x ih =>
    rw [foldl_record_step_append]
    generalize l.foldl (record_step cand) level_init = r at ih
    unfold record_step
    cases hx : cand x with
    | none =>
      rcases ih with ⟨h0, hall⟩ | ⟨hpos, l1, l2, hl, hc, hb, ha⟩
      · refine Or.inl ⟨h0, fun k hk a hka => ?_⟩
        rcases List.mem_append.mp hk with h1 | h2
        · exact hall k h1 a hka
        · rw [List.mem_singleton.mp h2, hx] at hka
          cases hka
      · refine Or.inr ⟨hpos, l1, l2 ++ [x], by rw [hl]; simp, hc, hb, fun k hk a hka => ?_⟩
        rcases List.mem_append.mp hk with h1 | h2
        · exact ha k h1 a hka
        · rw [List.mem_singleton.mp h2, hx] at hka
          cases hka
    | some a =>
      simp only [locked_update, gt_iff_lt]
      by_cases hgt : r.best_accuracy_at_this_level < a
      · rw [if_pos hgt]
        rcases ih with ⟨h0, hall⟩ | ⟨hpos, l1, l2, hl, hc, hb, ha⟩
        · have hr0 : r.best_accuracy_at_this_level = 0 := by rw [h0]; rfl
          refine Or.inr ⟨by simp only; linarith, l, [], rfl, hx, fun k hk c hkc => ?_,
            fun k hk => by cases hk⟩
          have := hall k hk c hkc
          simp only
          linarith
        · refine Or.inr ⟨by simp only; linarith, l, [], rfl, hx, fun k hk c hkc => ?_,
            fun k hk => by cases hk⟩
          simp only
          rw [hl] at hk
          rcases List.mem_append.mp hk with h1 | h2
          · have := hb k h1 c hkc
            linarith
          · rcases List.mem_cons.mp h2 with h3 | h4
            · rw [h3, hc] at hkc
              cases hkc
              exact hgt
            · have := ha k h4 c hkc
              linarith
      · rw [if_neg hgt]
        rcases ih with ⟨h0, hall⟩ | ⟨hpos, l1, l2, hl, hc, hb, ha⟩
        · have hr0 : r.best_accuracy_at_this_level = 0 := by rw [h0]; rfl
          refine Or.inl ⟨h0, fun k hk c hkc => ?_⟩
          rcases List.mem_append.mp hk with h1 | h2
          · exact hall k h1 c hkc
          · rw [List.mem_singleton.mp h2, hx] at hkc
            cases hkc
            linarith
        · refine Or.inr ⟨hpos, l1, l2 ++ [x], by rw [hl]; simp, hc, hb, fun k hk c hkc => ?_⟩
          rcases List.mem_append.mp hk with h1 | h2
          · exact ha k h1 c hkc
          · rw [List.mem_singleton.mp h2, hx] at hkc
            cases hkc
            linarith

theorem foldl_task_eq_record {task : Option LevelBest → ℤ → Option LevelBest}
    (cand : ℤ → Option ℚ) :
    ∀ (order : List ℤ) (best : LevelBest),
      (∀ k ∈ order, ∀ b, task (some b) k = some (record_step cand b k)) →
      order.foldl task (some best) = some (order.foldl (record_step cand) best)
  | [], _, _ => rfl
  | k :: ks, best, h => by
    rw [List.foldl_cons, h k (List.mem_cons_self _ _) best, List.foldl_cons]
    exact foldl_task_eq_record cand ks _ (fun j hj b => h j (List.mem_cons_of_mem _ hj) b)

theorem FeaturesWithin.append {S : List ℤ} {D : Nat} (hS : FeaturesWithin S D) {k : ℤ}
    (h1 : 1 ≤ k) (h2 : k ≤ (D : ℤ)) : FeaturesWithin (S ++ [k]) D := by
  intro f hf
  rcases List.mem_append.mp hf with h | h
  · exact hS f h
  · rw [List.mem_singleton.mp h]
    exact ⟨h1, h2⟩

theorem FeaturesWithin.eraseIdx {S : List ℤ} {D : Nat} (hS : FeaturesWithin S D) (p : Nat) :
    FeaturesWithin (S.eraseIdx p) D :=
  fun f hf => hS f ((List.eraseIdx_sublist S p).subset hf)

/-- On well-formed data the task of a forward round is `record_step`. -/
theorem forward_task_eq (data : Dataset) (D : Nat) (hn : 1 ≤ data.length)
    (hrect : Rectangular data D) (current : List ℤ) (hcur : FeaturesWithin current D)
    (k : ℤ) (hk : k ∈ task_queue 1 ((D : ℤ) + 1)) (b : LevelBest) :
    forward_task data current (some b) k =
      some (record_step (forward_candidate data current) b k) := by
  rw [mem_task_queue] at hk
  unfold forward_task record_step forward_candidate
  by_cases hp : is_feature_present current k = true
  · simp [hp]
  · simp only [hp, Bool.not_false, if_true, Bool.false_eq_true, if_false, Bool.not_eq_true]
    rw [loocv_eq_accuracy data D hn hrect _ (hcur.append hk.1 (by omega)).columns]

/-- On well-formed data the task of a backward round is `record_step`. -/
theorem backward_task_eq (data : Dataset) (D : Nat) (hn : 1 ≤ data.length)
    (hrect : Rectangular data D) (current : List ℤ) (hcur : FeaturesWithin current D)
    (k : ℤ) (hk : k ∈ task_queue 0 (current.length : ℤ)) (b : LevelBest) :
    backward_task data current (some b) k =
      some (record_step (backward_candidate data current) b k) := by
  rw [mem_task_queue] at hk
  unfold backward_task record_step backward_candidate
  have hpos : 0 ≤ k ∧ k.toNat < current.length := ⟨hk.1, by omega⟩
  simp only [if_pos hpos,
    loocv_eq_accuracy data D hn hrect _ (hcur.eraseIdx k.toNat).columns]

/-- The record of a forward round on well-formed data: the tasks ran in some
order, a rearrangement of 1..D, and the record is that of this order. -/
theorem forward_level_best_record (data : Dataset) (D : Nat) (hn : 1 ≤ data.length)
    (hrect : Rectangular data D) (current : List ℤ) (hcur : FeaturesWithin current D)
    (sched : Nat → Nat) :
    ∃ (order : List ℤ) (best : LevelBest), order.Perm (task_queue 1 ((D : ℤ) + 1)) ∧
      forward_level_best data D current sched = some best ∧
      RecordOf (forward_candidate data current) order best := by
  obtain ⟨order, hperm, heq⟩ := parallel_for_eq_foldl 1 ((D : ℤ) + 1) 4
    (forward_task data current) (some level_init) sched (by decide)
  refine ⟨order, _, hperm, ?_, record_of_foldl (forward_candidate data current) order⟩
  unfold forward_level_best
  rw [heq]
  exact foldl_task_eq_record _ order level_init
    (fun k hk b => forward_task_eq data D hn hrect current hcur k (hperm.subset hk) b)

/-- The record of a backward round on well-formed data. -/
theorem backward_level_best_record (data : Dataset) (D : Nat) (hn : 1 ≤ data.length)
    (hrect : Rectangular data D) (current : List ℤ) (hcur : FeaturesWithin current D)
    (sched : Nat → Nat) :
    ∃ (order : List ℤ) (best : LevelBest), order.Perm (task_queue 0 (current.length : ℤ)) ∧
      backward_level_best data current sched = some best ∧
      RecordOf (backward_candidate data current) order best := by
  obtain ⟨order, hperm, heq⟩ := parallel_for_eq_foldl 0 (current.length : ℤ) 4
    (backward_task data current) (some level_init) sched (by decide)
  refine ⟨order, _, hperm, ?_, record_of_foldl (backward_candidate data current) order⟩
  unfold backward_level_best
  rw [heq]
  exact foldl_task_eq_record _ order level_init
    (fun k hk b => backward_task_eq data D hn hrect current hcur k (hperm.subset hk) b)

/-! ## The worked example -/

theorem example_level_best (sched : Nat → Nat) :
    forward_level_best example_data 1 [] sched = some ⟨1, 1⟩ := by
  obtain ⟨order, hperm, heq⟩ := parallel_for_eq_foldl 1 ((1 : ℤ) + 1) 4
    (forward_task example_data []) (some level_init) sched (by decide)
  have hq : task_queue 1 ((1 : ℤ) + 1) = [1] := by decide
  rw [hq, List.perm_singleton] at hperm
  subst hperm
  unfold forward_level_best
  rw [heq]
  decide!

/-- C2: on the 4-sample, 1-feature dataset {(0, 0), (1, 10), (0, 1), (1, 9)},
`leave_one_out_cross_validation` with feature set {1} returns exactly 1, and
`forward_selection`, under every schedule, ends with the selected set [1]
and the best accuracy 1. -/
theorem example_forward_selection :
    leave_one_out_cross_validation example_data [1] (-1) = some 1 ∧
    ∀ sched : Nat → Nat → Nat,
      forward_selection example_data sched = some ⟨[1], [1], 1⟩ := by
  refine ⟨by decide!, fun sched => ?_⟩
  have h : forward_selection example_data sched =
      forward_level example_data 1 ⟨[], [], 0⟩ (sched 1) := rfl
  rw [h]
  unfold forward_level
  rw [example_level_best]
  decide!

theorem example_data_wellformed :
    Rectangular example_data 1 ∧ FeaturesWithin [1] 1 ∧
      ∀ i < example_data.length, ∃ z : ℤ, label_of example_data i = (z : ℚ) := by
  refine ⟨?_, ?_, ?_⟩
  · intro row hrow
    simp only [example_data, List.mem_cons, List.mem_singleton, List.not_mem_nil,
      or_false] at hrow
    rcases hrow with rfl | rfl | rfl | rfl <;> rfl
  · intro f hf
    simp only [List.mem_singleton] at hf
    subst hf
    decide
  · intro i hi
    simp only [example_data, List.length_cons, List.length_nil] at hi
    interval_cases i
    · exact ⟨0, by simp [label_of, cell, CLASS_LABEL_INDEX, example_data]⟩
    · exact ⟨1, by simp [label_of, cell, CLASS_LABEL_INDEX, example_data]⟩
    · exact ⟨0, by simp [label_of, cell, CLASS_LABEL_INDEX, example_data]⟩
    · exact ⟨1, by simp [label_of, cell, CLASS_LABEL_INDEX, example_data]⟩

/-- C3 on the worked example, feature set [1]. -/
theorem loocv_in_unit_interval_witness :
    1 ≤ example_data.length ∧
    ∃ r : ℚ, leave_one_out_cross_validation example_data [1] (-1) = some r ∧ 0 ≤ r ∧ r ≤ 1 :=
  ⟨by decide, loocv_in_unit_interval example_data 1 [1] (by decide)
    example_data_wellformed.1 example_data_wellformed.2.1⟩

/-! ## The rounds of forward selection -/

/-- The record of a round whose tasks ran over a rearrangement of `queue`:
either it is untouched and no candidate of the queue is above 0, or it holds
a candidate of the queue with its accuracy, which is above 0 and the largest
of the queue. -/
theorem RecordOf.of_perm {cand : ℤ → Option ℚ} {order queue : List ℤ} {best : LevelBest}
    (hrec : RecordOf cand order best) (hperm : order.Perm queue) :
    (best = level_init ∧ ∀ k ∈ queue, ∀ a, cand k = some a → a ≤ 0) ∨
    (0 < best.best_accuracy_at_this_level ∧ best.feature_at_this_level ∈ queue ∧
      cand best.feature_at_this_level = some best.best_accuracy_at_this_level ∧
      ∀ k ∈ queue, ∀ a, cand k = some a → a ≤ best.best_accuracy_at_this_level) := by
  rcases hrec with ⟨h0, hall⟩ | ⟨hpos, l1, l2, hl, hc, hb, ha⟩
  · exact Or.inl ⟨h0, fun k hk => hall k (hperm.mem_iff.mpr hk)⟩
  · refine Or.inr ⟨hpos, hperm.mem_iff.mp (by rw [hl]; simp), hc, fun k hk a hka => ?_⟩
    have hk' := hperm.mem_iff.mpr hk
    rw [hl] at hk'
    rcases List.mem_append.mp hk' with h1 | h2
    · exact le_of_lt (hb k h1 a hka)
    · rcases List.mem_cons.mp h2 with h3 | h4
      · rw [h3, hc] at hka
        cases hka
        exact le_refl _
      · exact ha k h4 a hka

theorem forward_candidate_some {data : Dataset} {current : List ℤ} {k : ℤ} {a : ℚ}
    (h : forward_candidate data current k = some a) :
    k ∉ current ∧ leave_one_out_cross_validation data (current ++ [k]) (-1) = some a := by
  unfold forward_candidate is_feature_present at h
  by_cases hp : k ∈ current
  · simp [hp] at h
  · simp [hp] at h
    exact ⟨hp, h⟩

theorem forward_commit_level_init (st : SearchState) : forward_commit st level_init = st := by
  simp [forward_commit, level_init]

/-- One round of `forward_selection` on well-formed data: it yields a state,
the state keeps the invariant, and the record is that of `RecordOf.of_perm`. -/
theorem forward_level_step (data : Dataset) (D : Nat) (hn : 1 ≤ data.length)
    (hrect : Rectangular data D) (st : SearchState) (hinv : ForwardInv data D st)
    (sched : Nat → Nat) :
    ∃ best : LevelBest,
      forward_level_best data D st.current_set_of_features sched = some best ∧
      forward_level data D st sched = some (forward_commit st best) ∧
      ForwardInv data D (forward_commit st best) ∧
      ((best = level_init ∧ ∀ k ∈ task_queue 1 ((D : ℤ) + 1), ∀ a,
          forward_candidate data st.current_set_of_features k = some a → a ≤ 0) ∨
        (0 < best.best_accuracy_at_this_level ∧
          best.feature_at_this_level ∈ task_queue 1 ((D : ℤ) + 1) ∧
          forward_candidate data st.current_set_of_features best.feature_at_this_level =
            some best.best_accuracy_at_this_level ∧
          ∀ k ∈ task_queue 1 ((D : ℤ) + 1), ∀ a,
            forward_candidate data st.current_set_of_features k = some a →
              a ≤ best.best_accuracy_at_this_level)) := by
  obtain ⟨order, best, hperm, hbest, hrec⟩ :=
    forward_level_best_record data D hn hrect st.current_set_of_features hinv.within sched
  have hcases := hrec.of_perm hperm
  refine ⟨best, hbest, by unfold forward_level; rw [hbest]; rfl, ?_, hcases⟩
  rcases hcases with ⟨h0, _⟩ | ⟨hpos, hmem, hc, _⟩
  · rw [h0, forward_commit_level_init]
    exact hinv
  · obtain ⟨_, hacc⟩ := forward_candidate_some hc
    have hq := (mem_task_queue _ _ _).mp hmem
    have hne : best.feature_at_this_level ≠ -1 := by omega
    have hw : FeaturesWithin (st.current_set_of_features ++ [best.feature_at_this_level]) D :=
      hinv.within.append hq.1 (by omega)
    unfold forward_commit
    rw [if_pos hne]
    by_cases hgt : best.best_accuracy_at_this_level > st.best_so_far_accuracy
    · simp only [if_pos hgt]
      exact ⟨hw, Or.inr ⟨hpos, hacc⟩⟩
    · simp only [if_neg hgt]
      refine ⟨hw, ?_⟩
      rcases hinv.best with ⟨hz, _, _⟩ | hr
      · exact absurd (by rw [hz]; exact hpos) hgt
      · exact Or.inr hr

theorem forward_inv_init (data : Dataset) (D : Nat) : ForwardInv data D ⟨[], [], 0⟩ :=
  ⟨fun f hf => absurd hf (List.not_mem_nil f), Or.inl ⟨rfl, rfl, rfl⟩⟩

/-- After any number of rounds `forward_selection` has a state, and the state
satisfies the invariant. -/
theorem forward_rounds_inv (data : Dataset) (D : Nat) (hn : 1 ≤ data.length)
    (hrect : Rectangular data D) (sched : Nat → Nat → Nat) :
    ∀ i : Nat, ∃ st, forward_rounds data D sched i = some st ∧ ForwardInv data D st
  | 0 => ⟨_, rfl, forward_inv_init data D⟩
  | i + 1 => by
    obtain ⟨st, hst, hinv⟩ := forward_rounds_inv data D hn hrect sched i
    obtain ⟨best, _, hlevel, hinv', _⟩ :=
      forward_level_step data D hn hrect st hinv (sched (i + 1))
    exact ⟨_, by rw [forward_rounds, hst]; exact hlevel, hinv'⟩

theorem forward_selection_eq_rounds (data : Dataset) (D : Nat) (hn : 1 ≤ data.length)
    (hrect : Rectangular data D) (sched : Nat → Nat → Nat) :
    forward_selection data sched = forward_rounds data D sched D := by
  unfold forward_selection
  have h0 : 0 < data.length := hn
  rw [List.getElem?_eq_getElem h0]
  have hlen := hrect data[0] (List.getElem_mem _)
  simp only [hlen]
  have : ((D + 1 : Nat) : ℤ) - 1 = (D : ℤ) := by push_cast; ring
  rw [this, Int.toNat_ofNat]

/-- The rounds of `forward_selection` on well-formed data, in terms of
`forward_state` and `forward_record`. -/
theorem forward_round_unfold (data : Dataset) (D : Nat) (hn : 1 ≤ data.length)
    (hrect : Rectangular data D) (sched : Nat → Nat → Nat) (i : Nat) :
    forward_rounds data D sched i = some (forward_state data D sched i) ∧
    ForwardInv data D (forward_state data D sched i) ∧
    forward_level_best data D (forward_state data D sched i).current_set_of_features
      (sched (i + 1)) = some (forward_record data D sched (i + 1)) ∧
    forward_state data D sched (i + 1) =
      forward_commit (forward_state data D sched i) (forward_record data D sched (i + 1)) ∧
    ((forward_record data D sched (i + 1) = level_init ∧
        ∀ k ∈ task_queue 1 ((D : ℤ) + 1), ∀ a,
          forward_candidate data (forward_state data D sched i).current_set_of_features k =
            some a → a ≤ 0) ∨
      (0 < (forward_record data D sched (i + 1)).best_accuracy_at_this_level ∧
        (forward_record data D sched (i + 1)).feature_at_this_level ∈
          task_queue 1 ((D : ℤ) + 1) ∧
        forward_candidate data (forward_state data D sched i).current_set_of_features
          (forward_record data D sched (i + 1)).feature_at_this_level =
            some (forward_record data D sched (i + 1)).best_accuracy_at_this_level ∧
        ∀ k ∈ task_queue 1 ((D : ℤ) + 1), ∀ a,
          forward_candidate data (forward_state data D sched i).current_set_of_features k =
            some a → a ≤ (forward_record data D sched (i + 1)).best_accuracy_at_this_level)) := by
  obtain ⟨st, hst, hinv⟩ := forward_rounds_inv data D hn hrect sched i
  have hs : forward_state data D sched i = st := by
    unfold forward_state
    rw [hst]
    rfl
  obtain ⟨best, hbest, hlevel, _, hcases⟩ :=
    forward_level_step data D hn hrect st hinv (sched (i + 1))
  have hb : forward_record data D sched (i + 1) = best := by
    unfold forward_record
    rw [Nat.add_sub_cancel, hs, hbest]
    rfl
  have hs' : forward_state data D sched (i + 1) = forward_commit st best := by
    unfold forward_state
    rw [forward_rounds, hst]
    simp only [hlevel]
    rfl
  rw [hs, hb, hs']
  exact ⟨hst, hinv, hbest, rfl, hcases⟩

theorem ForwardInv.best_nonneg {data : Dataset} {D : Nat} {st : SearchState}
    (h : ForwardInv data D st) : 0 ≤ st.best_so_far_accuracy := by
  rcases h.best with ⟨h0, _, _⟩ | ⟨hpos, _⟩
  · rw [h0]
  · exact le_of_lt hpos

/-- After `r` rounds of `forward_selection` the best-so-far accuracy is the
largest of the records of the rounds so far, and the best-so-far set is the
current set as it stood after the earliest round with that record. -/
theorem forward_best_after (data : Dataset) (D : Nat) (hn : 1 ≤ data.length)
    (hrect : Rectangular data D) (sched : Nat → Nat → Nat) :
    ∀ r : Nat,
      (∀ i, 1 ≤ i → i ≤ r →
        (forward_record data D sched i).best_accuracy_at_this_level ≤
          (forward_state data D sched r).best_so_far_accuracy) ∧
      (((∀ i, 1 ≤ i → i ≤ r → forward_record data D sched i = level_init) ∧
          (forward_state data D sched r).best_so_far_accuracy = 0 ∧
          (forward_state data D sched r).best_set_of_features = []) ∨
        (∃ i, 1 ≤ i ∧ i ≤ r ∧
          0 < (forward_state data D sched r).best_so_far_accuracy ∧
          (forward_record data D sched i).best_accuracy_at_this_level =
            (forward_state data D sched r).best_so_far_accuracy ∧
          (∀ j, 1 ≤ j → j < i →
            (forward_record data D sched j).best_accuracy_at_this_level <
              (forward_state data D sched r).best_so_far_accuracy) ∧
          (forward_state data D sched r).best_set_of_features =
            (forward_state data D sched i).current_set_of_features))
  | 0 => ⟨fun i h1 h2 => by omega, Or.inl ⟨fun i h1 h2 => by omega, rfl, rfl⟩⟩
  | r + 1 => by
    obtain ⟨hub, hdisj⟩ := forward_best_after data D hn hrect sched r
    obtain ⟨_, hinv, _, hstep, hcases⟩ := forward_round_unfold data D hn hrect sched r
    have hnn := hinv.best_nonneg
    rcases hcases with ⟨h0, _⟩ | ⟨hpos, hmem, _, _⟩
    · -- the round had no winner
      rw [h0, forward_commit_level_init] at hstep
      rw [hstep]
      constructor
      · intro i h1 h2
        rcases Nat.lt_succ_iff_lt_or_eq.mp (Nat.lt_succ_of_le h2) with hlt | heq
        · exact hub i h1 (by omega)
        · rw [heq, h0]
          exact hnn
      · rcases hdisj with ⟨hall, hz, hset⟩ | ⟨i, h1, h2, hp, he, hlt, hset⟩
        · refine Or.inl ⟨fun i h1 h2 => ?_, hz, hset⟩
          rcases Nat.lt_succ_iff_lt_or_eq.mp (Nat.lt_succ_of_le h2) with hlt | heq
          · exact hall i h1 (by omega)
          · rw [heq, h0]
        · exact Or.inr ⟨i, h1, by omega, hp, he, hlt, hset⟩
    · -- the round had a winner
      have hq := (mem_task_queue _ _ _).mp hmem
      have hne : (forward_record data D sched (r + 1)).feature_at_this_level ≠ -1 := by omega
      by_cases hgt : (forward_record data D sched (r + 1)).best_accuracy_at_this_level >
          (forward_state data D sched r).best_so_far_accuracy
      · have hacc : (forward_state data D sched (r + 1)).best_so_far_accuracy =
            (forward_record data D sched (r + 1)).best_accuracy_at_this_level := by
          rw [hstep]; unfold forward_commit; rw [if_pos hne]; simp only [if_pos hgt]
        have hset : (forward_state data D sched (r + 1)).best_set_of_features =
            (forward_state data D sched (r + 1)).current_set_of_features := by
          rw [hstep]; unfold forward_commit; rw [if_pos hne]; simp only [if_pos hgt]
        rw [hacc]
        constructor
        · intro i h1 h2
          rcases Nat.lt_succ_iff_lt_or_eq.mp (Nat.lt_succ_of_le h2) with hlt | heq
          · exact le_of_lt (lt_of_le_of_lt (hub i h1 (by omega)) hgt)
          · rw [heq]
        · exact Or.inr ⟨r + 1, by omega, le_refl _, hpos, rfl,
            fun j h1 h2 => lt_of_le_of_lt (hub j h1 (by omega)) hgt, hset⟩
      · have hacc : (forward_state data D sched (r + 1)).best_so_far_accuracy =
            (forward_state data D sched r).best_so_far_accuracy := by
          rw [hstep]; unfold forward_commit; rw [if_pos hne]; simp only [if_neg hgt]
        have hset : (forward_state data D sched (r + 1)).best_set_of_features =
            (forward_state data D sched r).best_set_of_features := by
          rw [hstep]; unfold forward_commit; rw [if_pos hne]; simp only [if_neg hgt]
        rw [hacc, hset]
        constructor
        · intro i h1 h2
          rcases Nat.lt_succ_iff_lt_or_eq.mp (Nat.lt_succ_of_le h2) with hlt | heq
          · exact hub i h1 (by omega)
          · rw [heq]
            exact not_lt.mp hgt
        · rcases hdisj with ⟨_, hz, _⟩ | ⟨i, h1, h2, hp, he, hlt, hs⟩
          · exact absurd (by rw [hz]; exact hpos) hgt
          · exact Or.inr ⟨i, h1, by omega, hp, he, hlt, hs⟩

/-- C5: forward selection tracks the best subset across all rounds. For every
dataset with n >= 1 samples of D features and every schedule,
`forward_selection` returns; each of its D rounds has a state before it and
a record; the best accuracy it reports is the largest of the records of the D
rounds (0 if no round had a winner), and the returned set is the current set
as it stood right after the earliest round whose record reached that
maximum (the empty set if no round had a winner). -/
theorem forward_selection_tracks_best (data : Dataset) (D : Nat) (hn : 1 ≤ data.length)
    (hrect : Rectangular data D) (sched : Nat → Nat → Nat) :
    ∃ st : SearchState, forward_selection data sched = some st ∧
      (∀ i, i ≤ D → forward_rounds data D sched i = some (forward_state data D sched i)) ∧
      (∀ i, 1 ≤ i → i ≤ D →
        forward_level_best data D
          (forward_state data D sched (i - 1)).current_set_of_features (sched i) =
            some (forward_record data D sched i)) ∧
      (∀ i, 1 ≤ i → i ≤ D →
        (forward_record data D sched i).best_accuracy_at_this_level ≤
          st.best_so_far_accuracy) ∧
      (((∀ i, 1 ≤ i → i ≤ D → forward_record data D sched i = level_init) ∧
          st.best_so_far_accuracy = 0 ∧ st.best_set_of_features = []) ∨
        (∃ i, 1 ≤ i ∧ i ≤ D ∧ 0 < st.best_so_far_accuracy ∧
          (forward_record data D sched i).best_accuracy_at_this_level =
            st.best_so_far_accuracy ∧
          (∀ j, 1 ≤ j → j < i →
            (forward_record data D sched j).best_accuracy_at_this_level <
              st.best_so_far_accuracy) ∧
          st.best_set_of_features =
            (forward_state data D sched i).current_set_of_features)) := by
  refine ⟨forward_state data D sched D, ?_, ?_, ?_, forward_best_after data D hn hrect sched D⟩
  · rw [forward_selection_eq_rounds data D hn hrect sched]
    exact (forward_round_unfold data D hn hrect sched D).1
  · exact fun i _ => (forward_round_unfold data D hn hrect sched i).1
  · intro i h1 _
    have := (forward_round_unfold data D hn hrect sched (i - 1)).2.2.1
    rwa [Nat.sub_add_cancel h1] at this

/-- C6 (amended): for every dataset (n >= 1, equal-length samples) and every
schedule, `forward_selection` ends either with a best-so-far accuracy above 0
that is the accuracy `leave_one_out_cross_validation(data, returned set)` of
the returned set, or, no round having added a feature, with its initial
output: the empty set and the accuracy 0. -/
theorem forward_selection_reports_own_accuracy (data : Dataset) (D : Nat)
    (hn : 1 ≤ data.length) (hrect : Rectangular data D) (sched : Nat → Nat → Nat) :
    ∃ st : SearchState, forward_selection data sched = some st ∧
      ((0 < st.best_so_far_accuracy ∧
          leave_one_out_cross_validation data st.best_set_of_features (-1) =
            some st.best_so_far_accuracy) ∨
        (st.best_so_far_accuracy = 0 ∧ st.best_set_of_features = [] ∧
          st.current_set_of_features = [])) := by
  obtain ⟨st, hst, hinv⟩ := forward_rounds_inv data D hn hrect sched D
  refine ⟨st, by rw [forward_selection_eq_rounds data D hn hrect sched]; exact hst, ?_⟩
  rcases hinv.best with h | h
  · exact Or.inr h
  · exact Or.inl h

theorem rectangular_of_all {data : Dataset} {D : Nat}
    (h : data.all (fun row => decide (row.length = D + 1)) = true) : Rectangular data D := by
  intro row hrow
  rw [List.all_eq_true] at h
  simpa using h row hrow

/-- C5 on a dataset of four features under the schedule that always lets the
first unfinished worker move. The four rounds record the accuracies 3/4
(feature 3), 1 (feature 2), 3/4 (feature 1) and 1 (feature 4); the search
reports the accuracy 1 with the set [3, 2], the current set after round 2,
the earliest round that reached the maximum, while current grows on to
[3, 2, 1, 4]. -/
theorem forward_selection_tracks_best_witness :
    (1 ≤ rounds_data.length ∧ Rectangular rounds_data 4) ∧
    (∃ st : SearchState, forward_selection rounds_data (fun _ _ => 0) = some st ∧
      (∀ i, i ≤ (4 : Nat) → forward_rounds rounds_data (4 : Nat) (fun _ _ => 0) i = some (forward_state rounds_data (4 : Nat) (fun _ _ => 0) i)) ∧
      (∀ i, 1 ≤ i → i ≤ (4 : Nat) →
        forward_level_best rounds_data (4 : Nat)
          (forward_state rounds_data (4 : Nat) (fun _ _ => 0) (i - 1)).current_set_of_features ((fun _ _ => 0) i) =
            some (forward_record rounds_data (4 : Nat) (fun _ _ => 0) i)) ∧
      (∀ i, 1 ≤ i → i ≤ (4 : Nat) →
        (forward_record rounds_data (4 : Nat) (fun _ _ => 0) i).best_accuracy_at_this_level ≤
          st.best_so_far_accuracy) ∧
      (((∀ i, 1 ≤ i → i ≤ (4 : Nat) → forward_record rounds_data (4 : Nat) (fun _ _ => 0) i = level_init) ∧
          st.best_so_far_accuracy = 0 ∧ st.best_set_of_features = []) ∨
        (∃ i, 1 ≤ i ∧ i ≤ (4 : Nat) ∧ 0 < st.best_so_far_accuracy ∧
          (forward_record rounds_data (4 : Nat) (fun _ _ => 0) i).best_accuracy_at_this_level =
            st.best_so_far_accuracy ∧
          (∀ j, 1 ≤ j → j < i →
            (forward_record rounds_data (4 : Nat) (fun _ _ => 0) j).best_accuracy_at_this_level <
              st.best_so_far_accuracy) ∧
          st.best_set_of_features =
            (forward_state rounds_data (4 : Nat) (fun _ _ => 0) i).current_set_of_features))) ∧
    forward_selection rounds_data (fun _ _ => 0) = some ⟨[3, 2, 1, 4], [3, 2], 1⟩ ∧
    forward_record rounds_data 4 (fun _ _ => 0) 1 = ⟨3 / 4, 3⟩ ∧
    forward_record rounds_data 4 (fun _ _ => 0) 2 = ⟨1, 2⟩ ∧
    forward_record rounds_data 4 (fun _ _ => 0) 3 = ⟨3 / 4, 1⟩ ∧
    forward_record rounds_data 4 (fun _ _ => 0) 4 = ⟨1, 4⟩ :=
  ⟨⟨by decide, rectangular_of_all (by decide)⟩,
    forward_selection_tracks_best rounds_data 4 (by decide) (rectangular_of_all (by decide))
      (fun _ _ => 0),
    by decide!, by decide!, by decide!, by decide!, by decide!⟩

/-- C6 (amended) on the worked example. -/
theorem forward_selection_reports_own_accuracy_witness :
    1 ≤ example_data.length ∧ Rectangular example_data 1 ∧
    ∃ st : SearchState, forward_selection example_data (fun _ _ => 0) = some st ∧
      ((0 < st.best_so_far_accuracy ∧
          leave_one_out_cross_validation example_data st.best_set_of_features (-1) =
            some st.best_so_far_accuracy) ∨
        (st.best_so_far_accuracy = 0 ∧ st.best_set_of_features = [] ∧
          st.current_set_of_features = [])) :=
  ⟨by decide, rectangular_of_all (by decide),
    forward_selection_reports_own_accuracy example_data 1 (by decide)
      (rectangular_of_all (by decide)) (fun _ _ => 0)⟩

/-- C6 (as stated) fails: on the samples (0, 0), (0, 10), (1, 5) the only
candidate, feature 1, has accuracy 0, so no feature is added and
`forward_selection` ends with the empty set and the accuracy 0, while
`leave_one_out_cross_validation` of the empty set is 2/3. -/
theorem forward_selection_empty_set_counterexample :
    1 ≤ ([[0, 0], [0, 10], [1, 5]] : Dataset).length ∧
    Rectangular [[0, 0], [0, 10], [1, 5]] 1 ∧
    forward_selection [[0, 0], [0, 10], [1, 5]] (fun _ _ => 0) = some ⟨[], [], 0⟩ ∧
    leave_one_out_cross_validation [[0, 0], [0, 10], [1, 5]] [] (-1) = some (2 / 3) :=
  ⟨by decide, rectangular_of_all (by decide), by decide!, by decide!⟩

/-! ## The rounds of backward elimination -/

theorem full_set_within (D : Nat) : FeaturesWithin (full_set D) D := by
  intro f hf
  unfold full_set at hf
  obtain ⟨j, hj, rfl⟩ := List.mem_map.mp hf
  have := List.mem_range.mp hj
  omega

theorem full_set_nodup (D : Nat) : (full_set D).Nodup := by
  unfold full_set
  apply List.Nodup.map _ (List.nodup_range _)
  intro a b hab
  simp only [add_left_inj, Nat.cast_inj] at hab
  exact hab

theorem FeaturesWithin.of_sublist {S T : List ℤ} {D : Nat} (hT : FeaturesWithin T D)
    (h : S.Sublist T) : FeaturesWithin S D := fun f hf => hT f (h.subset hf)

theorem BackwardInv.within {data : Dataset} {D : Nat} {st : SearchState}
    (h : BackwardInv data D st) : FeaturesWithin st.current_set_of_features D :=
  (full_set_within D).of_sublist (h.cur_sub.trans h.best_sub)

theorem BackwardInv.nodup {data : Dataset} {D : Nat} {st : SearchState}
    (h : BackwardInv data D st) : st.current_set_of_features.Nodup :=
  (full_set_nodup D).sublist (h.cur_sub.trans h.best_sub)

theorem backward_commit_level_init (st : SearchState) :
    backward_commit st level_init = some st := by
  simp [backward_commit, level_init]

theorem backward_commit_winner (st : SearchState) (best : LevelBest)
    (h : best.feature_at_this_level ∈ task_queue 0 (st.current_set_of_features.length : ℤ)) :
    backward_commit st best = some (backward_next st best) := by
  have hq := (mem_task_queue _ _ _).mp h
  have hne : best.feature_at_this_level ≠ -1 := by omega
  have hin : 0 ≤ best.feature_at_this_level ∧
      best.feature_at_this_level.toNat < st.current_set_of_features.length :=
    ⟨hq.1, by omega⟩
  unfold backward_commit backward_next
  rw [if_pos hne, if_pos hin]
  split <;> rfl

/-- One round of `backward_elimination` on well-formed data: the record is
that of `RecordOf.of_perm`, and the round leaves the variables unchanged when
the record is untouched, and as `backward_next` says when it names a
position; the invariant is kept. -/
theorem backward_level_step (data : Dataset) (D : Nat) (hn : 1 ≤ data.length)
    (hrect : Rectangular data D) (st : SearchState) (hinv : BackwardInv data D st)
    (sched : Nat → Nat) :
    ∃ (best : LevelBest) (st' : SearchState),
      backward_level_best data st.current_set_of_features sched = some best ∧
      backward_level data st sched = some st' ∧
      BackwardInv data D st' ∧
      ((best = level_init ∧ st' = st ∧
          ∀ k ∈ task_queue 0 (st.current_set_of_features.length : ℤ), ∀ a,
            backward_candidate data st.current_set_of_features k = some a → a ≤ 0) ∨
        (0 < best.best_accuracy_at_this_level ∧ st' = backward_next st best ∧
          best.feature_at_this_level ∈
            task_queue 0 (st.current_set_of_features.length : ℤ) ∧
          backward_candidate data st.current_set_of_features best.feature_at_this_level =
            some best.best_accuracy_at_this_level ∧
          ∀ k ∈ task_queue 0 (st.current_set_of_features.length : ℤ), ∀ a,
            backward_candidate data st.current_set_of_features k = some a →
              a ≤ best.best_accuracy_at_this_level)) := by
  obtain ⟨order, best, hperm, hbest, hrec⟩ :=
    backward_level_best_record data D hn hrect st.current_set_of_features hinv.within sched
  rcases hrec.of_perm hperm with ⟨h0, hall⟩ | ⟨hpos, hmem, hc, hmax⟩
  · refine ⟨best, st, hbest, ?_, hinv, Or.inl ⟨h0, rfl, hall⟩⟩
    unfold backward_level
    rw [hbest, h0]
    exact backward_commit_level_init st
  · refine ⟨best, backward_next st best, hbest, ?_, ?_, Or.inr ⟨hpos, rfl, hmem, hc, hmax⟩⟩
    · unfold backward_level
      rw [hbest]
      exact backward_commit_winner st best hmem
    · have herase := List.eraseIdx_sublist st.current_set_of_features
        best.feature_at_this_level.toNat
      unfold backward_next
      by_cases hgt : best.best_accuracy_at_this_level > st.best_so_far_accuracy
      · simp only [if_pos hgt]
        refine ⟨herase.trans (hinv.cur_sub.trans hinv.best_sub), List.Sublist.refl _, hc,
          fun a ha => ?_⟩
        exact le_of_lt (lt_of_le_of_lt (hinv.ge_full a ha) hgt)
      · simp only [if_neg hgt]
        exact ⟨hinv.best_sub, herase.trans hinv.cur_sub, hinv.own, hinv.ge_full⟩

theorem backward_start_inv (data : Dataset) (D : Nat) (hn : 1 ≤ data.length)
    (hrect : Rectangular data D) : BackwardInv data D (backward_start data D) := by
  have h := loocv_eq_accuracy data D hn hrect (full_set D) (full_set_within D).columns
  refine ⟨List.Sublist.refl _, List.Sublist.refl _, ?_, fun a ha => ?_⟩
  · simp only [backward_start, h, Option.getD_some]
  · simp only [backward_start, h, Option.getD_some]
    rw [h] at ha
    cases ha
    exact le_refl _

/-- After any number of rounds `backward_elimination` has a state, and the
state satisfies the invariant. -/
theorem backward_rounds_inv (data : Dataset) (D : Nat) (hn : 1 ≤ data.length)
    (hrect : Rectangular data D) (sched : Nat → Nat → Nat) :
    ∀ r : Nat, ∃ st, backward_rounds data D (backward_start data D) sched r = some st ∧
      BackwardInv data D st
  | 0 => ⟨_, rfl, backward_start_inv data D hn hrect⟩
  | r + 1 => by
    obtain ⟨st, hst, hinv⟩ := backward_rounds_inv data D hn hrect sched r
    obtain ⟨best, st', _, hlevel, hinv', _⟩ :=
      backward_level_step data D hn hrect st hinv (sched (D - r))
    exact ⟨st', by rw [backward_rounds, hst]; exact hlevel, hinv'⟩

theorem backward_elimination_eq_rounds (data : Dataset) (D : Nat) (hn : 1 ≤ data.length)
    (hrect : Rectangular data D) (sched : Nat → Nat → Nat) :
    backward_elimination data sched =
      backward_rounds data D (backward_start data D) sched D := by
  unfold backward_elimination
  have h0 : 0 < data.length := hn
  rw [List.getElem?_eq_getElem h0]
  have hlen := hrect data[0] (List.getElem_mem _)
  simp only [hlen]
  have : ((D + 1 : Nat) : ℤ) - 1 = (D : ℤ) := by push_cast; ring
  rw [this, Int.toNat_ofNat, if_neg (by omega)]
  have h := loocv_eq_accuracy data D hn hrect (full_set D) (full_set_within D).columns
  simp only [h, backward_start, Option.getD_some]

/-- The rounds of `backward_elimination` on well-formed data, in terms of
`backward_state` and `backward_record`. -/
theorem backward_round_unfold (data : Dataset) (D : Nat) (hn : 1 ≤ data.length)
    (hrect : Rectangular data D) (sched : Nat → Nat → Nat) (r : Nat) :
    backward_rounds data D (backward_start data D) sched r =
      some (backward_state data D sched r) ∧
    BackwardInv data D (backward_state data D sched r) ∧
    backward_level_best data (backward_state data D sched r).current_set_of_features
      (sched (D - r)) = some (backward_record data D sched (r + 1)) ∧
    ((backward_record data D sched (r + 1) = level_init ∧
        backward_state data D sched (r + 1) = backward_state data D sched r ∧
        ∀ k ∈ task_queue 0
            ((backward_state data D sched r).current_set_of_features.length : ℤ), ∀ a,
          backward_candidate data (backward_state data D sched r).current_set_of_features k =
            some a → a ≤ 0) ∨
      (0 < (backward_record data D sched (r + 1)).best_accuracy_at_this_level ∧
        backward_state data D sched (r + 1) =
          backward_next (backward_state data D sched r) (backward_record data D sched (r + 1)) ∧
        (backward_record data D sched (r + 1)).feature_at_this_level ∈
          task_queue 0 ((backward_state data D sched r).current_set_of_features.length : ℤ) ∧
        backward_candidate data (backward_state data D sched r).current_set_of_features
          (backward_record data D sched (r + 1)).feature_at_this_level =
            some (backward_record data D sched (r + 1)).best_accuracy_at_this_level ∧
        ∀ k ∈ task_queue 0
            ((backward_state data D sched r).current_set_of_features.length : ℤ), ∀ a,
          backward_candidate data (backward_state data D sched r).current_set_of_features k =
            some a → a ≤ (backward_record data D sched (r + 1)).best_accuracy_at_this_level)) := by
  obtain ⟨st, hst, hinv⟩ := backward_rounds_inv data D hn hrect sched r
  have hs : backward_state data D sched r = st := by
    unfold backward_state
    rw [hst]
    rfl
  obtain ⟨best, st', hbest, hlevel, _, hcases⟩ :=
    backward_level_step data D hn hrect st hinv (sched (D - r))
  have hb : backward_record data D sched (r + 1) = best := by
    unfold backward_record
    rw [Nat.add_sub_cancel, hs, hbest]
    rfl
  have hs' : backward_state data D sched (r + 1) = st' := by
    unfold backward_state
    rw [backward_rounds, hst]
    simp only [hlevel]
    rfl
  rw [hs, hb, hs']
  exact ⟨hst, hinv, hbest, hcases⟩

/-- C4: the record of a round. For every dataset with n >= 1 samples of D
features, every current set with indices in [1,D] and every schedule of the
worker pool, the round of forward selection returns a record; when no
candidate (k in [1,D], k not in current) has an accuracy above 0 the record
is the initial one, accuracy 0 and feature -1; when some candidate has, the
recorded feature is a candidate, the recorded accuracy is its accuracy, and no
candidate has a larger one. The same holds of the round of backward
elimination, whose candidates are the positions k in [0, size of current). -/
theorem round_record_is_maximum (data : Dataset) (D : Nat) (hn : 1 ≤ data.length)
    (hrect : Rectangular data D) (current : List ℤ) (hcur : FeaturesWithin current D)
    (sched : Nat → Nat) :
    (∃ best : LevelBest, forward_level_best data D current sched = some best ∧
      ((∀ k a, 1 ≤ k → k ≤ (D : ℤ) → forward_candidate data current k = some a → a ≤ 0) →
        best = ⟨0, -1⟩) ∧
      ((∃ k a, 1 ≤ k ∧ k ≤ (D : ℤ) ∧ forward_candidate data current k = some a ∧ 0 < a) →
        1 ≤ best.feature_at_this_level ∧ best.feature_at_this_level ≤ (D : ℤ) ∧
        forward_candidate data current best.feature_at_this_level =
          some best.best_accuracy_at_this_level ∧
        ∀ k a, 1 ≤ k → k ≤ (D : ℤ) → forward_candidate data current k = some a →
          a ≤ best.best_accuracy_at_this_level)) ∧
    (∃ best : LevelBest, backward_level_best data current sched = some best ∧
      ((∀ k a, 0 ≤ k → k < (current.length : ℤ) →
          backward_candidate data current k = some a → a ≤ 0) →
        best = ⟨0, -1⟩) ∧
      ((∃ k a, 0 ≤ k ∧ k < (current.length : ℤ) ∧
          backward_candidate data current k = some a ∧ 0 < a) →
        0 ≤ best.feature_at_this_level ∧
        best.feature_at_this_level < (current.length : ℤ) ∧
        backward_candidate data current best.feature_at_this_level =
          some best.best_accuracy_at_this_level ∧
        ∀ k a, 0 ≤ k → k < (current.length : ℤ) →
          backward_candidate data current k = some a →
            a ≤ best.best_accuracy_at_this_level)) := by
  constructor
  · obtain ⟨order, best, hperm, hbest, hrec⟩ :=
      forward_level_best_record data D hn hrect current hcur sched
    refine ⟨best, hbest, ?_, ?_⟩
    · intro hall
      rcases hrec.of_perm hperm with ⟨h0, _⟩ | ⟨hpos, hmem, hc, _⟩
      · exact h0
      · have hq := (mem_task_queue _ _ _).mp hmem
        have := hall _ _ hq.1 (by omega) hc
        linarith
    · rintro ⟨k, a, hk1, hk2, hka, ha⟩
      rcases hrec.of_perm hperm with ⟨_, hall⟩ | ⟨_, hmem, hc, hmax⟩
      · have := hall k ((mem_task_queue _ _ _).mpr ⟨hk1, by omega⟩) a hka
        linarith
      · have hq := (mem_task_queue _ _ _).mp hmem
        exact ⟨hq.1, by omega, hc, fun j c hj1 hj2 hjc =>
          hmax j ((mem_task_queue _ _ _).mpr ⟨hj1, by omega⟩) c hjc⟩
  · obtain ⟨order, best, hperm, hbest, hrec⟩ :=
      backward_level_best_record data D hn hrect current hcur sched
    refine ⟨best, hbest, ?_, ?_⟩
    · intro hall
      rcases hrec.of_perm hperm with ⟨h0, _⟩ | ⟨hpos, hmem, hc, _⟩
      · exact h0
      · have hq := (mem_task_queue _ _ _).mp hmem
        have := hall _ _ hq.1 hq.2 hc
        linarith
    · rintro ⟨k, a, hk1, hk2, hka, ha⟩
      rcases hrec.of_perm hperm with ⟨_, hall⟩ | ⟨_, hmem, hc, hmax⟩
      · have := hall k ((mem_task_queue _ _ _).mpr ⟨hk1, hk2⟩) a hka
        linarith
      · have hq := (mem_task_queue _ _ _).mp hmem
        exact ⟨hq.1, hq.2, hc, fun j c hj1 hj2 hjc =>
          hmax j ((mem_task_queue _ _ _).mpr ⟨hj1, hj2⟩) c hjc⟩

theorem full_set_length (D : Nat) : (full_set D).length = D := by
  simp [full_set]

theorem backward_next_current (st : SearchState) (best : LevelBest) :
    (backward_next st best).current_set_of_features =
      st.current_set_of_features.eraseIdx best.feature_at_this_level.toNat := by
  unfold backward_next
  split <;> rfl

/-- What a round of `backward_elimination` does to the current set: with a
candidate above 0 it erases one position, with none it changes nothing. -/
theorem backward_round_current (data : Dataset) (D : Nat) (hn : 1 ≤ data.length)
    (hrect : Rectangular data D) (sched : Nat → Nat → Nat) (r : Nat) :
    ((∃ k a, 0 ≤ k ∧
        k < ((backward_state data D sched r).current_set_of_features.length : ℤ) ∧
        backward_candidate data (backward_state data D sched r).current_set_of_features k =
          some a ∧ 0 < a) →
      ∃ p, p < (backward_state data D sched r).current_set_of_features.length ∧
        (backward_state data D sched (r + 1)).current_set_of_features =
          (backward_state data D sched r).current_set_of_features.eraseIdx p ∧
        (backward_state data D sched (r + 1)).current_set_of_features.length + 1 =
          (backward_state data D sched r).current_set_of_features.length) ∧
    ((∀ k a, 0 ≤ k →
        k < ((backward_state data D sched r).current_set_of_features.length : ℤ) →
        backward_candidate data (backward_state data D sched r).current_set_of_features k =
          some a → a ≤ 0) →
      (backward_state data D sched (r + 1)).current_set_of_features =
        (backward_state data D sched r).current_set_of_features) := by
  obtain ⟨_, _, _, hcases⟩ := backward_round_unfold data D hn hrect sched r
  constructor
  · rintro ⟨k, a, hk1, hk2, hka, ha⟩
    rcases hcases with ⟨_, _, hall⟩ | ⟨_, hnext, hmem, _, _⟩
    · have := hall k ((mem_task_queue _ _ _).mpr ⟨hk1, hk2⟩) a hka
      linarith
    · have hq := (mem_task_queue _ _ _).mp hmem
      have hp : (backward_record data D sched (r + 1)).feature_at_this_level.toNat <
          (backward_state data D sched r).current_set_of_features.length := by omega
      refine ⟨_, hp, ?_, ?_⟩
      · rw [hnext, backward_next_current]
      · rw [hnext, backward_next_current]
        exact List.length_eraseIdx_add_one hp
  · intro hall
    rcases hcases with ⟨_, hsame, _⟩ | ⟨hpos, _, hmem, hc, _⟩
    · rw [hsame]
    · have hq := (mem_task_queue _ _ _).mp hmem
      have := hall _ _ hq.1 hq.2 hc
      linarith

/-- As long as every round had a candidate above 0, the current set of
`backward_elimination` has lost one feature per round. -/
theorem backward_current_length (data : Dataset) (D : Nat) (hn : 1 ≤ data.length)
    (hrect : Rectangular data D) (sched : Nat → Nat → Nat) :
    ∀ r : Nat,
      (∀ r', r' < r → ∃ k a, 0 ≤ k ∧
        k < ((backward_state data D sched r').current_set_of_features.length : ℤ) ∧
        backward_candidate data (backward_state data D sched r').current_set_of_features k =
          some a ∧ 0 < a) →
      (backward_state data D sched r).current_set_of_features.length + r = D
  | 0, _ => by
    show (full_set D).length + 0 = D
    rw [full_set_length, Nat.add_zero]
  | r + 1, h => by
    have ih := backward_current_length data D hn hrect sched r
      (fun r' hr' => h r' (by omega))
    obtain ⟨p, _, _, hlen⟩ :=
      (backward_round_current data D hn hrect sched r).1 (h r (by omega))
    omega

/-- C7 (amended): for every dataset with n >= 1 samples and D features and
every schedule, `backward_elimination` returns; each of its D rounds in which
some candidate has an accuracy above 0 removes exactly one feature from
current (one position is erased, the size drops by one), a round in which no
candidate has leaves current unchanged, and when every round has such a
candidate the search finishes with current equal to the empty set. -/
theorem backward_elimination_removes_one_per_round (data : Dataset) (D : Nat)
    (hn : 1 ≤ data.length) (hrect : Rectangular data D) (sched : Nat → Nat → Nat) :
    ∃ st : SearchState, backward_elimination data sched = some st ∧
      (∀ r, r ≤ D → backward_rounds data D (backward_start data D) sched r =
        some (backward_state data D sched r)) ∧
      (∀ r, r < D →
        ((∃ k a, 0 ≤ k ∧
            k < ((backward_state data D sched r).current_set_of_features.length : ℤ) ∧
            backward_candidate data (backward_state data D sched r).current_set_of_features k =
              some a ∧ 0 < a) →
          ∃ p, p < (backward_state data D sched r).current_set_of_features.length ∧
            (backward_state data D sched (r + 1)).current_set_of_features =
              (backward_state data D sched r).current_set_of_features.eraseIdx p ∧
            (backward_state data D sched (r + 1)).current_set_of_features.length + 1 =
              (backward_state data D sched r).current_set_of_features.length) ∧
        ((∀ k a, 0 ≤ k →
            k < ((backward_state data D sched r).current_set_of_features.length : ℤ) →
            backward_candidate data (backward_state data D sched r).current_set_of_features k =
              some a → a ≤ 0) →
          (backward_state data D sched (r + 1)).current_set_of_features =
            (backward_state data D sched r).current_set_of_features)) ∧
      ((∀ r, r < D → ∃ k a, 0 ≤ k ∧
          k < ((backward_state data D sched r).current_set_of_features.length : ℤ) ∧
          backward_candidate data (backward_state data D sched r).current_set_of_features k =
            some a ∧ 0 < a) →
        st.current_set_of_features = []) := by
  refine ⟨backward_state data D sched D, ?_, ?_, ?_, ?_⟩
  · rw [backward_elimination_eq_rounds data D hn hrect sched]
    exact (backward_round_unfold data D hn hrect sched D).1
  · exact fun r _ => (backward_round_unfold data D hn hrect sched r).1
  · exact fun r _ => backward_round_current data D hn hrect sched r
  · intro hall
    have := backward_current_length data D hn hrect sched D hall
    exact List.length_eq_zero.mp (by omega)

/-- C7 (as stated) fails: on the samples (0, 0), (1, 0) the only candidate of
the only round, the empty set, has accuracy 0; nothing is removed and
`backward_elimination` finishes with current = [1]. -/
theorem backward_elimination_keeps_feature_counterexample :
    1 ≤ ([[0, 0], [1, 0]] : Dataset).length ∧ Rectangular [[0, 0], [1, 0]] 1 ∧
    backward_candidate [[0, 0], [1, 0]] [1] 0 = some 0 ∧
    backward_elimination [[0, 0], [1, 0]] (fun _ _ => 0) = some ⟨[1], [1], 0⟩ :=
  ⟨by decide, rectangular_of_all (by decide), by decide!, by decide!⟩

theorem not_mem_eraseIdx_of_nodup {l : List ℤ} (hl : l.Nodup) (p : Nat) (hp : p < l.length) :
    l[p] ∉ l.eraseIdx p := by
  rw [← hl.erase_getElem p hp]
  exact hl.not_mem_erase

/-- C8 (amended): in backward elimination, for every dataset, every schedule
and every round that removes a feature f (the round has a candidate above 0):
the subset left has the recorded accuracy; the best-so-far accuracy before
the round is at least the full-set accuracy; if the recorded accuracy is
strictly greater than the best-so-far accuracy before the round, then the
best-so-far set right after the round is the subset left, which excludes f;
if it is not, the best-so-far set is unchanged and still contains f. -/
theorem backward_best_excludes_removed (data : Dataset) (D : Nat)
    (hn : 1 ≤ data.length) (hrect : Rectangular data D) (sched : Nat → Nat → Nat)
    (r : Nat)
    (hwin : 0 < (backward_record data D sched (r + 1)).best_accuracy_at_this_level) :
    ∃ (p : Nat) (f : ℤ),
      (backward_record data D sched (r + 1)).feature_at_this_level = (p : ℤ) ∧
      (backward_state data D sched r).current_set_of_features[p]? = some f ∧
      (backward_state data D sched (r + 1)).current_set_of_features =
        (backward_state data D sched r).current_set_of_features.eraseIdx p ∧
      f ∉ (backward_state data D sched (r + 1)).current_set_of_features ∧
      leave_one_out_cross_validation data
        (backward_state data D sched (r + 1)).current_set_of_features (-1) =
          some (backward_record data D sched (r + 1)).best_accuracy_at_this_level ∧
      (∀ a, leave_one_out_cross_validation data (full_set D) (-1) = some a →
        a ≤ (backward_state data D sched r).best_so_far_accuracy) ∧
      ((backward_record data D sched (r + 1)).best_accuracy_at_this_level >
          (backward_state data D sched r).best_so_far_accuracy →
        (backward_state data D sched (r + 1)).best_set_of_features =
          (backward_state data D sched (r + 1)).current_set_of_features ∧
        f ∉ (backward_state data D sched (r + 1)).best_set_of_features) ∧
      (¬ (backward_record data D sched (r + 1)).best_accuracy_at_this_level >
          (backward_state data D sched r).best_so_far_accuracy →
        (backward_state data D sched (r + 1)).best_set_of_features =
          (backward_state data D sched r).best_set_of_features ∧
        f ∈ (backward_state data D sched (r + 1)).best_set_of_features) := by
  obtain ⟨_, hinv, _, hcases⟩ := backward_round_unfold data D hn hrect sched r
  rcases hcases with ⟨h0, _, _⟩ | ⟨_, hnext, hmem, hc, _⟩
  · rw [h0] at hwin
    exact absurd hwin (lt_irrefl _)
  · have hq := (mem_task_queue _ _ _).mp hmem
    have hp : (backward_record data D sched (r + 1)).feature_at_this_level.toNat <
        (backward_state data D sched r).current_set_of_features.length := by omega
    have hcur := backward_next_current (backward_state data D sched r)
      (backward_record data D sched (r + 1))
    rw [← hnext] at hcur
    have hnot := not_mem_eraseIdx_of_nodup hinv.nodup _ hp
    refine ⟨_, _, (Int.toNat_of_nonneg hq.1).symm, List.getElem?_eq_getElem hp, hcur,
      by rw [hcur]; exact hnot, by rw [hcur]; exact hc, hinv.ge_full, ?_, ?_⟩
    · intro hgt
      have hset : (backward_state data D sched (r + 1)).best_set_of_features =
          (backward_state data D sched (r + 1)).current_set_of_features := by
        rw [hnext]; unfold backward_next; simp only [if_pos hgt]
      exact ⟨hset, by rw [hset, hcur]; exact hnot⟩
    · intro hgt
      have hset : (backward_state data D sched (r + 1)).best_set_of_features =
          (backward_state data D sched r).best_set_of_features := by
        rw [hnext]; unfold backward_next; simp only [if_neg hgt]
      exact ⟨hset, by rw [hset]; exact hinv.cur_sub.subset (List.getElem_mem _)⟩

/-- C8 (as stated) fails: on the samples (0, 0), (0, 0) the full set [1] has
accuracy 1; the only round removes feature 1 and the subset left, the empty
set, has accuracy 1, not less than the full-set accuracy; the best-so-far set
right after the round is still [1], which contains the removed feature. -/
theorem backward_best_keeps_removed_counterexample :
    1 ≤ ([[0, 0], [0, 0]] : Dataset).length ∧ Rectangular [[0, 0], [0, 0]] 1 ∧
    leave_one_out_cross_validation [[0, 0], [0, 0]] (full_set 1) (-1) = some 1 ∧
    backward_rounds [[0, 0], [0, 0]] 1 (backward_start [[0, 0], [0, 0]] 1) (fun _ _ => 0) 0 =
      some ⟨[1], [1], 1⟩ ∧
    backward_level_best [[0, 0], [0, 0]] [1] (fun _ => 0) = some ⟨1, 0⟩ ∧
    leave_one_out_cross_validation [[0, 0], [0, 0]] [] (-1) = some 1 ∧
    backward_rounds [[0, 0], [0, 0]] 1 (backward_start [[0, 0], [0, 0]] 1) (fun _ _ => 0) 1 =
      some ⟨[], [1], 1⟩ ∧
    (1 : ℤ) ∈ ([1] : List ℤ) :=
  ⟨by decide, rectangular_of_all (by decide), by decide!, by decide!, by decide!, by decide!,
    by decide!, by decide⟩

/-! ## Two schedules of the pool -/

theorem unfinished_cons (w : Worker) (rest : List Worker) (hw : w ≠ Worker.finished) :
    ∃ tl, unfinished (w :: rest) = 0 :: tl := by
  unfold unfinished
  rw [List.length_cons, List.range_succ_eq_map, List.filter_cons]
  have : decide ((w :: rest)[0]? ≠ some Worker.finished) = true := by
    simpa using hw
  rw [if_pos this]
  exact ⟨_, rfl⟩

theorem unfinished_cons_cons (w0 w1 : Worker) (rest : List Worker)
    (h0 : w0 ≠ Worker.finished) (h1 : w1 ≠ Worker.finished) :
    ∃ tl, unfinished (w0 :: w1 :: rest) = 0 :: 1 :: tl := by
  unfold unfinished
  rw [List.length_cons, List.length_cons, List.range_succ_eq_map, List.range_succ_eq_map,
    List.filter_cons]
  have e0 : decide ((w0 :: w1 :: rest)[0]? ≠ some Worker.finished) = true := by
    simpa using h0
  rw [if_pos e0, List.map_cons, List.filter_cons]
  have e1 : decide ((w0 :: w1 :: rest)[Nat.succ 0]? ≠ some Worker.finished) = true := by
    simpa using h1
  rw [if_pos e1]
  exact ⟨_, rfl⟩

theorem pool_step_first {σ : Type} (task : σ → ℤ → σ) (s : Pool σ) (w : Worker)
    (rest : List Worker) (hs : s.workers = w :: rest) (hw : w ≠ Worker.finished) :
    pool_step task s 0 = worker_step task s 0 := by
  obtain ⟨tl, htl⟩ := unfinished_cons w rest hw
  unfold pool_step
  rw [hs, htl]
  rfl

theorem pool_step_second {σ : Type} (task : σ → ℤ → σ) (s : Pool σ) (w0 w1 : Worker)
    (rest : List Worker) (hs : s.workers = w0 :: w1 :: rest) (h0 : w0 ≠ Worker.finished)
    (h1 : w1 ≠ Worker.finished) :
    pool_step task s 1 = worker_step task s 1 := by
  obtain ⟨tl, htl⟩ := unfinished_cons_cons w0 w1 rest h0 h1
  unfold pool_step
  rw [hs, htl]
  have : 1 % (0 :: 1 :: tl).length = 1 := by
    rw [List.length_cons, List.length_cons]
    exact Nat.mod_eq_of_lt (by omega)
  simp only [this]
  rfl

/-- The first worker, scheduled alone, takes the indices at the front of the
queue one after the other. -/
theorem pool_run_first_worker {σ : Type} (task : σ → ℤ → σ) :
    ∀ (front back : List ℤ) (rest : List Worker) (act : ℤ) (inv : List ℤ) (sh : σ)
      (sched : Nat → Nat), (∀ t, t < 2 * front.length → sched t = 0) →
      pool_run task (2 * front.length)
        ⟨front ++ back, Worker.waiting :: rest, act, inv, sh⟩ sched =
        ⟨back, Worker.waiting :: rest, act, inv ++ front, front.foldl task sh⟩
  | [], back, rest, act, inv, sh, sched, _ => by
    simp [pool_run]
  | x :: front, back, rest, act, inv, sh, sched, h => by
    show pool_run task (2 * front.length + 1 + 1) _ _ = _
    have h0 : sched 0 = 0 := h 0 (by simp)
    have h1 : sched 1 = 0 := h 1 (by simp; omega)
    rw [pool_run, h0, pool_step_first task _ Worker.waiting rest rfl (by simp)]
    rw [pool_run]
    simp only [Nat.zero_add, h1]
    rw [pool_step_first task _ (Worker.holding x) rest (by simp [worker_step]) (by simp)]
    have ih := pool_run_first_worker task front back rest act (inv ++ [x]) (task sh x)
      (fun t => sched (t + 1 + 1)) (fun t ht => h (t + 1 + 1) (by simp; omega))
    simp only [worker_step, List.cons_append, List.getElem?_cons_zero, List.set_cons_zero,
      add_sub_cancel_right]
    rw [ih]
    simp

/-- While the first worker holds an index, the second worker, scheduled
alone, takes the indices at the front of the queue one after the other. -/
theorem pool_run_second_worker {σ : Type} (task : σ → ℤ → σ) (a : ℤ) :
    ∀ (front back : List ℤ) (rest : List Worker) (act : ℤ) (inv : List ℤ) (sh : σ)
      (sched : Nat → Nat), (∀ t, t < 2 * front.length → sched t = 1) →
      pool_run task (2 * front.length)
        ⟨front ++ back, Worker.holding a :: Worker.waiting :: rest, act, inv, sh⟩ sched =
        ⟨back, Worker.holding a :: Worker.waiting :: rest, act, inv ++ front,
          front.foldl task sh⟩
  | [], back, rest, act, inv, sh, sched, _ => by
    simp [pool_run]
  | x :: front, back, rest, act, inv, sh, sched, h => by
    show pool_run task (2 * front.length + 1 + 1) _ _ = _
    have h0 : sched 0 = 1 := h 0 (by simp)
    have h1 : sched 1 = 1 := h 1 (by simp; omega)
    rw [pool_run, h0,
      pool_step_second task _ (Worker.holding a) Worker.waiting rest rfl (by simp) (by simp)]
    rw [pool_run]
    simp only [Nat.zero_add, h1]
    rw [pool_step_second task _ (Worker.holding a) (Worker.holding x) rest
      (by simp [worker_step]) (by simp) (by simp)]
    have ih := pool_run_second_worker task a front back rest act (inv ++ [x]) (task sh x)
      (fun t => sched (t + 1 + 1)) (fun t ht => h (t + 1 + 1) (by simp; omega))
    simp only [worker_step, List.cons_append, List.getElem?_cons_succ,
      List.getElem?_cons_zero, List.set_cons_succ, List.set_cons_zero, add_sub_cancel_right]
    rw [ih]
    simp

theorem pool_run_add {σ : Type} (task : σ → ℤ → σ) :
    ∀ (n m : Nat) (s : Pool σ) (sched : Nat → Nat),
      pool_run task (n + m) s sched =
        pool_run task m (pool_run task n s sched) (fun t => sched (t + n))
  | 0, m, s, sched => by simp [pool_run]
  | n + 1, m, s, sched => by
    rw [Nat.add_right_comm, pool_run, pool_run_add task n m, pool_run]
    simp only [Nat.add_assoc]

theorem pool_run_one {σ : Type} (task : σ → ℤ → σ) (s : Pool σ) (sched : Nat → Nat) :
    pool_run task 1 s sched = pool_step task s (sched 0) := rfl

theorem worker_step_invoked {σ : Type} (task : σ → ℤ → σ) (s : Pool σ) (w : Nat) :
    ∃ extra, (worker_step task s w).invoked = s.invoked ++ extra := by
  unfold worker_step
  cases s.workers[w]? with
  | none => exact ⟨[], by simp⟩
  | some y =>
    cases y with
    | finished => exact ⟨[], by simp⟩
    | waiting => cases s.tasks <;> exact ⟨[], by simp⟩
    | holding t => exact ⟨[t], rfl⟩

/-- The invocations of a pool only grow at the end. -/
theorem pool_run_invoked {σ : Type} (task : σ → ℤ → σ) :
    ∀ (n : Nat) (s : Pool σ) (sched : Nat → Nat),
      ∃ extra, (pool_run task n s sched).invoked = s.invoked ++ extra
  | 0, s, _ => ⟨[], by simp [pool_run]⟩
  | n + 1, s, sched => by
    obtain ⟨e2, h2⟩ := pool_run_invoked task n (pool_step task s (sched 0))
      (fun t => sched (t + 1))
    have h1 : ∃ e1, (pool_step task s (sched 0)).invoked = s.invoked ++ e1 := by
      unfold pool_step
      split
      · exact ⟨[], by simp⟩
      · exact worker_step_invoked task s _
    obtain ⟨e1, h1⟩ := h1
    exact ⟨e1 ++ e2, by rw [pool_run, h2, h1, List.append_assoc]⟩

theorem parallel_for_pool_inv {σ : Type} (start end_ max_threads : ℤ)
    (task : σ → ℤ → σ) (shared : σ) (sched : Nat → Nat) :
    PoolInv (task_queue start end_) task shared
      (parallel_for_pool start end_ max_threads task shared sched) :=
  pool_run_inv (task_queue start end_) task shared
    (pool_steps start end_ max_threads) (pool_init start end_ max_threads shared) sched
    (pool_init_inv start end_ max_threads task shared)

theorem parallel_for_pool_invoked_perm {σ : Type} (start end_ max_threads : ℤ)
    (task : σ → ℤ → σ) (shared : σ) (sched : Nat → Nat) (h : 1 ≤ max_threads) :
    (parallel_for_pool start end_ max_threads task shared sched).invoked.Perm
      (task_queue start end_) :=
  joined_invoked_perm _ task shared _
    (parallel_for_pool_inv start end_ max_threads task shared sched)
    (pool_run_workers_ne_nil task _ _ _
      (pool_init_workers_ne_nil start end_ max_threads shared h))
    (parallel_for_pool_joined start end_ max_threads task shared sched h)

/-- Once a run has invoked as many indices as the queue holds, the order of
the invocations is final. -/
theorem parallel_for_pool_invoked_of_prefix {σ : Type} (start end_ max_threads : ℤ)
    (task : σ → ℤ → σ) (shared : σ) (sched : Nat → Nat) (h : 1 ≤ max_threads)
    (n : Nat) (hn : n ≤ pool_steps start end_ max_threads) (l : List ℤ)
    (hl : (pool_run task n (pool_init start end_ max_threads shared) sched).invoked = l)
    (hlen : l.length = (task_queue start end_).length) :
    (parallel_for_pool start end_ max_threads task shared sched).invoked = l := by
  have hperm := parallel_for_pool_invoked_perm start end_ max_threads task shared sched h
  obtain ⟨m, hm⟩ := Nat.exists_eq_add_of_le hn
  unfold parallel_for_pool at hperm ⊢
  rw [hm, pool_run_add] at hperm ⊢
  obtain ⟨extra, he⟩ := pool_run_invoked task m
    (pool_run task n (pool_init start end_ max_threads shared) sched) (fun t => sched (t + n))
  rw [hl] at he
  have hlen2 := hperm.length_eq
  rw [he, List.length_append, hlen] at hlen2
  have : extra = [] := List.length_eq_zero.mp (by omega)
  rw [he, this, List.append_nil]

theorem replicate_waiting_one (max_threads : ℤ) (h : 1 ≤ max_threads) :
    ∃ rest, List.replicate max_threads.toNat Worker.waiting = Worker.waiting :: rest := by
  obtain ⟨n, hn⟩ : ∃ n, max_threads.toNat = n + 1 := ⟨max_threads.toNat - 1, by omega⟩
  exact ⟨_, by rw [hn, List.replicate_succ]⟩

theorem replicate_waiting_two (max_threads : ℤ) (h : 2 ≤ max_threads) :
    ∃ rest, List.replicate max_threads.toNat Worker.waiting =
      Worker.waiting :: Worker.waiting :: rest := by
  obtain ⟨n, hn⟩ : ∃ n, max_threads.toNat = n + 1 + 1 := ⟨max_threads.toNat - 2, by omega⟩
  exact ⟨_, by rw [hn, List.replicate_succ, List.replicate_succ]⟩

/-- Under the schedule that always lets the first unfinished worker move,
the tasks run in the order of the queue. -/
theorem parallel_for_queue_order {σ : Type} (start end_ max_threads : ℤ)
    (task : σ → ℤ → σ) (shared : σ) (h : 1 ≤ max_threads) :
    (parallel_for_pool start end_ max_threads task shared (fun _ => 0)).invoked =
      task_queue start end_ := by
  obtain ⟨rest, hrest⟩ := replicate_waiting_one max_threads h
  apply parallel_for_pool_invoked_of_prefix start end_ max_threads task shared _ h
    (2 * (task_queue start end_).length) (by unfold pool_steps; omega) _ _ rfl
  have := pool_run_first_worker task (task_queue start end_) [] rest 0 [] shared
    (fun _ => 0) (fun _ _ => rfl)
  rw [List.append_nil] at this
  unfold pool_init
  rw [hrest, this]
  rfl

/-- With two workers or more there is a schedule under which the task of any
chosen index of the queue runs last: the first worker pops that index and is
held up while the second worker runs all the tasks that follow. -/
theorem parallel_for_stalled_order {σ : Type} (start end_ max_threads : ℤ)
    (task : σ → ℤ → σ) (shared : σ) (h : 2 ≤ max_threads) (front back : List ℤ) (a : ℤ)
    (hq : task_queue start end_ = front ++ a :: back) :
    ∃ sched : Nat → Nat,
      (parallel_for_pool start end_ max_threads task shared sched).invoked =
        front ++ back ++ [a] := by
  obtain ⟨rest, hrest⟩ := replicate_waiting_two max_threads h
  have hlen : (task_queue start end_).length = front.length + 1 + back.length := by
    rw [hq]; simp; omega
  let sched : Nat → Nat := fun t =>
    if t < 2 * front.length + 1 then 0
    else if t < 2 * front.length + 1 + 2 * back.length then 1 else 0
  refine ⟨sched, ?_⟩
  apply parallel_for_pool_invoked_of_prefix start end_ max_threads task shared _ (by omega)
    (2 * front.length + (1 + (2 * back.length + 1))) (by unfold pool_steps; omega) _ _
    (by simp; omega)
  unfold pool_init
  rw [hrest, hq, pool_run_add task (2 * front.length) (1 + (2 * back.length + 1)),
    pool_run_first_worker task front (a :: back) (Worker.waiting :: rest) 0 [] shared sched
      (fun t ht => by simp only [sched]; rw [if_pos (by omega)]),
    pool_run_add task 1 (2 * back.length + 1), pool_run_one]
  have e1 : sched (0 + 2 * front.length) = 0 := by
    simp only [sched]; rw [if_pos (by omega)]
  rw [e1, pool_step_first task _ Worker.waiting (Worker.waiting :: rest) rfl (by simp)]
  simp only [worker_step, List.getElem?_cons_zero, List.set_cons_zero, List.nil_append]
  rw [pool_run_add task (2 * back.length) 1]
  have := pool_run_second_worker task a back [] rest (0 + 1) front (front.foldl task shared)
    (fun t => sched (t + 1 + 2 * front.length)) (fun t ht => by
      simp only [sched]
      rw [if_neg (by omega), if_pos (by omega)])
  rw [List.append_nil] at this
  rw [this, pool_run_one]
  have e2 : sched (0 + 2 * back.length + 1 + 2 * front.length) = 0 := by
    simp only [sched]; rw [if_neg (by omega), if_neg (by omega)]
  rw [e2, pool_step_first task _ (Worker.holding a) (Worker.waiting :: rest) rfl (by simp)]
  simp [worker_step]

/-! ## The winner of a round and the schedule -/

theorem record_step_of_some (cand : ℤ → Option ℚ) (best : LevelBest) (k : ℤ) (a : ℚ)
    (h : cand k = some a) : record_step cand best k = locked_update best a k := by
  unfold record_step
  rw [h]

theorem locked_update_of_not_gt (best : LevelBest) (a : ℚ) (k : ℤ)
    (h : ¬ a > best.best_accuracy_at_this_level) : locked_update best a k = best := by
  unfold locked_update
  rw [if_neg h]

/-- The record with which the pool of a round returns is the fold of
`record_step` over the tasks in the order in which they ran, hence the first
of the best candidates in that order. -/
theorem round_record_first_best (start end_ : ℤ)
    (task : Option LevelBest → ℤ → Option LevelBest) (cand : ℤ → Option ℚ)
    (htask : ∀ k ∈ task_queue start end_, ∀ b,
      task (some b) k = some (record_step cand b k))
    (sched : Nat → Nat) :
    ∃ best : LevelBest,
      parallel_for start end_ 4 task (some level_init) sched = some best ∧
      RecordOf cand
        (parallel_for_pool start end_ 4 task (some level_init) sched).invoked best := by
  have hperm := parallel_for_pool_invoked_perm start end_ 4 task (some level_init) sched
    (by decide)
  refine ⟨_, ?_, record_of_foldl cand _⟩
  unfold parallel_for
  rw [(parallel_for_pool_inv start end_ 4 task (some level_init) sched).shared_eq]
  exact foldl_task_eq_record cand _ level_init (fun k hk b => htask k (hperm.subset hk) b)

/-- The accuracy recorded by a round that has a candidate of accuracy `M`
above 0, `M` being the largest accuracy, is `M`. -/
theorem RecordOf.best_eq {cand : ℤ → Option ℚ} {order : List ℤ} {best : LevelBest}
    (hrec : RecordOf cand order best) (k : ℤ) (M : ℚ) (hk : k ∈ order)
    (hkM : cand k = some M) (hM : 0 < M)
    (hmax : ∀ j ∈ order, ∀ a, cand j = some a → a ≤ M) :
    best.feature_at_this_level ∈ order ∧
      cand best.feature_at_this_level = some M ∧ best.best_accuracy_at_this_level = M := by
  rcases hrec.of_perm (List.Perm.refl order) with ⟨_, hall⟩ | ⟨_, hmem, hc, hge⟩
  · have := hall k hk M hkM
    linarith
  · have h1 := hge k hk M hkM
    have h2 := hmax _ hmem _ hc
    have : best.best_accuracy_at_this_level = M := le_antisymm h2 h1
    exact ⟨hmem, by rw [hc, this], this⟩

/-- When two candidates share the largest accuracy of a round, above 0, two
schedules of the round record different winners. -/
theorem round_two_winners (start end_ : ℤ)
    (task : Option LevelBest → ℤ → Option LevelBest) (cand : ℤ → Option ℚ)
    (htask : ∀ k ∈ task_queue start end_, ∀ b,
      task (some b) k = some (record_step cand b k))
    (k1 k2 : ℤ) (M : ℚ) (hne : k1 ≠ k2) (h1 : k1 ∈ task_queue start end_)
    (h2 : k2 ∈ task_queue start end_) (hc1 : cand k1 = some M) (hc2 : cand k2 = some M)
    (hM : 0 < M) (hmax : ∀ j ∈ task_queue start end_, ∀ a, cand j = some a → a ≤ M) :
    ∃ (sched1 sched2 : Nat → Nat) (b1 b2 : LevelBest),
      parallel_for start end_ 4 task (some level_init) sched1 = some b1 ∧
      parallel_for start end_ 4 task (some level_init) sched2 = some b2 ∧
      b1.feature_at_this_level ≠ b2.feature_at_this_level := by
  -- first schedule: the tasks run in the order of the queue
  obtain ⟨b1, hb1, hrec1⟩ := round_record_first_best start end_ task cand htask (fun _ => 0)
  rw [parallel_for_queue_order start end_ 4 task (some level_init) (by decide)] at hrec1
  obtain ⟨hf1, hcf1, _⟩ := hrec1.best_eq k1 M h1 hc1 hM hmax
  -- second schedule: the task of the first winner runs last
  obtain ⟨front, back, hsplit⟩ := List.append_of_mem hf1
  obtain ⟨sched2, hs2⟩ := parallel_for_stalled_order start end_ 4 task (some level_init)
    (by decide) front back b1.feature_at_this_level hsplit
  obtain ⟨b2, hb2, hrec2⟩ := round_record_first_best start end_ task cand htask sched2
  refine ⟨fun _ => 0, sched2, b1, b2, hb1, hb2, ?_⟩
  have hnd := task_queue_nodup start end_
  rw [hsplit, List.nodup_middle, List.nodup_cons] at hnd
  -- a best candidate other than the first winner runs before it
  obtain ⟨k, hk, hkM, hkne⟩ : ∃ k, k ∈ front ++ back ∧ cand k = some M ∧
      k ≠ b1.feature_at_this_level := by
    by_cases hk1 : k1 = b1.feature_at_this_level
    · refine ⟨k2, ?_, hc2, fun h => hne (hk1.trans h.symm)⟩
      rw [hsplit] at h2
      rcases List.mem_append.mp h2 with h | h
      · exact List.mem_append_left _ h
      · rcases List.mem_cons.mp h with h | h
        · exact absurd (hk1.trans h.symm) hne
        · exact List.mem_append_right _ h
    · refine ⟨k1, ?_, hc1, hk1⟩
      rw [hsplit] at h1
      rcases List.mem_append.mp h1 with h | h
      · exact List.mem_append_left _ h
      · rcases List.mem_cons.mp h with h | h
        · exact absurd h hk1
        · exact List.mem_append_right _ h
  have hsub : ∀ j ∈ front ++ back, j ∈ task_queue start end_ := by
    intro j hj
    rw [hsplit]
    rcases List.mem_append.mp hj with h | h
    · exact List.mem_append_left _ h
    · exact List.mem_append_right _ (List.mem_cons_of_mem _ h)
  have hrec' := record_of_foldl cand (front ++ back)
  obtain ⟨hf', _, hbest'⟩ := hrec'.best_eq k M hk hkM hM
    (fun j hj a hja => hmax j (hsub j hj) a hja)
  -- the record of the second schedule is the record before the last task
  have hb2' : b2 = (front ++ back).foldl (record_step cand) level_init := by
    have heq : parallel_for start end_ 4 task (some level_init) sched2 =
        some ((front ++ back ++ [b1.feature_at_this_level]).foldl (record_step cand)
          level_init) := by
      unfold parallel_for
      rw [(parallel_for_pool_inv start end_ 4 task (some level_init) sched2).shared_eq, hs2]
      apply foldl_task_eq_record cand _ level_init
      intro j hj b
      apply htask j
      rcases List.mem_append.mp hj with h | h
      · exact hsub j h
      · rw [List.mem_singleton.mp h]
        exact hf1
    rw [heq] at hb2
    have := Option.some.inj hb2
    rw [← this, foldl_record_step_append, record_step_of_some cand _ _ M hcf1,
      locked_update_of_not_gt _ _ _ (by rw [hbest']; exact lt_irrefl M)]
  rw [hb2']
  intro heq
  rw [heq] at hnd
  exact hnd.1 hf'

/-- When one candidate alone has the largest accuracy of a round, above 0,
every schedule records it. -/
theorem round_unique_winner (start end_ : ℤ)
    (task : Option LevelBest → ℤ → Option LevelBest) (cand : ℤ → Option ℚ)
    (htask : ∀ k ∈ task_queue start end_, ∀ b,
      task (some b) k = some (record_step cand b k))
    (k1 : ℤ) (M : ℚ) (h1 : k1 ∈ task_queue start end_) (hc1 : cand k1 = some M)
    (hM : 0 < M)
    (hlt : ∀ j ∈ task_queue start end_, j ≠ k1 → ∀ a, cand j = some a → a < M)
    (sched : Nat → Nat) :
    parallel_for start end_ 4 task (some level_init) sched = some ⟨M, k1⟩ := by
  obtain ⟨best, hbest, hrec⟩ := round_record_first_best start end_ task cand htask sched
  have hperm := parallel_for_pool_invoked_perm start end_ 4 task (some level_init) sched
    (by decide)
  rcases hrec.of_perm hperm with ⟨_, hall⟩ | ⟨_, hmem, hc, hge⟩
  · have := hall k1 h1 M hc1
    linarith
  · have hle := hge k1 h1 M hc1
    have hfeat : best.feature_at_this_level = k1 := by
      by_contra hne
      have := hlt _ hmem hne _ hc
      linarith
    rw [hfeat, hc1] at hc
    rw [hbest]
    cases best
    simp only [Option.some.injEq] at hc
    simp only at hfeat
    rw [hfeat, ← hc]

/-- C9: the winner of a round and the schedule. For every dataset with
n >= 1 samples of D features and every current set with indices in [1,D], in
a round of forward selection: (1) under every schedule the record is that of
the candidate which is first, in the order in which the tasks ran their
locked update, among those of the largest accuracy, provided that accuracy
is above 0 (`RecordOf`); (2) when two different candidates share the largest
accuracy, above 0, there are two schedules that record different winners;
(3) when a single candidate has the largest accuracy, above 0, every
schedule records that candidate. The same three hold of a round of backward
elimination. -/
theorem round_winner_is_first_best (data : Dataset) (D : Nat) (hn : 1 ≤ data.length)
    (hrect : Rectangular data D) (current : List ℤ) (hcur : FeaturesWithin current D) :
    ((∀ sched : Nat → Nat, ∃ best : LevelBest,
        forward_level_best data D current sched = some best ∧
        RecordOf (forward_candidate data current)
          (parallel_for_pool 1 ((D : ℤ) + 1) 4 (forward_task data current)
            (some level_init) sched).invoked best) ∧
      (∀ (k1 k2 : ℤ) (M : ℚ), k1 ≠ k2 → 1 ≤ k1 → k1 ≤ (D : ℤ) → 1 ≤ k2 → k2 ≤ (D : ℤ) →
        forward_candidate data current k1 = some M →
        forward_candidate data current k2 = some M → 0 < M →
        (∀ j a, 1 ≤ j → j ≤ (D : ℤ) → forward_candidate data current j = some a → a ≤ M) →
        ∃ (sched1 sched2 : Nat → Nat) (b1 b2 : LevelBest),
          forward_level_best data D current sched1 = some b1 ∧
          forward_level_best data D current sched2 = some b2 ∧
          b1.feature_at_this_level ≠ b2.feature_at_this_level) ∧
      (∀ (k1 : ℤ) (M : ℚ), 1 ≤ k1 → k1 ≤ (D : ℤ) →
        forward_candidate data current k1 = some M → 0 < M →
        (∀ j a, 1 ≤ j → j ≤ (D : ℤ) → j ≠ k1 →
          forward_candidate data current j = some a → a < M) →
        ∀ sched : Nat → Nat, forward_level_best data D current sched = some ⟨M, k1⟩)) ∧
    ((∀ sched : Nat → Nat, ∃ best : LevelBest,
        backward_level_best data current sched = some best ∧
        RecordOf (backward_candidate data current)
          (parallel_for_pool 0 (current.length : ℤ) 4 (backward_task data current)
            (some level_init) sched).invoked best) ∧
      (∀ (k1 k2 : ℤ) (M : ℚ), k1 ≠ k2 → 0 ≤ k1 → k1 < (current.length : ℤ) → 0 ≤ k2 →
        k2 < (current.length : ℤ) →
        backward_candidate data current k1 = some M →
        backward_candidate data current k2 = some M → 0 < M →
        (∀ j a, 0 ≤ j → j < (current.length : ℤ) →
          backward_candidate data current j = some a → a ≤ M) →
        ∃ (sched1 sched2 : Nat → Nat) (b1 b2 : LevelBest),
          backward_level_best data current sched1 = some b1 ∧
          backward_level_best data current sched2 = some b2 ∧
          b1.feature_at_this_level ≠ b2.feature_at_this_level) ∧
      (∀ (k1 : ℤ) (M : ℚ), 0 ≤ k1 → k1 < (current.length : ℤ) →
        backward_candidate data current k1 = some M → 0 < M →
        (∀ j a, 0 ≤ j → j < (current.length : ℤ) → j ≠ k1 →
          backward_candidate data current j = some a → a < M) →
        ∀ sched : Nat → Nat, backward_level_best data current sched = some ⟨M, k1⟩)) := by
  have hf := fun k hk b => forward_task_eq data D hn hrect current hcur k hk b
  have hb := fun k hk b => backward_task_eq data D hn hrect current hcur k hk b
  refine ⟨⟨?_, ?_, ?_⟩, ⟨?_, ?_, ?_⟩⟩
  · exact fun sched => round_record_first_best 1 ((D : ℤ) + 1) _ _ hf sched
  · intro k1 k2 M hne h11 h12 h21 h22 hc1 hc2 hM hmax
    exact round_two_winners 1 ((D : ℤ) + 1) _ _ hf k1 k2 M hne
      ((mem_task_queue _ _ _).mpr ⟨h11, by omega⟩)
      ((mem_task_queue _ _ _).mpr ⟨h21, by omega⟩) hc1 hc2 hM
      (fun j hj a hja => by
        have hq := (mem_task_queue _ _ _).mp hj
        exact hmax j a hq.1 (by omega) hja)
  · intro k1 M h11 h12 hc1 hM hlt sched
    exact round_unique_winner 1 ((D : ℤ) + 1) _ _ hf k1 M
      ((mem_task_queue _ _ _).mpr ⟨h11, by omega⟩) hc1 hM
      (fun j hj hne a hja => by
        have hq := (mem_task_queue _ _ _).mp hj
        exact hlt j a hq.1 (by omega) hne hja) sched
  · exact fun sched => round_record_first_best 0 (current.length : ℤ) _ _ hb sched
  · intro k1 k2 M hne h11 h12 h21 h22 hc1 hc2 hM hmax
    exact round_two_winners 0 (current.length : ℤ) _ _ hb k1 k2 M hne
      ((mem_task_queue _ _ _).mpr ⟨h11, h12⟩)
      ((mem_task_queue _ _ _).mpr ⟨h21, h22⟩) hc1 hc2 hM
      (fun j hj a hja => by
        have hq := (mem_task_queue _ _ _).mp hj
        exact hmax j a hq.1 hq.2 hja)
  · intro k1 M h11 h12 hc1 hM hlt sched
    exact round_unique_winner 0 (current.length : ℤ) _ _ hb k1 M
      ((mem_task_queue _ _ _).mpr ⟨h11, h12⟩) hc1 hM
      (fun j hj hne a hja => by
        have hq := (mem_task_queue _ _ _).mp hj
        exact hlt j a hq.1 hq.2 hne hja) sched

/-- The two schedules on the dataset with twin features: run in queue order
the first round of forward selection records feature 1, and with the first
worker held up it records feature 2. -/
theorem twin_data_two_winners :
    forward_level_best twin_data 2 [] (fun _ => 0) = some ⟨1, 1⟩ ∧
    forward_level_best twin_data 2 [] stall_first = some ⟨1, 2⟩ := by
  constructor <;> decide!

/-- C9 on the dataset with twin features, first round of forward selection:
features 1 and 2 both have accuracy 1, and two schedules record different
winners. -/
theorem round_winner_is_first_best_witness :
    1 ≤ twin_data.length ∧ Rectangular twin_data 2 ∧ FeaturesWithin [] 2 ∧
    ∃ (sched1 sched2 : Nat → Nat) (b1 b2 : LevelBest),
      forward_level_best twin_data (2 : Nat) [] sched1 = some b1 ∧
      forward_level_best twin_data (2 : Nat) [] sched2 = some b2 ∧
      b1.feature_at_this_level ≠ b2.feature_at_this_level :=
  ⟨by decide, rectangular_of_all (by decide), fun f hf => absurd hf (List.not_mem_nil f),
    (round_winner_is_first_best twin_data 2 (by decide) (rectangular_of_all (by decide)) []
      (fun f hf => absurd hf (List.not_mem_nil f))).1.2.1 1 2 1 (by decide) (by decide)
      (by decide) (by decide) (by decide) (by decide!) (by decide!) (by decide)
      (fun j a h1 h2 hja => by
        have hj : j = 1 ∨ j = 2 := by
          have h2' : j ≤ 2 := h2
          omega
        rcases hj with rfl | rfl
        · have h : forward_candidate twin_data [] 1 = some 1 := by decide!
          rw [h] at hja
          exact le_of_eq (Option.some.inj hja).symm
        · have h : forward_candidate twin_data [] 2 = some 1 := by decide!
          rw [h] at hja
          exact le_of_eq (Option.some.inj hja).symm)⟩

theorem features_within_of_all {S : List ℤ} {D : Nat}
    (h : S.all (fun f => decide (1 ≤ f ∧ f ≤ (D : ℤ))) = true) : FeaturesWithin S D := by
  intro f hf
  rw [List.all_eq_true] at h
  simpa using h f hf

/-- C4 on a dataset of four features with the current set [1, 2], under the
schedule that holds the first worker up. The forward round has the candidates
3 and 4, of accuracy 1/2 and 3/4, and records the accuracy 3/4 with feature
4; the backward round has the candidate positions 0 and 1, of accuracy 3/4
and 1, and records the accuracy 1 with position 1. -/
theorem round_record_is_maximum_witness :
    (1 ≤ wide_data.length ∧ Rectangular wide_data 4 ∧ FeaturesWithin [1, 2] 4) ∧
    ((∃ best : LevelBest, forward_level_best wide_data (4 : Nat) [1, 2] stall_first = some best ∧
      ((∀ k a, 1 ≤ k → k ≤ ((4 : Nat) : ℤ) → forward_candidate wide_data [1, 2] k = some a → a ≤ 0) →
        best = ⟨0, -1⟩) ∧
      ((∃ k a, 1 ≤ k ∧ k ≤ ((4 : Nat) : ℤ) ∧ forward_candidate wide_data [1, 2] k = some a ∧ 0 < a) →
        1 ≤ best.feature_at_this_level ∧ best.feature_at_this_level ≤ ((4 : Nat) : ℤ) ∧
        forward_candidate wide_data [1, 2] best.feature_at_this_level =
          some best.best_accuracy_at_this_level ∧
        ∀ k a, 1 ≤ k → k ≤ ((4 : Nat) : ℤ) → forward_candidate wide_data [1, 2] k = some a →
          a ≤ best.best_accuracy_at_this_level)) ∧
    (∃ best : LevelBest, backward_level_best wide_data [1, 2] stall_first = some best ∧
      ((∀ k a, 0 ≤ k → k < (([1, 2] : List ℤ).length : ℤ) →
          backward_candidate wide_data [1, 2] k = some a → a ≤ 0) →
        best = ⟨0, -1⟩) ∧
      ((∃ k a, 0 ≤ k ∧ k < (([1, 2] : List ℤ).length : ℤ) ∧
          backward_candidate wide_data [1, 2] k = some a ∧ 0 < a) →
        0 ≤ best.feature_at_this_level ∧
        best.feature_at_this_level < (([1, 2] : List ℤ).length : ℤ) ∧
        backward_candidate wide_data [1, 2] best.feature_at_this_level =
          some best.best_accuracy_at_this_level ∧
        ∀ k a, 0 ≤ k → k < (([1, 2] : List ℤ).length : ℤ) →
          backward_candidate wide_data [1, 2] k = some a →
            a ≤ best.best_accuracy_at_this_level))) ∧
    (forward_candidate wide_data [1, 2] 3 = some (1 / 2) ∧
      forward_candidate wide_data [1, 2] 4 = some (3 / 4) ∧
      forward_level_best wide_data 4 [1, 2] stall_first = some ⟨3 / 4, 4⟩) ∧
    (backward_candidate wide_data [1, 2] 0 = some (3 / 4) ∧
      backward_candidate wide_data [1, 2] 1 = some 1 ∧
      backward_level_best wide_data [1, 2] stall_first = some ⟨1, 1⟩) :=
  ⟨⟨by decide, rectangular_of_all (by decide), features_within_of_all (by decide)⟩,
    round_record_is_maximum wide_data 4 (by decide) (rectangular_of_all (by decide)) [1, 2]
      (features_within_of_all (by decide)) stall_first,
    ⟨by decide!, by decide!, by decide!⟩, ⟨by decide!, by decide!, by decide!⟩⟩

/-- C7 (amended) on the noisy dataset. -/
theorem backward_elimination_removes_one_per_round_witness :
    1 ≤ noisy_data.length ∧ Rectangular noisy_data 2 ∧
    ∃ st : SearchState, backward_elimination noisy_data (fun _ _ => 0) = some st ∧
      (∀ r, r ≤ 2 → backward_rounds noisy_data 2 (backward_start noisy_data 2) (fun _ _ => 0) r =
        some (backward_state noisy_data 2 (fun _ _ => 0) r)) ∧
      (∀ r, r < 2 →
        ((∃ k a, 0 ≤ k ∧
            k < ((backward_state noisy_data 2 (fun _ _ => 0) r).current_set_of_features.length : ℤ) ∧
            backward_candidate noisy_data (backward_state noisy_data 2 (fun _ _ => 0) r).current_set_of_features k =
              some a ∧ 0 < a) →
          ∃ p, p < (backward_state noisy_data 2 (fun _ _ => 0) r).current_set_of_features.length ∧
            (backward_state noisy_data 2 (fun _ _ => 0) (r + 1)).current_set_of_features =
              (backward_state noisy_data 2 (fun _ _ => 0) r).current_set_of_features.eraseIdx p ∧
            (backward_state noisy_data 2 (fun _ _ => 0) (r + 1)).current_set_of_features.length + 1 =
              (backward_state noisy_data 2 (fun _ _ => 0) r).current_set_of_features.length) ∧
        ((∀ k a, 0 ≤ k →
            k < ((backward_state noisy_data 2 (fun _ _ => 0) r).current_set_of_features.length : ℤ) →
            backward_candidate noisy_data (backward_state noisy_data 2 (fun _ _ => 0) r).current_set_of_features k =
              some a → a ≤ 0) →
          (backward_state noisy_data 2 (fun _ _ => 0) (r + 1)).current_set_of_features =
            (backward_state noisy_data 2 (fun _ _ => 0) r).current_set_of_features)) ∧
      ((∀ r, r < 2 → ∃ k a, 0 ≤ k ∧
          k < ((backward_state noisy_data 2 (fun _ _ => 0) r).current_set_of_features.length : ℤ) ∧
          backward_candidate noisy_data (backward_state noisy_data 2 (fun _ _ => 0) r).current_set_of_features k =
            some a ∧ 0 < a) →
        st.current_set_of_features = []) :=
  ⟨by decide, rectangular_of_all (by decide),
    backward_elimination_removes_one_per_round noisy_data 2 (by decide)
      (rectangular_of_all (by decide)) (fun _ _ => 0)⟩

/-- The first round of backward elimination on the noisy dataset: the full
set has accuracy 1/2, the round removes feature 1 and records accuracy 1, and
the best-so-far set becomes [2]. -/
theorem noisy_data_first_round :
    backward_start noisy_data 2 = ⟨[1, 2], [1, 2], 1 / 2⟩ ∧
    backward_record noisy_data 2 (fun _ _ => 0) 1 = ⟨1, 0⟩ ∧
    backward_state noisy_data 2 (fun _ _ => 0) 1 = ⟨[2], [2], 1⟩ := by
  refine ⟨?_, ?_, ?_⟩ <;> decide!

/-- C8 (amended) on the noisy dataset, first round. -/
theorem backward_best_excludes_removed_witness :
    1 ≤ noisy_data.length ∧ Rectangular noisy_data 2 ∧
    0 < (backward_record noisy_data 2 (fun _ _ => 0) 1).best_accuracy_at_this_level ∧
    ∃ (p : Nat) (f : ℤ),
      (backward_record noisy_data 2 (fun _ _ => 0) 1).feature_at_this_level = (p : ℤ) ∧
      (backward_state noisy_data 2 (fun _ _ => 0) 0).current_set_of_features[p]? = some f ∧
      (backward_state noisy_data 2 (fun _ _ => 0) 1).current_set_of_features =
        (backward_state noisy_data 2 (fun _ _ => 0) 0).current_set_of_features.eraseIdx p ∧
      f ∉ (backward_state noisy_data 2 (fun _ _ => 0) 1).current_set_of_features ∧
      leave_one_out_cross_validation noisy_data
        (backward_state noisy_data 2 (fun _ _ => 0) 1).current_set_of_features (-1) =
          some (backward_record noisy_data 2 (fun _ _ => 0) 1).best_accuracy_at_this_level ∧
      (∀ a, leave_one_out_cross_validation noisy_data (full_set 2) (-1) = some a →
        a ≤ (backward_state noisy_data 2 (fun _ _ => 0) 0).best_so_far_accuracy) ∧
      ((backward_record noisy_data 2 (fun _ _ => 0) 1).best_accuracy_at_this_level >
          (backward_state noisy_data 2 (fun _ _ => 0) 0).best_so_far_accuracy →
        (backward_state noisy_data 2 (fun _ _ => 0) 1).best_set_of_features =
          (backward_state noisy_data 2 (fun _ _ => 0) 1).current_set_of_features ∧
        f ∉ (backward_state noisy_data 2 (fun _ _ => 0) 1).best_set_of_features) ∧
      (¬ (backward_record noisy_data 2 (fun _ _ => 0) 1).best_accuracy_at_this_level >
          (backward_state noisy_data 2 (fun _ _ => 0) 0).best_so_far_accuracy →
        (backward_state noisy_data 2 (fun _ _ => 0) 1).best_set_of_features =
          (backward_state noisy_data 2 (fun _ _ => 0) 0).best_set_of_features ∧
        f ∈ (backward_state noisy_data 2 (fun _ _ => 0) 1).best_set_of_features) :=
  ⟨by decide, rectangular_of_all (by decide), by decide!,
    backward_best_excludes_removed noisy_data 2 (by decide)
      (rectangular_of_all (by decide)) (fun _ _ => 0) 0 (by decide!)⟩

/-! ## The order of the feature list -/

theorem restricted_distance_perm (data : Dataset) {S T : List ℤ} (h : S.Perm T) :
    restricted_distance data S = restricted_distance data T := by
  funext i k
  unfold restricted_distance
  rw [(h.map _).sum_eq]

theorem accuracy_perm (data : Dataset) {S T : List ℤ} (h : S.Perm T) :
    accuracy data S = accuracy data T := by
  unfold accuracy correctly_classified nearest_of
  rw [restricted_distance_perm data h]

theorem loocv_of_empty (S : List ℤ) : leave_one_out_cross_validation [] S (-1) = none := rfl

/-- C11: for every dataset (samples of equal length D+1) and every two
feature lists S and T that are rearrangements of each other, with indices in
[1,D], `leave_one_out_cross_validation(data, S)` and
`leave_one_out_cross_validation(data, T)` are equal, the distances being
taken in exact arithmetic. -/
theorem loocv_perm_invariant (data : Dataset) (D : Nat) (S T : List ℤ)
    (hrect : Rectangular data D) (hS : FeaturesWithin S D) (hperm : S.Perm T) :
    leave_one_out_cross_validation data S (-1) =
      leave_one_out_cross_validation data T (-1) := by
  have hT : FeaturesWithin T D := fun f hf => hS f (hperm.mem_iff.mpr hf)
  cases data with
  | nil => rfl
  | cons row rows =>
    rw [loocv_eq_accuracy (row :: rows) D (by simp) hrect S hS.columns,
      loocv_eq_accuracy (row :: rows) D (by simp) hrect T hT.columns,
      accuracy_perm (row :: rows) hperm]

/-- C11 on the noisy dataset: the feature lists [1, 2] and [2, 1]. -/
theorem loocv_perm_invariant_witness :
    Rectangular noisy_data 2 ∧ FeaturesWithin [1, 2] 2 ∧ ([1, 2] : List ℤ).Perm [2, 1] ∧
    leave_one_out_cross_validation noisy_data [1, 2] (-1) =
      leave_one_out_cross_validation noisy_data [2, 1] (-1) :=
  ⟨rectangular_of_all (by decide), features_within_of_all (by decide),
    List.Perm.swap 2 1 [],
    loocv_perm_invariant noisy_data 2 [1, 2] [2, 1] (rectangular_of_all (by decide))
      (features_within_of_all (by decide)) (List.Perm.swap 2 1 [])⟩

/-! ## Rounds without a winner, the feature sets, and bounds -/

/-- C13: in a round of forward selection (round i + 1 of D, on a dataset with
n >= 1 samples) where no candidate has an accuracy above 0, the round leaves
current, the best-so-far set and the best-so-far accuracy unchanged: the
state after the round is the state before it. The round is counted: the
search still makes D rounds in all, and the next round starts from that same
state under its own schedule. -/
theorem forward_round_without_winner (data : Dataset) (D : Nat) (hn : 1 ≤ data.length)
    (hrect : Rectangular data D) (sched : Nat → Nat → Nat) (i : Nat)
    (hnone : ∀ k a, 1 ≤ k → k ≤ (D : ℤ) →
      forward_candidate data (forward_state data D sched i).current_set_of_features k =
        some a → a ≤ 0) :
    forward_rounds data D sched i = some (forward_state data D sched i) ∧
    forward_rounds data D sched (i + 1) = some (forward_state data D sched i) ∧
    forward_rounds data D sched (i + 2) =
      forward_level data D (forward_state data D sched i) (sched (i + 2)) ∧
    forward_selection data sched = forward_rounds data D sched D := by
  obtain ⟨hst, _, _, hstep, hcases⟩ := forward_round_unfold data D hn hrect sched i
  have hnext := (forward_round_unfold data D hn hrect sched (i + 1)).1
  have hsame : forward_state data D sched (i + 1) = forward_state data D sched i := by
    rcases hcases with ⟨h0, _⟩ | ⟨hpos, hmem, hc, _⟩
    · rw [hstep, h0, forward_commit_level_init]
    · have hq := (mem_task_queue _ _ _).mp hmem
      have := hnone _ _ hq.1 (by omega) hc
      linarith
  rw [hsame] at hnext
  refine ⟨hst, hnext, ?_, forward_selection_eq_rounds data D hn hrect sched⟩
  show (match forward_rounds data D sched (i + 1) with
    | some st => forward_level data D st (sched (i + 1 + 1))
    | none => none) = _
  rw [hnext]

/-- C13 on a dataset whose only candidate has accuracy 0, first round. -/
theorem forward_round_without_winner_witness :
    1 ≤ wasted_data.length ∧ Rectangular wasted_data 1 ∧
    forward_candidate wasted_data [] 1 = some 0 ∧
    forward_rounds wasted_data (1 : Nat) (fun _ _ => 0) 0 =
      some (forward_state wasted_data (1 : Nat) (fun _ _ => 0) 0) ∧
    forward_rounds wasted_data (1 : Nat) (fun _ _ => 0) (0 + 1) =
      some (forward_state wasted_data (1 : Nat) (fun _ _ => 0) 0) ∧
    forward_rounds wasted_data (1 : Nat) (fun _ _ => 0) (0 + 2) =
      forward_level wasted_data (1 : Nat) (forward_state wasted_data (1 : Nat) (fun _ _ => 0) 0)
        ((fun _ _ => 0) (0 + 2)) ∧
    forward_selection wasted_data (fun _ _ => 0) =
      forward_rounds wasted_data (1 : Nat) (fun _ _ => 0) 1 :=
  ⟨by decide, rectangular_of_all (by decide), by decide!,
    forward_round_without_winner wasted_data 1 (by decide) (rectangular_of_all (by decide))
      (fun _ _ => 0) 0 (fun k a h1 h2 hka => by
        have hk : k = 1 := by
          have h2' : k ≤ 1 := h2
          omega
        subst hk
        have h : forward_candidate wasted_data
            (forward_state wasted_data (1 : Nat) (fun _ _ => 0) 0).current_set_of_features 1 =
              some 0 := by decide!
        rw [h] at hka
        exact le_of_eq (Option.some.inj hka).symm)⟩

/-! ## The feature sets of the searches -/

theorem is_feature_set_nil (D : Nat) : IsFeatureSet [] D :=
  ⟨fun f hf => absurd hf (List.not_mem_nil f), List.nodup_nil⟩

theorem is_feature_set_append {S : List ℤ} {D : Nat} (h : IsFeatureSet S D) {k : ℤ}
    (h1 : 1 ≤ k) (h2 : k ≤ (D : ℤ)) (hk : k ∉ S) : IsFeatureSet (S ++ [k]) D := by
  refine ⟨h.1.append h1 h2, ?_⟩
  rw [List.nodup_append]
  refine ⟨h.2, List.nodup_singleton k, fun a ha hb => ?_⟩
  rw [List.mem_singleton.mp hb] at ha
  exact hk ha

/-- The current set and the best-so-far set of `forward_selection` are
feature sets after any number of rounds. -/
theorem forward_state_feature_sets (data : Dataset) (D : Nat) (hn : 1 ≤ data.length)
    (hrect : Rectangular data D) (sched : Nat → Nat → Nat) :
    ∀ i : Nat,
      IsFeatureSet (forward_state data D sched i).current_set_of_features D ∧
      IsFeatureSet (forward_state data D sched i).best_set_of_features D
  | 0 => ⟨is_feature_set_nil D, is_feature_set_nil D⟩
  | i + 1 => by
    obtain ⟨hcur, hbest⟩ := forward_state_feature_sets data D hn hrect sched i
    obtain ⟨_, _, _, hstep, hcases⟩ := forward_round_unfold data D hn hrect sched i
    rcases hcases with ⟨h0, _⟩ | ⟨_, hmem, hc, _⟩
    · rw [hstep, h0, forward_commit_level_init]
      exact ⟨hcur, hbest⟩
    · have hq := (mem_task_queue _ _ _).mp hmem
      have hne : (forward_record data D sched (i + 1)).feature_at_this_level ≠ -1 := by omega
      have hnew := is_feature_set_append hcur hq.1 (by omega) (forward_candidate_some hc).1
      rw [hstep]
      unfold forward_commit
      rw [if_pos hne]
      split
      · exact ⟨hnew, hnew⟩
      · exact ⟨hnew, hbest⟩

theorem full_set_ascending (D : Nat) : (full_set D).Pairwise (· < ·) := by
  unfold full_set
  rw [List.pairwise_map]
  exact (List.pairwise_lt_range D).imp (fun h => by omega)

theorem is_feature_set_of_sublist {S : List ℤ} {D : Nat} (h : S.Sublist (full_set D)) :
    IsFeatureSet S D :=
  ⟨(full_set_within D).of_sublist h, (full_set_nodup D).sublist h⟩

/-- C17: the FeatureSet invariant holds of every search state and result.
For every dataset with n >= 1 samples of D features and every schedule: after
any number of rounds of `forward_selection`, and in its result, current and
the best-so-far set contain only indices in [1,D], none repeated; after any
number of rounds of `backward_elimination`, and in its result, they are
moreover sublists of [1..D], strictly ascending. -/
theorem feature_sets_invariant (data : Dataset) (D : Nat) (hn : 1 ≤ data.length)
    (hrect : Rectangular data D) (sched : Nat → Nat → Nat) :
    (∀ i : Nat, ∃ st, forward_rounds data D sched i = some st ∧
      IsFeatureSet st.current_set_of_features D ∧
      IsFeatureSet st.best_set_of_features D) ∧
    (∃ st, forward_selection data sched = some st ∧
      IsFeatureSet st.current_set_of_features D ∧
      IsFeatureSet st.best_set_of_features D) ∧
    (∀ r : Nat, ∃ st, backward_rounds data D (backward_start data D) sched r = some st ∧
      IsFeatureSet st.current_set_of_features D ∧
      IsFeatureSet st.best_set_of_features D ∧
      st.current_set_of_features.Sublist (full_set D) ∧
      st.current_set_of_features.Pairwise (· < ·) ∧
      st.best_set_of_features.Sublist (full_set D) ∧
      st.best_set_of_features.Pairwise (· < ·)) ∧
    (∃ st, backward_elimination data sched = some st ∧
      IsFeatureSet st.current_set_of_features D ∧
      IsFeatureSet st.best_set_of_features D ∧
      st.current_set_of_features.Sublist (full_set D) ∧
      st.current_set_of_features.Pairwise (· < ·) ∧
      st.best_set_of_features.Sublist (full_set D) ∧
      st.best_set_of_features.Pairwise (· < ·)) := by
  have hf : ∀ i : Nat, ∃ st, forward_rounds data D sched i = some st ∧
      IsFeatureSet st.current_set_of_features D ∧
      IsFeatureSet st.best_set_of_features D := fun i =>
    ⟨_, (forward_round_unfold data D hn hrect sched i).1,
      forward_state_feature_sets data D hn hrect sched i⟩
  have hb : ∀ r : Nat, ∃ st,
      backward_rounds data D (backward_start data D) sched r = some st ∧
      IsFeatureSet st.current_set_of_features D ∧
      IsFeatureSet st.best_set_of_features D ∧
      st.current_set_of_features.Sublist (full_set D) ∧
      st.current_set_of_features.Pairwise (· < ·) ∧
      st.best_set_of_features.Sublist (full_set D) ∧
      st.best_set_of_features.Pairwise (· < ·) := by
    intro r
    obtain ⟨st, hst, hinv⟩ := backward_rounds_inv data D hn hrect sched r
    have hcur := hinv.cur_sub.trans hinv.best_sub
    exact ⟨st, hst, is_feature_set_of_sublist hcur, is_feature_set_of_sublist hinv.best_sub,
      hcur, (full_set_ascending D).sublist hcur, hinv.best_sub,
      (full_set_ascending D).sublist hinv.best_sub⟩
  refine ⟨hf, ?_, hb, ?_⟩
  · rw [forward_selection_eq_rounds data D hn hrect sched]
    exact hf D
  · rw [backward_elimination_eq_rounds data D hn hrect sched]
    exact hb D

/-- C18: under the Dataset invariant (n >= 1 samples, every sample of length
D+1) no read goes out of bounds. In this model a read outside a vector makes
the enclosing function return `none`, so: for every feature list with indices
in [1,D] `leave_one_out_cross_validation` returns a value; and under every
schedule every round of `forward_selection` and of `backward_elimination`
(its pool of tasks, with their reads of `data`, of `current[k]` and the
erasure at position `k`, and the update after the pool) returns, as do the
two searches. -/
theorem no_read_out_of_bounds (data : Dataset) (D : Nat) (hn : 1 ≤ data.length)
    (hrect : Rectangular data D) :
    (∀ S : List ℤ, FeaturesWithin S D →
      (leave_one_out_cross_validation data S (-1)).isSome = true) ∧
    (∀ sched : Nat → Nat → Nat,
      (forward_selection data sched).isSome = true ∧
      ∀ i : Nat, ∃ st best,
        forward_rounds data D sched i = some st ∧
        forward_level_best data D st.current_set_of_features (sched (i + 1)) = some best ∧
        (forward_level data D st (sched (i + 1))).isSome = true) ∧
    (∀ sched : Nat → Nat → Nat,
      (backward_elimination data sched).isSome = true ∧
      ∀ r : Nat, ∃ st best,
        backward_rounds data D (backward_start data D) sched r = some st ∧
        backward_level_best data st.current_set_of_features (sched (D - r)) = some best ∧
        (backward_level data st (sched (D - r))).isSome = true) := by
  refine ⟨fun S hS => ?_, fun sched => ⟨?_, fun i => ?_⟩, fun sched => ⟨?_, fun r => ?_⟩⟩
  · rw [loocv_eq_accuracy data D hn hrect S hS.columns]
    rfl
  · obtain ⟨st, hst, _⟩ := forward_rounds_inv data D hn hrect sched D
    rw [forward_selection_eq_rounds data D hn hrect sched, hst]
    rfl
  · obtain ⟨st, hst, hinv⟩ := forward_rounds_inv data D hn hrect sched i
    obtain ⟨best, hbest, hlevel, _, _⟩ :=
      forward_level_step data D hn hrect st hinv (sched (i + 1))
    exact ⟨st, best, hst, hbest, by rw [hlevel]; rfl⟩
  · obtain ⟨st, hst, _⟩ := backward_rounds_inv data D hn hrect sched D
    rw [backward_elimination_eq_rounds data D hn hrect sched, hst]
    rfl
  · obtain ⟨st, hst, hinv⟩ := backward_rounds_inv data D hn hrect sched r
    obtain ⟨best, st', hbest, hlevel, _, _⟩ :=
      backward_level_step data D hn hrect st hinv (sched (D - r))
    exact ⟨st, best, hst, hbest, by rw [hlevel]; rfl⟩

/-- C19: for every dataset (n >= 1, equal-length samples) and every schedule,
`backward_elimination` returns, the best accuracy it reports is
`leave_one_out_cross_validation(data, returned set)`, and it is at least the
accuracy of the full feature set [1..D]. -/
theorem backward_elimination_reports_own_accuracy (data : Dataset) (D : Nat)
    (hn : 1 ≤ data.length) (hrect : Rectangular data D) (sched : Nat → Nat → Nat) :
    ∃ st : SearchState, backward_elimination data sched = some st ∧
      leave_one_out_cross_validation data st.best_set_of_features (-1) =
        some st.best_so_far_accuracy ∧
      ∃ full : ℚ, leave_one_out_cross_validation data (full_set D) (-1) = some full ∧
        full ≤ st.best_so_far_accuracy := by
  obtain ⟨st, hst, hinv⟩ := backward_rounds_inv data D hn hrect sched D
  have hfull := loocv_eq_accuracy data D hn hrect (full_set D) (full_set_within D).columns
  exact ⟨st, by rw [backward_elimination_eq_rounds data D hn hrect sched]; exact hst,
    hinv.own, _, hfull, hinv.ge_full _ hfull⟩

/-- C17 on the noisy dataset under the schedule that always lets the first
unfinished worker move. -/
theorem feature_sets_invariant_witness :
    1 ≤ noisy_data.length ∧ Rectangular noisy_data 2 ∧
    ((∀ i : Nat, ∃ st, forward_rounds noisy_data (2 : Nat) (fun _ _ => 0) i = some st ∧
      IsFeatureSet st.current_set_of_features (2 : Nat) ∧
      IsFeatureSet st.best_set_of_features (2 : Nat)) ∧
    (∃ st, forward_selection noisy_data (fun _ _ => 0) = some st ∧
      IsFeatureSet st.current_set_of_features (2 : Nat) ∧
      IsFeatureSet st.best_set_of_features (2 : Nat)) ∧
    (∀ r : Nat, ∃ st, backward_rounds noisy_data (2 : Nat) (backward_start noisy_data (2 : Nat)) (fun _ _ => 0) r = some st ∧
      IsFeatureSet st.current_set_of_features (2 : Nat) ∧
      IsFeatureSet st.best_set_of_features (2 : Nat) ∧
      st.current_set_of_features.Sublist (full_set (2 : Nat)) ∧
      st.current_set_of_features.Pairwise (· < ·) ∧
      st.best_set_of_features.Sublist (full_set (2 : Nat)) ∧
      st.best_set_of_features.Pairwise (· < ·)) ∧
    (∃ st, backward_elimination noisy_data (fun _ _ => 0) = some st ∧
      IsFeatureSet st.current_set_of_features (2 : Nat) ∧
      IsFeatureSet st.best_set_of_features (2 : Nat) ∧
      st.current_set_of_features.Sublist (full_set (2 : Nat)) ∧
      st.current_set_of_features.Pairwise (· < ·) ∧
      st.best_set_of_features.Sublist (full_set (2 : Nat)) ∧
      st.best_set_of_features.Pairwise (· < ·))) :=
  ⟨by decide, rectangular_of_all (by decide),
    feature_sets_invariant noisy_data 2 (by decide) (rectangular_of_all (by decide))
      (fun _ _ => 0)⟩

/-- C18 on the noisy dataset. -/
theorem no_read_out_of_bounds_witness :
    1 ≤ noisy_data.length ∧ Rectangular noisy_data 2 ∧
    ((∀ S : List ℤ, FeaturesWithin S (2 : Nat) →
      (leave_one_out_cross_validation noisy_data S (-1)).isSome = true) ∧
    (∀ sched : Nat → Nat → Nat,
      (forward_selection noisy_data sched).isSome = true ∧
      ∀ i : Nat, ∃ st best,
        forward_rounds noisy_data (2 : Nat) sched i = some st ∧
        forward_level_best noisy_data (2 : Nat) st.current_set_of_features (sched (i + 1)) = some best ∧
        (forward_level noisy_data (2 : Nat) st (sched (i + 1))).isSome = true) ∧
    (∀ sched : Nat → Nat → Nat,
      (backward_elimination noisy_data sched).isSome = true ∧
      ∀ r : Nat, ∃ st best,
        backward_rounds noisy_data (2 : Nat) (backward_start noisy_data (2 : Nat)) sched r = some st ∧
        backward_level_best noisy_data st.current_set_of_features (sched ((2 : Nat) - r)) = some best ∧
        (backward_level noisy_data st (sched ((2 : Nat) - r))).isSome = true)) :=
  ⟨by decide, rectangular_of_all (by decide),
    no_read_out_of_bounds noisy_data 2 (by decide) (rectangular_of_all (by decide))⟩

/-- C19 on the noisy dataset under the schedule that always lets the first
unfinished worker move. -/
theorem backward_elimination_reports_own_accuracy_witness :
    1 ≤ noisy_data.length ∧ Rectangular noisy_data 2 ∧
    ∃ st : SearchState, backward_elimination noisy_data (fun _ _ => 0) = some st ∧
      leave_one_out_cross_validation noisy_data st.best_set_of_features (-1) =
        some st.best_so_far_accuracy ∧
      ∃ full : ℚ, leave_one_out_cross_validation noisy_data (full_set (2 : Nat)) (-1) = some full ∧
        full ≤ st.best_so_far_accuracy :=
  ⟨by decide, rectangular_of_all (by decide),
    backward_elimination_reports_own_accuracy noisy_data 2 (by decide)
      (rectangular_of_all (by decide)) (fun _ _ => 0)⟩

/-! ## The candidates of a round -/

theorem restricted_distance_nil (data : Dataset) (i k : Nat) :
    restricted_distance data [] i k = ⟨0⟩ := rfl

theorem zero_lt_numeric_limits_max : (⟨0⟩ : SqrtVal) < numeric_limits_max := by
  rw [SqrtVal.lt_def]
  unfold numeric_limits_max DBL_MAX
  norm_num

/-- With no feature the loop over `k` ends on the first sample other than
`i`: sample 1 for `i = 0`, sample 0 otherwise. -/
theorem nearest_of_nil (data : Dataset) (hn : 2 ≤ data.length) (i : Nat) :
    (nearest_of data [] i data.length).nearest_neighbor_label =
      static_cast_int (label_of data (if i = 0 then 1 else 0)) := by
  rcases nearest_of_invariant data [] i data.length with
    ⟨_, hall⟩ | ⟨j, hj, hji, hnn, _, _, hfirst⟩
  · exfalso
    by_cases h0 : i = 0
    · exact hall 1 (by omega) (by omega) (by
        rw [restricted_distance_nil]; exact zero_lt_numeric_limits_max)
    · exact hall 0 (by omega) (fun h => h0 h.symm) (by
        rw [restricted_distance_nil]; exact zero_lt_numeric_limits_max)
  · rw [hnn]
    have hno : ∀ k, k < j → k = i := by
      intro k hk
      by_contra hki
      have := hfirst k hk hki
      rw [restricted_distance_nil, restricted_distance_nil, SqrtVal.lt_def] at this
      exact lt_irrefl _ this
    by_cases h0 : i = 0
    · have hj1 : j = 1 := by
        by_contra hne
        have := hno 1 (by omega)
        omega
      rw [if_pos h0, hj1]
    · have hj0 : j = 0 := by
        by_contra hne
        have := hno 0 (by omega)
        omega
      rw [if_neg h0, hj0]

theorem accuracy_nil (data : Dataset) (hn : 2 ≤ data.length) :
    accuracy data [] =
      first_sample_accuracy (fun i => static_cast_int (label_of data i)) data.length := by
  unfold accuracy first_sample_accuracy
  congr 2
  obtain ⟨m, hm⟩ : ∃ m, data.length = m + 1 := ⟨data.length - 1, by omega⟩
  have hc : ∀ i, i < data.length → correctly_classified data [] i =
      decide (static_cast_int (label_of data i) =
        static_cast_int (label_of data (if i = 0 then 1 else 0))) := by
    intro i _
    unfold correctly_classified
    rw [nearest_of_nil data hn i]
  rw [hm, List.range_succ_eq_map, List.filter_cons, List.filter_cons]
  have h0 := hc 0 (by omega)
  simp only [if_true] at h0
  have htail : (List.map Nat.succ (List.range m)).filter (correctly_classified data []) =
      (List.map Nat.succ (List.range m)).filter (fun i => decide (1 ≤ i) &&
        decide (static_cast_int (label_of data i) = static_cast_int (label_of data 0))) := by
    apply List.filter_congr
    intro i hi
    obtain ⟨j, hj, rfl⟩ := List.mem_map.mp hi
    have hlt := List.mem_range.mp hj
    rw [hc (j + 1) (by omega)]
    simp
  rw [htail, h0]
  by_cases heq : static_cast_int (label_of data 0) = static_cast_int (label_of data 1)
  · simp [heq]
  · simp [heq]

/-! ## The loader -/

theorem foldl_push_converted (stod : List Char → Option ℚ) :
    ∀ (cells : List (List Char)) (row : List ℚ),
      cells.foldl (fun row cell_str =>
        match stod cell_str with
        | some value => row ++ [value]
        | none => row) row = row ++ cells.filterMap stod
  | [], row => by simp
  | t :: ts, row => by
    rw [List.foldl_cons, foldl_push_converted stod ts]
    cases h : stod t with
    | none => simp [List.filterMap_cons, h]
    | some v => simp [List.filterMap_cons, h]

/-- The row of a line holds the values of its tokens that convert, in their
order. -/
theorem line_row_eq (stod : List Char → Option ℚ) (line : List Char) :
    line_row stod line = (line_tokens line).filterMap stod := by
  unfold line_row parse_row
  rw [foldl_push_converted, List.nil_append]

theorem foldl_push_rows (stod : List Char → Option ℚ) :
    ∀ (lines : List (List Char)) (data : Dataset),
      lines.foldl (fun data line =>
        let row := line_row stod line
        if !row.isEmpty then data ++ [row] else data) data =
        data ++ (lines.map (line_row stod)).filter (fun row => !row.isEmpty)
  | [], data => by simp
  | l :: ls, data => by
    rw [List.foldl_cons, foldl_push_rows stod ls, List.map_cons, List.filter_cons]
    by_cases h : (!(line_row stod l).isEmpty) = true
    · simp only [h, if_true, List.append_assoc, List.singleton_append]
    · simp only [h, if_false, Bool.false_eq_true]

/-- The dataset read holds the rows of the lines, in their order, without
the empty rows. -/
theorem read_data_from_file_eq (stod : List Char → Option ℚ) (content : List Char) :
    read_data_from_file stod content =
      ((read_lines [] content).map (line_row stod)).filter (fun row => !row.isEmpty) := by
  unfold read_data_from_file
  rw [foldl_push_rows, List.nil_append]

theorem length_filterMap_eq_countP {α β : Type} (f : α → Option β) :
    ∀ l : List α, (l.filterMap f).length = l.countP (fun a => (f a).isSome)
  | [] => rfl
  | a :: as => by
    rw [List.filterMap_cons, List.countP_cons, ← length_filterMap_eq_countP f as]
    cases h : f a <;> simp

/-- C14 (amended): for every content of the file and every conversion,
every row of the dataset returned by `read_data_from_file` is non-empty; the
rows are those of the lines with a token that converts, each holding one
value per such token; hence all rows have the length D+1 exactly when every
line has either no token that converts or D+1 of them. -/
theorem read_data_from_file_rows (stod : List Char → Option ℚ) (content : List Char) :
    (∀ row ∈ read_data_from_file stod content, row ≠ []) ∧
    (∀ row, row ∈ read_data_from_file stod content ↔
      row ≠ [] ∧ ∃ line ∈ read_lines [] content, row = (line_tokens line).filterMap stod) ∧
    (∀ D : Nat, Rectangular (read_data_from_file stod content) D ↔
      ∀ line ∈ read_lines [] content,
        (line_tokens line).countP (fun t => (stod t).isSome) = 0 ∨
        (line_tokens line).countP (fun t => (stod t).isSome) = D + 1) := by
  have hmem : ∀ row, row ∈ read_data_from_file stod content ↔
      row ≠ [] ∧ ∃ line ∈ read_lines [] content,
        row = (line_tokens line).filterMap stod := by
    intro row
    rw [read_data_from_file_eq, List.mem_filter, List.mem_map]
    constructor
    · rintro ⟨⟨line, hline, rfl⟩, hne⟩
      refine ⟨fun h => ?_, line, hline, line_row_eq stod line⟩
      rw [h] at hne
      simp at hne
    · rintro ⟨hne, line, hline, rfl⟩
      refine ⟨⟨line, hline, line_row_eq stod line⟩, ?_⟩
      cases h : (line_tokens line).filterMap stod with
      | nil => exact absurd h hne
      | cons a as => rfl
  refine ⟨fun row hrow => ((hmem row).mp hrow).1, hmem, fun D => ?_⟩
  constructor
  · intro hrect line hline
    rw [← length_filterMap_eq_countP]
    cases h : (line_tokens line).filterMap stod with
    | nil => exact Or.inl rfl
    | cons a as =>
      right
      rw [← h]
      exact hrect _ ((hmem _).mpr ⟨by rw [h]; exact List.cons_ne_nil a as, line, hline, rfl⟩)
  · intro hall row hrow
    obtain ⟨hne, line, hline, rfl⟩ := (hmem row).mp hrow
    rcases hall line hline with h0 | hD
    · rw [← length_filterMap_eq_countP] at h0
      exact absurd (List.length_eq_zero.mp h0) hne
    · rw [length_filterMap_eq_countP]
      exact hD

/-- C14 (as stated) fails: the file of the two lines `1 2` and `3` is read
as the rows [1, 2] and [3], which have different lengths. -/
theorem read_data_from_file_ragged_counterexample :
    read_data_from_file stod_digits ragged_file = [[1, 2], [3]] ∧
    ¬ ∃ D : Nat, Rectangular (read_data_from_file stod_digits ragged_file) D := by
  have h : read_data_from_file stod_digits ragged_file = [[1, 2], [3]] := by decide!
  refine ⟨h, ?_⟩
  rintro ⟨D, hD⟩
  rw [h] at hD
  have h1 := hD [1, 2] (by simp)
  have h2 := hD [3] (by simp)
  simp only [List.length_cons, List.length_nil] at h1 h2
  omega

theorem Double.less_irrefl (a : Double) : a.less a = false := by
  cases a <;> simp [Double.less]

theorem Double.less_trans {a b c : Double} (hab : a.less b = true) (hbc : b.less c = true) :
    a.less c = true := by
  cases a <;> cases b <;> cases c <;> simp_all [Double.less]
  exact lt_trans hab hbc

/-- Below the same bound, a value that is not below `b` is above every value
below `b`: the values that compare below something are totally ordered. -/
theorem Double.less_of_not_less {a b c m : Double} (hcb : c.less b = true)
    (hab : a.less b = false) (ham : a.less m = true) : c.less a = true := by
  cases a <;> cases b <;> cases c <;> cases m <;> simp_all [Double.less]
  all_goals exact lt_of_lt_of_le hcb hab

/-! ## The evaluator in `double` arithmetic -/

theorem double_at_index_of_lt (row : DoubleSample) (f : ℤ) (h0 : 0 ≤ f)
    (h : f.toNat < row.length) :
    double_at_index row f = some (row.getD f.toNat (.finite 0)) := by
  unfold double_at_index
  rw [if_pos h0, List.getD_eq_getElem?_getD, List.getElem?_eq_getElem h]
  rfl

theorem double_gather_of_within (row : DoubleSample) (D : Nat) (hrow : row.length = D + 1) :
    ∀ S : List ℤ, (∀ f ∈ S, 0 ≤ f ∧ f ≤ (D : ℤ)) →
      double_gather row S = some (S.map (fun f => row.getD f.toNat (.finite 0)))
  | [], _ => rfl
  | f :: fs, h => by
    have hf := h f (List.mem_cons_self _ _)
    have hlt : f.toNat < row.length := by omega
    rw [double_gather, double_at_index_of_lt row f hf.1 hlt,
      double_gather_of_within row D hrow fs (fun g hg => h g (List.mem_cons_of_mem _ hg))]
    rfl

theorem double_sum_sq_loop_map (ops : DoubleOps) (g h : ℤ → Double) :
    ∀ (S : List ℤ) (sum_sq : Double),
      double_sum_sq_loop ops (S.map g) (S.map h) sum_sq =
        some (S.foldl (fun acc f => ops.add acc (ops.pow2 (ops.sub (g f) (h f)))) sum_sq)
  | [], s => by simp [double_sum_sq_loop]
  | f :: fs, s => by
    simp only [List.map_cons, double_sum_sq_loop, List.foldl_cons]
    rw [double_sum_sq_loop_map ops g h fs]

theorem getD_getD_eq_double_cell (data : DoubleDataset) (i : Nat) (hi : i < data.length)
    (j : Nat) : (data[i]).getD j (.finite 0) = double_cell data i j := by
  unfold double_cell
  rw [List.getD_eq_getElem?_getD data, List.getElem?_eq_getElem hi]
  rfl

theorem double_gather_row (data : DoubleDataset) (D : Nat) (hrect : DoubleRectangular data D)
    (S : List ℤ) (hS : ∀ f ∈ S, 0 ≤ f ∧ f ≤ (D : ℤ)) (i : Nat) (hi : i < data.length) :
    double_gather data[i] S = some (S.map (fun f => double_cell data i f.toNat)) := by
  rw [double_gather_of_within data[i] D (hrect _ (List.getElem_mem _)) S hS]
  congr 1
  exact List.map_congr_left (fun f _ => getD_getD_eq_double_cell data i hi f.toNat)

theorem double_label_row (data : DoubleDataset) (D : Nat) (hrect : DoubleRectangular data D)
    (i : Nat) (hi : i < data.length) :
    double_at_index data[i] CLASS_LABEL_INDEX = some (double_label_of data i) := by
  have hlen := hrect data[i] (List.getElem_mem _)
  rw [double_at_index_of_lt data[i] CLASS_LABEL_INDEX (by decide)
    (by simp [CLASS_LABEL_INDEX, hlen])]
  congr 1
  exact getD_getD_eq_double_cell data i hi _

theorem double_euclidean_distance_rows (ops : DoubleOps) (data : DoubleDataset) (S : List ℤ)
    (i k : Nat) :
    double_euclidean_distance ops (S.map (fun f => double_cell data i f.toNat))
      (S.map (fun f => double_cell data k f.toNat)) =
        some (computed_distance ops data S i k) := by
  unfold double_euclidean_distance computed_distance
  rw [double_sum_sq_loop_map]
  rfl

theorem double_neighbour_step_eq (ops : DoubleOps) (data : DoubleDataset) (D : Nat)
    (hrect : DoubleRectangular data D) (S : List ℤ) (hS : ∀ f ∈ S, 0 ≤ f ∧ f ≤ (D : ℤ))
    (i k : Nat) (hk : k < data.length) (nn : DoubleNearest) :
    double_neighbour_step ops data S i (S.map (fun f => double_cell data i f.toNat)) nn k =
      some (if i = k then nn
        else if (computed_distance ops data S i k).less nn.nearest_neighbor_distance then
          ⟨computed_distance ops data S i k, (double_label_of data k).to_int⟩
        else nn) := by
  unfold double_neighbour_step
  by_cases hik : i = k
  · simp [hik]
  · rw [if_neg hik, if_neg hik, List.getElem?_eq_getElem hk]
    simp only [double_gather_row data D hrect S hS k hk, double_label_row data D hrect k hk,
      double_euclidean_distance_rows]
    split <;> rfl

theorem double_neighbour_loop_eq (ops : DoubleOps) (data : DoubleDataset) (D : Nat)
    (hrect : DoubleRectangular data D) (S : List ℤ) (hS : ∀ f ∈ S, 0 ≤ f ∧ f ≤ (D : ℤ))
    (i : Nat) :
    (List.range data.length).foldlM
      (double_neighbour_step ops data S i (S.map (fun f => double_cell data i f.toNat)))
      ⟨.finite DBL_MAX, -1⟩ = some (double_nearest_of ops data S i data.length) := by
  unfold double_nearest_of
  apply foldlM_eq_some_foldl
  intro k hk nn
  exact double_neighbour_step_eq ops data D hrect S hS i k (List.mem_range.mp hk) nn

theorem double_classify_step_eq (ops : DoubleOps) (data : DoubleDataset) (D : Nat)
    (hrect : DoubleRectangular data D) (S : List ℤ) (hS : ∀ f ∈ S, 0 ≤ f ∧ f ≤ (D : ℤ))
    (i : Nat) (hi : i < data.length) (count : Nat) :
    double_classify_step ops data S count i =
      some (if double_correctly_classified ops data S i then count + 1 else count) := by
  unfold double_classify_step
  rw [List.getElem?_eq_getElem hi]
  simp only [double_gather_row data D hrect S hS i hi, double_label_row data D hrect i hi,
    double_neighbour_loop_eq ops data D hrect S hS i, double_correctly_classified,
    decide_eq_true_eq]
  split <;> rfl

/-- On a rectangular dataset and feature columns within `[0, D]` the evaluator
returns the quotient of the count of the samples it classifies correctly by
the number of samples. -/
theorem double_loocv_eq_count (ops : DoubleOps) (data : DoubleDataset) (D : Nat)
    (hrect : DoubleRectangular data D) (S : List ℤ) (hS : ∀ f ∈ S, 0 ≤ f ∧ f ≤ (D : ℤ)) :
    double_leave_one_out_cross_validation ops data S (-1) =
      some (ops.div
        (Double.of_int (((List.range data.length).filter
          (double_correctly_classified ops data S)).length : ℕ))
        (Double.of_int (data.length : ℕ))) := by
  unfold double_leave_one_out_cross_validation
  simp only [ne_eq, not_true_eq_false, if_false]
  rw [foldlM_eq_some_foldl (double_classify_step ops data S)
    (fun count i => if double_correctly_classified ops data S i then count + 1 else count)
    (List.range data.length) 0
    (fun i hi c => double_classify_step_eq ops data D hrect S hS i (List.mem_range.mp hi) c)]
  simp only [foldl_count, zero_add]

theorem double_nearest_of_succ (ops : DoubleOps) (data : DoubleDataset) (S : List ℤ)
    (i m : Nat) :
    double_nearest_of ops data S i (m + 1) =
      if i = m then double_nearest_of ops data S i m
      else if (computed_distance ops data S i m).less
          (double_nearest_of ops data S i m).nearest_neighbor_distance then
        ⟨computed_distance ops data S i m, (double_label_of data m).to_int⟩
      else double_nearest_of ops data S i m := by
  unfold double_nearest_of
  rw [List.range_succ, List.foldl_append]
  rfl

/-- The state of the loop over `k` after the samples `0 .. m-1`: either
nothing was accepted, and no sample seen is below the initial bound, or the
record is that of a sample `j` below the bound, than which no sample seen is
closer, and which is closer than every earlier sample below the bound. -/
theorem double_nearest_of_invariant (ops : DoubleOps) (data : DoubleDataset) (S : List ℤ)
    (i : Nat) :
    ∀ m : Nat,
      (double_nearest_of ops data S i m = ⟨.finite DBL_MAX, -1⟩ ∧
        ∀ k < m, k ≠ i →
          (computed_distance ops data S i k).less (.finite DBL_MAX) = false) ∨
      (∃ j < m, j ≠ i ∧
        double_nearest_of ops data S i m =
          ⟨computed_distance ops data S i j, (double_label_of data j).to_int⟩ ∧
        (computed_distance ops data S i j).less (.finite DBL_MAX) = true ∧
        (∀ k < m, k ≠ i →
          (computed_distance ops data S i k).less (computed_distance ops data S i j) = false) ∧
        (∀ k < j, k ≠ i → (computed_distance ops data S i k).less (.finite DBL_MAX) = true →
          (computed_distance ops data S i j).less (computed_distance ops data S i k) = true))
  | 0 => Or.inl ⟨rfl, fun k hk => absurd hk (Nat.not_lt_zero k)⟩
  | m + 1 => by
    rw [double_nearest_of_succ]
    by_cases him : i = m
    · rw [if_pos him]
      rcases double_nearest_of_invariant ops data S i m with
        ⟨h0, hall⟩ | ⟨j, hj, hji, hnn, hlt, hmin, hfirst⟩
      · refine Or.inl ⟨h0, fun k hk hki => hall k ?_ hki⟩
        omega
      · refine Or.inr ⟨j, by omega, hji, hnn, hlt, fun k hk hki => hmin k ?_ hki, hfirst⟩
        omega
    · rw [if_neg him]
      rcases double_nearest_of_invariant ops data S i m with
        ⟨h0, hall⟩ | ⟨j, hj, hji, hnn, hlt, hmin, hfirst⟩
      · rw [h0]
        by_cases hd : (computed_distance ops data S i m).less (.finite DBL_MAX) = true
        · rw [if_pos hd]
          refine Or.inr ⟨m, by omega, fun h => him h.symm, rfl, hd, ?_, ?_⟩
          · intro k hk hki
            rcases Nat.lt_succ_iff_lt_or_eq.mp hk with hkm | rfl
            · by_contra hlt
              have h1 := Double.less_trans (Bool.eq_true_of_not_eq_false hlt) hd
              rw [hall k hkm hki] at h1
              exact Bool.false_ne_true h1
            · exact Double.less_irrefl _
          · intro k hk hki hkmax
            rw [hall k hk hki] at hkmax
            exact absurd hkmax Bool.false_ne_true
        · rw [if_neg hd]
          refine Or.inl ⟨rfl, fun k hk hki => ?_⟩
          rcases Nat.lt_succ_iff_lt_or_eq.mp hk with hkm | rfl
          · exact hall k hkm hki
          · exact Bool.eq_false_iff.mpr hd
      · rw [hnn]
        by_cases hd : (computed_distance ops data S i m).less
            (computed_distance ops data S i j) = true
        · rw [if_pos hd]
          refine Or.inr ⟨m, by omega, fun h => him h.symm, rfl, Double.less_trans hd hlt,
            ?_, ?_⟩
          · intro k hk hki
            rcases Nat.lt_succ_iff_lt_or_eq.mp hk with hkm | rfl
            · by_contra hlt2
              have h1 := Double.less_trans (Bool.eq_true_of_not_eq_false hlt2) hd
              rw [hmin k hkm hki] at h1
              exact Bool.false_ne_true h1
            · exact Double.less_irrefl _
          · intro k hk hki hkmax
            exact Double.less_of_not_less hd (hmin k hk hki) hkmax
        · rw [if_neg hd]
          refine Or.inr ⟨j, by omega, hji, rfl, hlt, ?_, hfirst⟩
          intro k hk hki
          rcases Nat.lt_succ_iff_lt_or_eq.mp hk with hkm | rfl
          · exact hmin k hkm hki
          · exact Bool.eq_false_iff.mpr hd

theorem computed_neighbour_of_first (ops : DoubleOps) (data : DoubleDataset) (S : List ℤ)
    (i j : Nat) (hj : j < data.length) (hji : j ≠ i)
    (hlt : (computed_distance ops data S i j).less (.finite DBL_MAX) = true)
    (hmin : ∀ k < data.length, k ≠ i →
      (computed_distance ops data S i k).less (computed_distance ops data S i j) = false)
    (hfirst : ∀ k < j, k ≠ i →
      (computed_distance ops data S i k).less (.finite DBL_MAX) = true →
        (computed_distance ops data S i j).less (computed_distance ops data S i k) = true) :
    computed_neighbour ops data S i = some j := by
  unfold computed_neighbour
  apply find?_range_first _ _ j hj
  · simp only [Bool.and_eq_true, decide_eq_true_eq, List.all_eq_true, Bool.or_eq_true,
      List.mem_range, Bool.not_eq_true']
    refine ⟨⟨hji, hlt⟩, fun k hk => ?_⟩
    by_cases hki : k = i
    · exact Or.inl hki
    · exact Or.inr (hmin k hk hki)
  · intro k hk
    by_cases hki : k = i
    · simp [hki]
    · by_cases hkmax : (computed_distance ops data S i k).less (.finite DBL_MAX) = true
      · have h := hfirst k hk hki hkmax
        simp only [Bool.and_eq_false_iff, decide_eq_false_iff_not, List.all_eq_false]
        refine Or.inr ⟨j, List.mem_range.mpr hj, ?_⟩
        simp [hji, h]
      · simp [Bool.eq_false_iff.mpr hkmax]

theorem double_to_int_intCast (z : ℤ) (hmin : INT_MIN ≤ z) (hmax : z ≤ INT_MAX) :
    (Double.finite (z : ℚ)).to_int = z :=
  static_cast_int_intCast z hmin hmax

/-- The count of the code is the count on computed distances when the labels
are integers in the range of `int` and every sample has another one below the
initial bound. -/
theorem double_count_eq (ops : DoubleOps) (data : DoubleDataset) (S : List ℤ)
    (hint : ∀ i < data.length, ∃ z : ℤ, INT_MIN ≤ z ∧ z ≤ INT_MAX ∧
      double_label_of data i = .finite (z : ℚ))
    (hfin : ∀ i < data.length, ∃ k < data.length, k ≠ i ∧
      (computed_distance ops data S i k).less (.finite DBL_MAX) = true) :
    (List.range data.length).filter (double_correctly_classified ops data S) =
      (List.range data.length).filter (fun i =>
        match computed_neighbour ops data S i with
        | some k => decide (double_label_of data i = double_label_of data k)
        | none => false) := by
  apply List.filter_congr
  intro i hi
  have hi' := List.mem_range.mp hi
  rcases double_nearest_of_invariant ops data S i data.length with
    ⟨_, hall⟩ | ⟨j, hj, hji, hnn, hlt, hmin, hfirst⟩
  · obtain ⟨k, hk, hki, hlt⟩ := hfin i hi'
    rw [hall k hk hki] at hlt
    exact absurd hlt Bool.false_ne_true
  · rw [computed_neighbour_of_first ops data S i j hj hji hlt hmin hfirst]
    obtain ⟨zi, hzimin, hzimax, hzi⟩ := hint i hi'
    obtain ⟨zj, hzjmin, hzjmax, hzj⟩ := hint j hj
    simp only [double_correctly_classified, hnn, hzi, hzj,
      double_to_int_intCast zi hzimin hzimax, double_to_int_intCast zj hzjmin hzjmax,
      Double.finite.injEq, Int.cast_inj]

/-- C1 (amended): in the arithmetic `ops` of `double`, whatever it is. For
every dataset of samples of equal length D+1 whose labels are integers in the
range of `int`, and every feature list S with all indices in [1,D], if every
sample has another sample whose distance to it, as `euclidean_distance`
computes it, is strictly below `numeric_limits<double>::max()` (so n >= 2
unless the dataset is empty), then `leave_one_out_cross_validation(data, S)`
is the quotient by n of the number of samples whose label equals the label of
their predicted neighbour, where the predicted neighbour of i is the
lowest-indexed sample k != i whose computed distance to i is below that bound
and than which no sample is closer on computed distances. -/
theorem loocv_eq_computed_neighbour_accuracy (ops : DoubleOps) (data : DoubleDataset)
    (D : Nat) (S : List ℤ) (hrect : DoubleRectangular data D) (hS : FeaturesWithin S D)
    (hint : ∀ i < data.length, ∃ z : ℤ, INT_MIN ≤ z ∧ z ≤ INT_MAX ∧
      double_label_of data i = .finite (z : ℚ))
    (hfin : ∀ i < data.length, ∃ k < data.length, k ≠ i ∧
      (computed_distance ops data S i k).less (.finite DBL_MAX) = true) :
    double_leave_one_out_cross_validation ops data S (-1) =
      some (computed_neighbour_accuracy ops data S) := by
  rw [double_loocv_eq_count ops data D hrect S hS.columns, double_count_eq ops data S hint hfin]
  rfl

theorem double_rectangular_of_all {data : DoubleDataset} {D : Nat}
    (h : data.all (fun row => decide (row.length = D + 1)) = true) :
    DoubleRectangular data D := by
  intro row hrow
  rw [List.all_eq_true] at h
  simpa using h row hrow

/-- The labels of `tie_data` are 0, 1 and 0. -/
theorem tie_data_int_labels :
    ∀ i < (to_double tie_data).length, ∃ z : ℤ, INT_MIN ≤ z ∧ z ≤ INT_MAX ∧
      double_label_of (to_double tie_data) i = .finite (z : ℚ) := by
  intro i hi
  have hi3 : i < 3 := hi
  interval_cases i
  · exact ⟨0, by decide, by decide, by decide!⟩
  · exact ⟨1, by decide, by decide, by decide!⟩
  · exact ⟨0, by decide, by decide, by decide!⟩

/-- C1 (amended) in binary64 on three samples with the feature set [1, 2].
Sample 0 is at the distance `sqrt(1 + 2^-52)` from sample 1 and at the
distance 1 from sample 2; both computed distances are 1, so the predicted
neighbour of sample 0 on computed distances is sample 1, of the other label;
no sample is classified correctly and the value is 0. -/
theorem loocv_eq_computed_neighbour_accuracy_witness :
    (DoubleRectangular (to_double tie_data) 2 ∧ FeaturesWithin [1, 2] 2 ∧
      (∀ i < (to_double tie_data).length, ∃ z : ℤ, INT_MIN ≤ z ∧ z ≤ INT_MAX ∧
        double_label_of (to_double tie_data) i = .finite (z : ℚ)) ∧
      (∀ i < (to_double tie_data).length, ∃ k < (to_double tie_data).length, k ≠ i ∧
        (computed_distance binary64_ops (to_double tie_data) [1, 2] i k).less
          (.finite DBL_MAX) = true)) ∧
    double_leave_one_out_cross_validation binary64_ops (to_double tie_data) [1, 2] (-1) =
      some (computed_neighbour_accuracy binary64_ops (to_double tie_data) [1, 2]) ∧
    computed_distance binary64_ops (to_double tie_data) [1, 2] 0 1 = .finite 1 ∧
    computed_distance binary64_ops (to_double tie_data) [1, 2] 0 2 = .finite 1 ∧
    computed_neighbour binary64_ops (to_double tie_data) [1, 2] 0 = some 1 ∧
    computed_neighbour_accuracy binary64_ops (to_double tie_data) [1, 2] = .finite 0 :=
  ⟨⟨double_rectangular_of_all (by decide), features_within_of_all (by decide),
      tie_data_int_labels, by decide!⟩,
    loocv_eq_computed_neighbour_accuracy binary64_ops (to_double tie_data) 2 [1, 2]
      (double_rectangular_of_all (by decide)) (features_within_of_all (by decide))
      tie_data_int_labels (by decide!),
    by decide!, by decide!, by decide!, by decide!⟩

/-- The labels of `overflow_data`, `tie_data` and `large_label_data` are
integers. -/
theorem counterexample_labels :
    (∀ i < overflow_data.length, ∃ z : ℤ, label_of overflow_data i = (z : ℚ)) ∧
    (∀ i < tie_data.length, ∃ z : ℤ, label_of tie_data i = (z : ℚ)) ∧
    (∀ i < large_label_data.length, ∃ z : ℤ, label_of large_label_data i = (z : ℚ)) := by
  refine ⟨?_, ?_, ?_⟩
  · intro i hi
    have hi2 : i < 2 := hi
    interval_cases i
    · exact ⟨0, by decide!⟩
    · exact ⟨0, by decide!⟩
  · intro i hi
    have hi3 : i < 3 := hi
    interval_cases i
    · exact ⟨0, by decide!⟩
    · exact ⟨1, by decide!⟩
    · exact ⟨0, by decide!⟩
  · intro i hi
    have hi2 : i < 2 := hi
    interval_cases i
    · exact ⟨3000000000, by decide!⟩
    · exact ⟨4000000000, by decide!⟩

/-- C1 (as stated) fails at three inputs, evaluated in binary64; each has
n >= 2 samples of equal length, integer-valued labels and features within
[1,D], and the value of the claim, on the true Euclidean distances and the
labels themselves, is `nearest_neighbour_accuracy`.
(1) Two samples of label 0 whose feature differs by 2^600: each is the
predicted neighbour of the other and the claim gives 1; the square of the
difference overflows to an infinity, which is not below the initial bound, no
neighbour is accepted and the code returns 0.
(2) Three samples, sample 0 at the distances `sqrt(1 + 2^-52)` and 1 from
samples 1 and 2: the predicted neighbour of sample 0 is sample 2, of its own
label, and the claim gives 1/3; both computed distances are 1, the code takes
sample 1, of the other label, and returns 0.
(3) Two samples with the labels 3000000000 and 4000000000: the labels differ
and the claim gives 0; the code compares the labels converted to `int`,
which are equal, and returns 1. -/
theorem loocv_euclidean_distance_counterexample :
    ((2 ≤ overflow_data.length ∧ Rectangular overflow_data 1 ∧ FeaturesWithin [1] 1 ∧
        ∀ i < overflow_data.length, ∃ z : ℤ, label_of overflow_data i = (z : ℚ)) ∧
      nearest_neighbour_accuracy overflow_data [1] = 1 ∧
      double_leave_one_out_cross_validation binary64_ops (to_double overflow_data) [1] (-1) =
        some (.finite 0)) ∧
    ((2 ≤ tie_data.length ∧ Rectangular tie_data 2 ∧ FeaturesWithin [1, 2] 2 ∧
        ∀ i < tie_data.length, ∃ z : ℤ, label_of tie_data i = (z : ℚ)) ∧
      nearest_neighbour_accuracy tie_data [1, 2] = 1 / 3 ∧
      double_leave_one_out_cross_validation binary64_ops (to_double tie_data) [1, 2] (-1) =
        some (.finite 0)) ∧
    ((2 ≤ large_label_data.length ∧ Rectangular large_label_data 1 ∧ FeaturesWithin [1] 1 ∧
        ∀ i < large_label_data.length, ∃ z : ℤ, label_of large_label_data i = (z : ℚ)) ∧
      nearest_neighbour_accuracy large_label_data [1] = 0 ∧
      double_leave_one_out_cross_validation binary64_ops (to_double large_label_data) [1]
        (-1) = some (.finite 1)) :=
  ⟨⟨⟨by decide, rectangular_of_all (by decide), features_within_of_all (by decide),
      counterexample_labels.1⟩, by decide!, by decide!⟩,
    ⟨⟨by decide, rectangular_of_all (by decide), features_within_of_all (by decide),
      counterexample_labels.2.1⟩, by decide!, by decide!⟩,
    ⟨⟨by decide, rectangular_of_all (by decide), features_within_of_all (by decide),
      counterexample_labels.2.2⟩, by decide!, by decide!⟩⟩

/-! ## The normaliser -/

/-- The zero-variance guard at work, in binary64: the first feature of
`five_data` is the constant 5, its mean is computed as 5, every deviation is
0, the standard deviation 0 is replaced by 1 and every entry of the column
becomes 0; the labels are unchanged. -/
theorem normalize_data_constant_five :
    column_mean binary64_ops (to_double five_data) 0 = some (.finite 5) ∧
    column_stddev binary64_ops (to_double five_data) 0 = some (.finite 1) ∧
    (normalize_data binary64_ops (to_double five_data)).map
        (fun out => out.map (fun row => row.take 2)) =
      some (to_double [[0, 0], [1, 0], [0, 0]]) :=
  ⟨by decide!, by decide!, by decide!⟩

/-- C16 fails in the code, evaluated in binary64: the only feature of the
three samples of `tenth_data` is the constant 0.1 (the `double` nearest to
it). The sum 0.1 + 0.1 + 0.1 is rounded upward, so the mean is computed as
the next `double` above 0.1; every deviation is `-2^-56`, the standard
deviation is computed as `2^-56`, which is not `== 0.0`, the divisor stays
and every entry of the column becomes -1 instead of 0. The labels are
unchanged. -/
theorem normalize_data_constant_tenth :
    (∀ i < tenth_data.length, cell tenth_data i 1 = tenth) ∧
    column_mean binary64_ops (to_double tenth_data) 0 = some (.finite (tenth + 1 / 2 ^ 56)) ∧
    column_stddev binary64_ops (to_double tenth_data) 0 = some (.finite (1 / 2 ^ 56)) ∧
    normalize_data binary64_ops (to_double tenth_data) =
      some (to_double [[0, -1], [0, -1], [0, -1]]) :=
  ⟨by decide!, by decide!, by decide!, by decide!⟩

/-! ## The empty feature list in `double` arithmetic -/

theorem first_sample_accuracy_eq {α : Type} [DecidableEq α] (lab : Nat → α) (n : Nat) :
    first_sample_accuracy lab n = (first_sample_count lab n : ℚ) / (n : ℚ) := rfl

theorem to_double_length (data : Dataset) : (to_double data).length = data.length := by
  unfold to_double
  rw [List.length_map]

theorem double_cell_to_double (data : Dataset) (i j : Nat) :
    double_cell (to_double data) i j = .finite (cell data i j) := by
  unfold double_cell cell to_double
  have h : ([] : DoubleSample) = ([] : Sample).map Double.finite := rfl
  rw [h, List.getD_map, List.getD_map]

theorem double_label_of_to_double (data : Dataset) (i : Nat) :
    double_label_of (to_double data) i = .finite (label_of data i) :=
  double_cell_to_double data i CLASS_LABEL_INDEX

theorem double_rectangular_to_double (data : Dataset) (D : Nat) (hrect : Rectangular data D) :
    DoubleRectangular (to_double data) D := by
  intro row hrow
  unfold to_double at hrow
  obtain ⟨r, hr, rfl⟩ := List.mem_map.mp hrow
  rw [List.length_map]
  exact hrect r hr

/-- The samples counted when every sample is compared with the first other
sample: sample 1 for sample 0, and sample 0 for the others. -/
theorem filter_first_other_length {α : Type} [DecidableEq α] (lab : Nat → α) (c : Nat → Bool)
    (n : Nat) (hn : 2 ≤ n)
    (hc : ∀ i, i < n → c i = decide (lab i = lab (if i = 0 then 1 else 0))) :
    ((List.range n).filter c).length = first_sample_count lab n := by
  unfold first_sample_count
  obtain ⟨m, rfl⟩ : ∃ m, n = m + 1 := ⟨n - 1, by omega⟩
  rw [List.range_succ_eq_map, List.filter_cons, List.filter_cons]
  have h0 := hc 0 (by omega)
  simp only [if_true] at h0
  have htail : (List.map Nat.succ (List.range m)).filter c =
      (List.map Nat.succ (List.range m)).filter (fun i => decide (1 ≤ i) &&
        decide (lab i = lab 0)) := by
    apply List.filter_congr
    intro i hi
    obtain ⟨j, hj, rfl⟩ := List.mem_map.mp hi
    have hlt := List.mem_range.mp hj
    rw [hc (j + 1) (by omega)]
    simp
  rw [htail, h0]
  by_cases heq : lab 0 = lab 1
  · simp [heq]
  · simp [heq]

/-- With no feature and `sqrt(0)` below the initial bound, the loop over `k`
ends on the first sample other than `i`. -/
theorem double_nearest_of_nil (ops : DoubleOps) (data : DoubleDataset)
    (hsqrt : (ops.sqrt (.finite 0)).less (.finite DBL_MAX) = true)
    (hn : 2 ≤ data.length) (i : Nat) :
    (double_nearest_of ops data [] i data.length).nearest_neighbor_label =
      (double_label_of data (if i = 0 then 1 else 0)).to_int := by
  have hd : ∀ k, computed_distance ops data [] i k = ops.sqrt (.finite 0) := fun _ => rfl
  rcases double_nearest_of_invariant ops data [] i data.length with
    ⟨_, hall⟩ | ⟨j, hj, hji, hnn, _, _, hfirst⟩
  · exfalso
    by_cases h0 : i = 0
    · have := hall 1 (by omega) (by omega)
      rw [hd, hsqrt] at this
      exact Bool.noConfusion this
    · have := hall 0 (by omega) (fun h => h0 h.symm)
      rw [hd, hsqrt] at this
      exact Bool.noConfusion this
  · rw [hnn]
    have hno : ∀ k, k < j → k = i := by
      intro k hk
      by_contra hki
      have := hfirst k hk hki (by rw [hd]; exact hsqrt)
      rw [hd, hd, Double.less_irrefl] at this
      exact Bool.noConfusion this
    by_cases h0 : i = 0
    · have hj1 : j = 1 := by
        by_contra hne
        have := hno 1 (by omega)
        omega
      rw [if_pos h0, hj1]
    · have hj0 : j = 0 := by
        by_contra hne
        have := hno 0 (by omega)
        omega
      rw [if_neg h0, hj0]

/-- The evaluator in `double` arithmetic on the empty feature list. -/
theorem double_loocv_nil (ops : DoubleOps) (data : Dataset) (D : Nat) (hn : 2 ≤ data.length)
    (hrect : Rectangular data D)
    (hsqrt : (ops.sqrt (.finite 0)).less (.finite DBL_MAX) = true) :
    double_leave_one_out_cross_validation ops (to_double data) [] (-1) =
      some (ops.div
        (Double.of_int
          (first_sample_count (fun i => static_cast_int (label_of data i)) data.length : ℕ))
        (Double.of_int (data.length : ℕ))) := by
  rw [double_loocv_eq_count ops (to_double data) D (double_rectangular_to_double data D hrect) []
    (fun f hf => absurd hf (List.not_mem_nil f)), to_double_length]
  rw [filter_first_other_length (fun i => static_cast_int (label_of data i))
    (double_correctly_classified ops (to_double data) []) data.length hn]
  intro i _
  unfold double_correctly_classified
  rw [double_nearest_of_nil ops (to_double data) hsqrt (by rw [to_double_length]; exact hn) i,
    double_label_of_to_double, double_label_of_to_double]
  rfl

/-- When the labels are integers in the range of `int`, the count on the
converted labels is the count on the labels themselves. -/
theorem first_sample_count_int_labels (data : Dataset) (hn : 2 ≤ data.length)
    (hint : ∀ i < data.length,
      ∃ z : ℤ, INT_MIN ≤ z ∧ z ≤ INT_MAX ∧ label_of data i = (z : ℚ)) :
    first_sample_count (fun i => static_cast_int (label_of data i)) data.length =
      first_sample_count (label_of data) data.length := by
  unfold first_sample_count
  obtain ⟨z0, hz0min, hz0max, hz0⟩ := hint 0 (by omega)
  obtain ⟨z1, hz1min, hz1max, hz1⟩ := hint 1 (by omega)
  have hfilter : (List.range data.length).filter (fun i => decide (1 ≤ i) &&
        decide (static_cast_int (label_of data i) = static_cast_int (label_of data 0))) =
      (List.range data.length).filter (fun i => decide (1 ≤ i) &&
        decide (label_of data i = label_of data 0)) := by
    apply List.filter_congr
    intro i hi
    obtain ⟨z, hzmin, hzmax, hz⟩ := hint i (List.mem_range.mp hi)
    simp only [hz, hz0, static_cast_int_intCast z hzmin hzmax,
      static_cast_int_intCast z0 hz0min hz0max, Int.cast_inj]
  rw [hfilter]
  simp only [hz0, hz1, static_cast_int_intCast z0 hz0min hz0max,
    static_cast_int_intCast z1 hz1min hz1max, Int.cast_inj]

/-- C20 (amended): with the empty feature list every distance is 0 and the
first other sample wins. For every dataset with n >= 2 samples (of equal
length D+1), `leave_one_out_cross_validation(data, [])` is (the number of
samples i >= 1 whose label, converted to `int` as the code converts it,
equals the converted label of sample 0, plus 1 if the converted labels of
samples 0 and 1 are equal) / n; when the labels are integers in the range of
`int` the conversion changes nothing and this is the count on the labels
themselves. This holds in exact arithmetic and in every `double` arithmetic
in which `sqrt(0)` is below `numeric_limits<double>::max()`, as in binary64,
where the quotient is the `double` quotient. It is the value that a round of
backward elimination evaluates for its only candidate when current holds one
feature. -/
theorem loocv_empty_features (data : Dataset) (D : Nat) (hn : 2 ≤ data.length)
    (hrect : Rectangular data D) :
    (leave_one_out_cross_validation data [] (-1) =
        some (first_sample_accuracy (fun i => static_cast_int (label_of data i))
          data.length) ∧
      ∀ ops : DoubleOps, (ops.sqrt (.finite 0)).less (.finite DBL_MAX) = true →
        double_leave_one_out_cross_validation ops (to_double data) [] (-1) =
          some (ops.div
            (Double.of_int
              (first_sample_count (fun i => static_cast_int (label_of data i))
                data.length : ℕ))
            (Double.of_int (data.length : ℕ)))) ∧
    ((∀ i < data.length, ∃ z : ℤ, INT_MIN ≤ z ∧ z ≤ INT_MAX ∧ label_of data i = (z : ℚ)) →
      leave_one_out_cross_validation data [] (-1) =
        some (first_sample_accuracy (label_of data) data.length) ∧
      ∀ ops : DoubleOps, (ops.sqrt (.finite 0)).less (.finite DBL_MAX) = true →
        double_leave_one_out_cross_validation ops (to_double data) [] (-1) =
          some (ops.div
            (Double.of_int (first_sample_count (label_of data) data.length : ℕ))
            (Double.of_int (data.length : ℕ)))) ∧
    (binary64_ops.sqrt (.finite 0)).less (.finite DBL_MAX) = true ∧
    (∀ f : ℤ, task_queue 0 (([f] : List ℤ).length : ℤ) = [0] ∧
      backward_temp_features [f] 0 = some [] ∧
      backward_candidate data [f] 0 = leave_one_out_cross_validation data [] (-1)) := by
  have h := loocv_eq_accuracy data D (by omega) hrect []
    (fun f hf => absurd hf (List.not_mem_nil f))
  refine ⟨⟨by rw [h, accuracy_nil data hn],
      fun ops hsqrt => double_loocv_nil ops data D hn hrect hsqrt⟩,
    fun hint => ⟨?_, fun ops hsqrt => ?_⟩, by decide!, fun f => ⟨rfl, rfl, rfl⟩⟩
  · rw [h, accuracy_nil data hn, first_sample_accuracy_eq, first_sample_accuracy_eq,
      first_sample_count_int_labels data hn hint]
  · rw [double_loocv_nil ops data D hn hrect hsqrt, first_sample_count_int_labels data hn hint]

/-- The labels of the worked example are 0 and 1, integers in the range of
`int`. -/
theorem example_data_int_labels :
    ∀ i < example_data.length,
      ∃ z : ℤ, INT_MIN ≤ z ∧ z ≤ INT_MAX ∧ label_of example_data i = (z : ℚ) := by
  intro i hi
  simp only [example_data, List.length_cons, List.length_nil] at hi
  interval_cases i
  · exact ⟨0, by decide, by decide, by simp [label_of, cell, CLASS_LABEL_INDEX, example_data]⟩
  · exact ⟨1, by decide, by decide, by simp [label_of, cell, CLASS_LABEL_INDEX, example_data]⟩
  · exact ⟨0, by decide, by decide, by simp [label_of, cell, CLASS_LABEL_INDEX, example_data]⟩
  · exact ⟨1, by decide, by decide, by simp [label_of, cell, CLASS_LABEL_INDEX, example_data]⟩

/-- C20 (amended) on the worked example {(0,0),(1,10),(0,1),(1,9)}: the labels
0, 1, 0, 1 are integers in the range of `int`; sample 2 is the one sample
i >= 1 with the label of sample 0 and the labels of samples 0 and 1 differ,
so the value is (1 + 0) / 4, in exact arithmetic and in binary64. -/
theorem loocv_empty_features_witness :
    (2 ≤ example_data.length ∧ Rectangular example_data 1 ∧
      ∀ i < example_data.length,
        ∃ z : ℤ, INT_MIN ≤ z ∧ z ≤ INT_MAX ∧ label_of example_data i = (z : ℚ)) ∧
    (leave_one_out_cross_validation example_data [] (-1) =
        some (first_sample_accuracy (label_of example_data) example_data.length) ∧
      ∀ ops : DoubleOps, (ops.sqrt (.finite 0)).less (.finite DBL_MAX) = true →
        double_leave_one_out_cross_validation ops (to_double example_data) [] (-1) =
          some (ops.div
            (Double.of_int
              (first_sample_count (label_of example_data) example_data.length : ℕ))
            (Double.of_int (example_data.length : ℕ)))) ∧
    first_sample_count (label_of example_data) example_data.length = 1 ∧
    leave_one_out_cross_validation example_data [] (-1) = some (1 / 4) ∧
    double_leave_one_out_cross_validation binary64_ops (to_double example_data) [] (-1) =
      some (.finite (1 / 4)) ∧
    backward_candidate example_data [1] 0 = some (1 / 4) :=
  ⟨⟨by decide, rectangular_of_all (by decide), example_data_int_labels⟩,
    (loocv_empty_features example_data 1 (by decide) (rectangular_of_all (by decide))).2.1
      example_data_int_labels,
    by decide!, by decide!, by decide!, by decide!⟩

/-- C20 (as stated) fails: the two samples without features whose labels are
the integers 3000000000 and 4000000000 have different labels, so the claimed
value is (0 + 0) / 2 = 0; both labels are outside the range of `int`, the
code compares their conversions, which are equal, counts both samples and
returns 1, in exact and in binary64 arithmetic. -/
theorem loocv_empty_features_counterexample :
    (2 ≤ large_labels.length ∧ Rectangular large_labels 0 ∧
      label_of large_labels 0 = ((3000000000 : ℤ) : ℚ) ∧
      label_of large_labels 1 = ((4000000000 : ℤ) : ℚ)) ∧
    first_sample_accuracy (label_of large_labels) large_labels.length = 0 ∧
    leave_one_out_cross_validation large_labels [] (-1) = some 1 ∧
    double_leave_one_out_cross_validation binary64_ops (to_double large_labels) [] (-1) =
      some (.finite 1) :=
  ⟨⟨by decide, rectangular_of_all (by decide), by decide!, by decide!⟩, by decide!, by decide!,
    by decide!⟩

end Search
